import Mathlib

/-!
Verification development for the `list-positions` repository.

We shallowly embed the repository's source files:

* `lex_utils.ts` (src/unnamed/part_002): the prefix-free base-36 number
  sequence, offset / value-index encoders, and `LexUtils`
  (`combinePos`, `splitPos`, `combineNodePrefix`, `bunchIDFor`).
* `order.ts` (src/unnamed/part_003): the bunch tree (`Order`), with
  `getNodeFor`, `compare`, `receive`, `createPositions`, `isDescendant`,
  `lex`, `unlex` and `compareSiblingNodes`.
* `local_list.ts` (src/unnamed/part_001): the `List` presence map with
  run-length items, `set`, `delete`, `locate2`, `index`, `position`,
  `valuesAndChildren`, `save` and `load`.
* `position_source.ts` (src/src/position_source.ts): `PositionSource`
  with `createBetween`, `newWaypoint`, `lexSucc`.

JavaScript semantics that matter are modelled explicitly: `^` is 32-bit
signed XOR (`jsXor`), `>> 1` on nonnegative integers is division by two,
`Number.prototype.toString(36)` renders a sign followed by lowercase
base-36 digits, and string comparison is lexicographic on code units.
-/

namespace LP

/-! ### JavaScript number semantics -/

/-- Wrap an integer into the signed 32-bit range, as JavaScript ToInt32 does. -/
def toInt32 (x : Int) : Int :=
  ((x + 2 ^ 31) % 2 ^ 32) - 2 ^ 31

/-- Unsigned 32-bit representative of an integer (JavaScript ToUint32). -/
def toUInt32 (x : Int) : Nat :=
  (x % 2 ^ 32).toNat

/-- JavaScript `x ^ y` on numbers: both operands are converted to 32-bit
integers, XORed bitwise, and the result is read back as a signed 32-bit
integer. -/
def jsXor (x y : Int) : Int :=
  toInt32 (Nat.xor (toUInt32 x) (toUInt32 y))

/-- Digit characters used by `Number.prototype.toString(36)`:
`0`-`9` then lowercase `a`-`z`. -/
def digitChar36 (k : Nat) : Char :=
  if k < 10 then Char.ofNat (48 + k) else Char.ofNat (87 + k)

/-- Base-36 digits of a natural number, most significant first
(empty for zero).  Structural in `fuel`: any `fuel ≥ n` computes all
digits, since the value divides by 36 each step. -/
def natDigits36 : Nat → Nat → List Char → List Char
  | _, 0, acc => acc
  | 0, _, acc => acc
  | fuel + 1, n, acc => natDigits36 fuel (n / 36) (digitChar36 (n % 36) :: acc)

/-- JavaScript `x.toString(36)` for an integer `x`: an optional `-` sign
followed by the lowercase base-36 digits of the magnitude. -/
def jsToString36 (x : Int) : String :=
  if x = 0 then "0"
  else if x < 0 then String.mk ('-' :: natDigits36 x.natAbs x.natAbs [])
  else String.mk (natDigits36 x.toNat x.toNat [])

/-! ### lex_utils.ts: the special number sequence

`BASE = 36`.  `sequence` is transcribed exactly from the source, including
its use of JavaScript `^` (XOR) in the final expression
`(remaining + BASE) ^ (d - BASE * (BASE / 2)) ^ (d - 1)`.  The doc comment
in the source instead describes `remaining + BASE^d - BASE*(BASE/2)^(d-1)`.
-/

/-- The digit-length search loop of `sequence`: subtract `(BASE/2)^d` counts
until `remaining` fits, returning the final `(remaining, d)`.  `remaining`
is an `Int` because JavaScript numbers are signed; for a negative input the
loop exits immediately. -/
def seqLoop : Nat → Int → Nat → Int × Nat
  | 0, remaining, d => (remaining, d)
  | fuel + 1, remaining, d =>
    if remaining < 18 ^ d then (remaining, d)
    else seqLoop fuel (remaining - 18 ^ d) (d + 1)

/-- `sequence(n)` from lex_utils.ts, with JavaScript `^` modelled as 32-bit
XOR.  The source computes
`(remaining + BASE) ^ (d - BASE * (BASE / 2)) ^ (d - 1)`.  The loop runs
structurally on a fuel that always suffices (each round removes
`18^d ≥ 18`). -/
def sequence (n : Int) : Int :=
  let rd := seqLoop (n.toNat + 1) n 1
  jsXor (jsXor (rd.1 + 36) ((rd.2 : Int) - 36 * 18)) ((rd.2 : Int) - 1)

/-- `encodeOffset(offset) = sequence(offset).toString(BASE)`. -/
def encodeOffset (offset : Int) : String :=
  jsToString36 (sequence offset)

/-- `encodeValueIndex(valueIndex) = encodeOffset(2 * valueIndex + 1)`. -/
def encodeValueIndex (valueIndex : Int) : String :=
  encodeOffset (2 * valueIndex + 1)

/-- Number of base-36 digits of a natural number (1 for zero).  This is the
exact value of the source's `Math.floor(Math.log(seq) / LOG_BASE) + 1` for
the integer magnitudes in play (the float logarithm is exact enough there). -/
def digitCount36 (fuel n : Nat) : Nat :=
  match fuel with
  | 0 => 1
  | fuel + 1 => if n < 36 then 1 else 1 + digitCount36 fuel (n / 36)

/-- `sequenceInv(seq)` from lex_utils.ts: index of `seq` in the sequence.
For a negative argument the source's `Math.log` yields `NaN`, which
propagates; we model that as `none`. -/
def sequenceInv (seq : Int) : Option Int :=
  if seq < 0 then none
  else
    let d : Nat := if seq = 0 then 1 else digitCount36 seq.toNat seq.toNat
    let first : Int := 36 ^ d - 36 * 18 ^ (d - 1)
    some (seq - first + (Finset.range (d - 1)).sum (fun d2 => (18 : Int) ^ (d2 + 1)))

/-- JavaScript `x >> 1`: convert to a signed 32-bit integer, then
arithmetic right shift, i.e. floor division by two. -/
def jsShr1 (x : Int) : Int :=
  Int.ediv (toInt32 x) 2

/-! ### String helpers with JavaScript semantics -/

/-- Lexicographic order on character lists by code point, as JavaScript
compares strings (all characters in play are ASCII). -/
def charListLt : List Char → List Char → Bool
  | [], [] => false
  | [], _ :: _ => true
  | _ :: _, [] => false
  | a :: as, b :: bs =>
    if a.val < b.val then true
    else if b.val < a.val then false
    else charListLt as bs

/-- JavaScript `a < b` on strings. -/
def jsStrLt (a b : String) : Bool :=
  charListLt a.data b.data

/-- Index of the last occurrence of `c` in `s` (JavaScript
`lastIndexOf` returning -1 becomes `none`). -/
def lastIndexOf (s : String) (c : Char) : Option Nat :=
  let idxs := (List.range s.data.length).filter (fun i => s.data.get? i = some c)
  idxs.getLast?

/-- Index of the first occurrence of `c` in `s` (JavaScript
`indexOf` returning -1 becomes `none`). -/
def firstIndexOf (s : String) (c : Char) : Option Nat :=
  let idxs := (List.range s.data.length).filter (fun i => s.data.get? i = some c)
  idxs.head?

/-- Substring `s[i..j)` with already-clamped natural indices
(JavaScript `slice` after clamping). -/
def strSlice (s : String) (i j : Nat) : String :=
  String.mk ((s.data.drop i).take (j - i))

/-- Substring from `i` to the end. -/
def strSliceFrom (s : String) (i : Nat) : String :=
  String.mk (s.data.drop i)

/-! ### lex_utils.ts: parseInt and the decoders -/

/-- Value of a base-36 digit character (`0`-`9`, `a`-`z`, `A`-`Z`),
or `none` if the character is not a base-36 digit. -/
def digitVal36 (c : Char) : Option Nat :=
  if 48 ≤ c.val ∧ c.val ≤ 57 then some (c.val.toNat - 48)
  else if 97 ≤ c.val ∧ c.val ≤ 122 then some (c.val.toNat - 87)
  else if 65 ≤ c.val ∧ c.val ≤ 90 then some (c.val.toNat - 55)
  else none

/-- Maximal leading run of base-36 digits, folded into a value;
`none` when there is no digit at all (JavaScript `parseInt` NaN). -/
def parseDigits36 : List Char → Option Nat
  | [] => none
  | c :: cs =>
    match digitVal36 c with
    | none => none
    | some v =>
      match parseDigits36 cs with
      | none => some v
      | some rest =>
        -- Fold left over the maximal digit run.
        some (v * 36 ^ (cs.takeWhile (fun c => (digitVal36 c).isSome)).length + rest)

/-- JavaScript `Number.parseInt(s, 36)`: optional sign, then a maximal
run of base-36 digits; `none` models NaN. -/
def parseInt36 (s : String) : Option Int :=
  match s.data with
  | '-' :: rest => (parseDigits36 rest).map (fun n => -(n : Int))
  | l => (parseDigits36 l).map (fun n => (n : Int))

/-- `decodeOffset(encoded)` from lex_utils.ts:
`sequenceInv(Number.parseInt(encoded, BASE))`; `none` models NaN. -/
def decodeOffset (encoded : String) : Option Int :=
  (parseInt36 encoded).bind sequenceInv

/-- `decodeValueIndex(encoded) = decodeOffset(encoded) >> 1`; JavaScript
`NaN >> 1` is 0. -/
def decodeValueIndex (encoded : String) : Int :=
  match decodeOffset encoded with
  | none => 0
  | some v => jsShr1 v

/-! ### lex_utils.ts: LexUtils -/

/-- The reserved root bunch id.  Modelled from the spec: `BunchIDs.ROOT`
lives in bunch_ids.ts, which is not among the repository's files; the spec
fixes a reserved constant `ROOT` not assignable by user code. -/
def ROOT : String := "ROOT"

/-- Modelled from the spec: `BunchIDs.validate` (bunch_ids.ts is not among
the repository's files).  Per spec §4.2/§6/§7, a valid id is nonempty, has
no `','` and no `'.'`, every character is greater than `','`, and the first
character is less than `'~'`. -/
def validateID (id : String) : Bool :=
  match id.data with
  | [] => false
  | c :: _ =>
    c.val < 126 && id.data.all (fun ch => 44 < ch.val && ch ≠ '.')

/-- `LexUtils.combinePos(nodePrefix, valueIndex)`; `none` models the throw
for a root position whose value index is neither 0 nor 1. -/
def combinePos (nodePfx : String) (valueIndex : Int) : Option String :=
  if nodePfx = "" then
    if valueIndex = 0 then some ""
    else if valueIndex = 1 then some "~"
    else none
  else some (nodePfx ++ "," ++ encodeValueIndex valueIndex)

/-- `LexUtils.splitPos(lexPos)`.  Note the source returns `["", 0]` for
`MAX_LEX_POSITION` (`"~"`), the same pair as for `MIN_LEX_POSITION`. -/
def splitPos (lexPos : String) : String × Int :=
  if lexPos = "" then ("", 0)
  else if lexPos = "~" then ("", 0)
  else
    match lastIndexOf lexPos ',' with
    | some i => (strSlice lexPos 0 i, decodeValueIndex (strSliceFrom lexPos (i + 1)))
    | none =>
      -- JavaScript lastIndexOf = -1: slice(0, -1) and slice(0).
      (strSlice lexPos 0 (lexPos.data.length - 1), decodeValueIndex lexPos)

/-- `LexUtils.bunchIDFor(nodePrefix)` (named `nodeIDFor` in the source). -/
def bunchIDFor (nodePfx : String) : Option String :=
  if nodePfx = "" then some ROOT
  else
    match lastIndexOf nodePfx ',' with
    | none => some nodePfx
    | some i =>
      let lastPart := strSliceFrom nodePfx (i + 1)
      match firstIndexOf lastPart '.' with
      | none => none  -- throws: bad nodePrefix format
      | some d => some (strSliceFrom lastPart (d + 1))

/-- Metadata of one non-root bunch: the unit of exchange (`BunchMeta`). -/
structure BunchMeta where
  bunchID : String
  parentID : String
  offset : Int
deriving DecidableEq, Repr

/-- Split a string at every occurrence of `sep` (JavaScript `split`). -/
def strSplit (s : String) (sep : Char) : List String :=
  (s.data.splitOn sep).map String.mk

/-- `LexUtils.combineNodePrefix(metas)`; `none` models the thrown errors
for an invalid tree path. -/
def combineNodePfx (metas : List BunchMeta) : Option String :=
  match metas with
  | [] => some ""
  | m0 :: rest =>
    if m0.parentID ≠ ROOT then none
    else
      let step := fun (acc : Option (String × List String)) (m : BunchMeta) =>
        match acc with
        | none => none
        | some (prevID, parts) =>
          if m.parentID ≠ prevID then none
          else some (m.bunchID, parts ++ [encodeOffset m.offset ++ "." ++ m.bunchID])
      (rest.foldl step (some (m0.bunchID, [m0.bunchID]))).map
        (fun acc => String.intercalate "," acc.2)

/-- `LexUtils.splitNodePrefix(nodePrefix)`; `none` models the thrown error
for a part without a `'.'`.  The decoded offset may be NaN in JavaScript;
we model that as 0 (it only feeds `BunchMeta.offset`). -/
def splitNodePfx (nodePfx : String) : Option (List BunchMeta) :=
  if nodePfx = "" then some []
  else
    match strSplit nodePfx ',' with
    | [] => some []
    | p0 :: rest =>
      let step := fun (acc : Option (String × List BunchMeta)) (p : String) =>
        match acc with
        | none => none
        | some (parentID, metas) =>
          match firstIndexOf p '.' with
          | none => none
          | some dot =>
            let id := strSliceFrom p (dot + 1)
            let off := (decodeOffset (strSlice p 0 dot)).getD 0
            some (id, metas ++ [⟨id, parentID, off⟩])
      (rest.foldl step (some (p0, [⟨p0, ROOT, 0⟩]))).map (fun acc => acc.2)

/-! ### order.ts: the bunch tree

The `Order` state is the map from bunch id to node (`tree`), plus the
locally-created bookkeeping (`createdCounter` per node, and the
`createdChildren` map keyed by `(parent id, offset)`).  A node stores its
parent id (`none` for the root), its offset, and its depth, exactly the
data `NodeInternal` carries; the `children` arrays are not modelled because
none of `compare`, `createPositions`, `receive`'s success/failure, `lex` or
`unlex` reads them.  Node identity is id equality: `receive` installs each
id at most once.  Thrown errors become `Except`/`Option` failures. -/

/-- A position: bunch id plus inner index.  The inner index is an `Int`
so that `getNodeFor`'s nonnegativity validation is meaningful. -/
structure Position where
  bunchID : String
  innerIndex : Int
deriving DecidableEq, Repr

/-- Data of one tree node (`NodeInternal` without its children array). -/
structure NodeRec where
  parentID : Option String
  offset : Int
  depth : Nat
deriving DecidableEq, Repr

/-- The `Order`'s state. -/
structure OrderState where
  tree : List (String × NodeRec)
  created : List (String × Int)
  createdChildren : List ((String × Int) × String)
deriving DecidableEq, Repr

/-- The error kinds `Order` can throw (messages dropped). -/
inductive OrderErr where
  | invalidPosition | unknownBunch | invalidRoot | conflict | invalidID
  | unknownParent | cycle | idCollision | inversion | internal
deriving DecidableEq, Repr

/-- A fresh `Order`: only the root node. -/
def initialOrder : OrderState :=
  ⟨[(ROOT, ⟨none, 0, 0⟩)], [], []⟩

/-- Association-list lookup by first component. -/
def assocFind {A : Type} : List (String × A) → String → Option A
  | [], _ => none
  | (k, v) :: rest, id => if k = id then some v else assocFind rest id

/-- Look a node up by id. -/
def treeFind (st : OrderState) (id : String) : Option NodeRec :=
  assocFind st.tree id

/-- Membership test by id. -/
def treeHas (st : OrderState) (id : String) : Bool :=
  (treeFind st id).isSome

/-- `nextInnerIndex` of a node: `(offset + 1) >> 1`. -/
def nextInner (n : NodeRec) : Int :=
  jsShr1 (n.offset + 1)

/-- `Order.getNodeFor(pos)`: validates the position and returns its node. -/
def getNodeFor (st : OrderState) (pos : Position) :
    Except OrderErr (String × NodeRec) :=
  if pos.innerIndex < 0 then .error .invalidPosition
  else
    match treeFind st pos.bunchID with
    | none => .error .unknownBunch
    | some n =>
      if pos.bunchID = ROOT ∧ ¬(pos.innerIndex = 0 ∨ pos.innerIndex = 1) then
        .error .invalidPosition
      else .ok (pos.bunchID, n)

/-- `Order.compareSiblingNodes(a, b)`; `none` models the throw for
distinct parents. -/
def compareSib (a b : String × NodeRec) : Option Int :=
  if a.2.parentID ≠ b.2.parentID then none
  else if a.2.offset ≠ b.2.offset then some (a.2.offset - b.2.offset)
  else if a.1 ≠ b.1 then
    some (if jsStrLt (b.1 ++ ",") (a.1 ++ ",") then 1 else -1)
  else some 0

/-- First loop of `Order.compare`: climb the deeper `aAnc` for
`aNode.depth - bNode.depth` steps, resolving early if an ancestor's parent
is `b`'s node.  Returns either the resolved comparison value or the
ancestor now at `b`'s depth. -/
def climbA (st : OrderState) (b : Position) :
    Nat → (String × NodeRec) → Option (Sum Int (String × NodeRec))
  | 0, cur => some (Sum.inr cur)
  | steps + 1, cur =>
    if cur.2.parentID = some b.bunchID then
      some (Sum.inl (if nextInner cur.2 = b.innerIndex + 1 then 1
                     else nextInner cur.2 - (b.innerIndex + 1)))
    else
      match cur.2.parentID with
      | none => none
      | some pid =>
        match treeFind st pid with
        | none => none
        | some p => climbA st b steps (pid, p)

/-- Second loop of `Order.compare`: climb the deeper `bAnc`.  The source's
else-branch reads `-(bAnc.nextInnerIndex - (b.innerIndex + 1))`, i.e. it
uses `b.innerIndex` where the first loop's mirror image uses the other
position's inner index; transcribed exactly. -/
def climbB (st : OrderState) (a b : Position) :
    Nat → (String × NodeRec) → Option (Sum Int (String × NodeRec))
  | 0, cur => some (Sum.inr cur)
  | steps + 1, cur =>
    if cur.2.parentID = some a.bunchID then
      some (Sum.inl (if nextInner cur.2 = a.innerIndex + 1 then -1
                     else -(nextInner cur.2 - (b.innerIndex + 1))))
    else
      match cur.2.parentID with
      | none => none
      | some pid =>
        match treeFind st pid with
        | none => none
        | some p => climbB st a b steps (pid, p)

/-- Final loop of `Order.compare`: walk both ancestors up in lockstep until
they are siblings, then use sibling order.  The fuel is the (equal)
depth of the two ancestors. -/
def lockstep (st : OrderState) :
    Nat → (String × NodeRec) → (String × NodeRec) → Option Int
  | 0, aAnc, bAnc =>
    if aAnc.2.parentID = bAnc.2.parentID then compareSib aAnc bAnc else none
  | fuel + 1, aAnc, bAnc =>
    if aAnc.2.parentID = bAnc.2.parentID then compareSib aAnc bAnc
    else
      match aAnc.2.parentID, bAnc.2.parentID with
      | some pa, some pb =>
        match treeFind st pa, treeFind st pb with
        | some ra, some rb => lockstep st fuel (pa, ra) (pb, rb)
        | _, _ => none
      | _, _ => none

/-- `Order.compare(a, b)`; `none` models thrown errors. -/
def compare (st : OrderState) (a b : Position) : Option Int :=
  match getNodeFor st a, getNodeFor st b with
  | .ok an, .ok bn =>
    if an.1 = bn.1 then some (a.innerIndex - b.innerIndex)
    else
      match climbA st b (an.2.depth - bn.2.depth) an with
      | none => none
      | some (Sum.inl v) => some v
      | some (Sum.inr aAnc) =>
        match climbB st a b (bn.2.depth - an.2.depth) bn with
        | none => none
        | some (Sum.inl v) => some v
        | some (Sum.inr bAnc) => lockstep st aAnc.2.depth aAnc bAnc
  | _, _ => none

/-! ### order.ts: receive -/

/-- The `BunchMeta` of an installed node (`node.meta()`); `none` for the
root, whose `meta()` throws. -/
def metaOfNode (id : String) (n : NodeRec) : Option BunchMeta :=
  n.parentID.map (fun pid => ⟨id, pid, n.offset⟩)

/-- Find a meta by bunch id. -/
def findMeta : List BunchMeta → String → Option BunchMeta
  | [], _ => none
  | m :: rest, id => if m.bunchID = id then some m else findMeta rest id

/-- Phase 1 of `Order.receive`: filter out redundant metas (checking
agreement), validate ids, reject the root id, and collect the new metas in
first-seen order (`newNodeMetas`). -/
def phase1 (st : OrderState) : List BunchMeta → List BunchMeta →
    Except OrderErr (List BunchMeta)
  | [], acc => .ok acc
  | m :: rest, acc =>
    if m.bunchID = ROOT then .error .invalidRoot
    else
      match treeFind st m.bunchID with
      | some existing =>
        match metaOfNode m.bunchID existing with
        | none => .error .internal
        | some em => if m = em then phase1 st rest acc else .error .conflict
      | none =>
        match findMeta acc m.bunchID with
        | some other => if m = other then phase1 st rest acc else .error .conflict
        | none =>
          if validateID m.bunchID then phase1 st rest (acc ++ [m])
          else .error .invalidID

/-- Append `m` under key `k`, preserving first-insertion key order
(the JavaScript `Map`-of-arrays `pendingChildren`). -/
def pendingAdd (p : List (String × List BunchMeta)) (k : String)
    (m : BunchMeta) : List (String × List BunchMeta) :=
  match p with
  | [] => [(k, [m])]
  | (k', arr) :: rest =>
    if k' = k then (k', arr ++ [m]) :: rest else (k', arr) :: pendingAdd rest k m

/-- Lookup in the pending map. -/
def pendingFind : List (String × List BunchMeta) → String → Option (List BunchMeta)
  | [], _ => none
  | (k', arr) :: rest, k => if k' = k then some arr else pendingFind rest k

/-- Delete a key from the pending map. -/
def pendingErase (p : List (String × List BunchMeta)) (k : String) :
    List (String × List BunchMeta) :=
  match p with
  | [] => []
  | (k', arr) :: rest =>
    if k' = k then rest else (k', arr) :: pendingErase rest k

/-- Total length of the pending arrays (termination measure). -/
def pendingSum (p : List (String × List BunchMeta)) : Nat :=
  (p.map (fun e => e.2.length)).sum

/-- Initial split of the new metas: those whose parent is already installed
go to `toProcess` (in order), the rest into `pendingChildren` keyed by the
missing parent. -/
def snStep (st : OrderState)
    (acc : List BunchMeta × List (String × List BunchMeta)) (m : BunchMeta) :
    List BunchMeta × List (String × List BunchMeta) :=
  if treeHas st m.parentID then (acc.1 ++ [m], acc.2)
  else (acc.1, pendingAdd acc.2 m.parentID m)

/-- Initial split of the new metas: those whose parent is already installed
go to `toProcess` (in order), the rest into `pendingChildren` keyed by the
missing parent. -/
def splitNew (st : OrderState) (news : List BunchMeta) :
    List BunchMeta × List (String × List BunchMeta) :=
  news.foldl (snStep st) ([], [])

/-- The growing-array loop of `Order.receive`: take the next meta of
`toProcess`, append its pending children (if any) to the queue's end, and
record it as processed.  Returns the final `toProcess` order and whatever
is left in `pendingChildren`.  Structural in a fuel; every round shrinks
`queue.length + pendingSum pending` by one, so
`queue.length + pendingSum pending + 1` always suffices. -/
def expand : Nat → List (String × List BunchMeta) → List BunchMeta →
    List BunchMeta → List BunchMeta × List (String × List BunchMeta)
  | 0, pending, done, _ => (done, pending)
  | _ + 1, pending, done, [] => (done, pending)
  | fuel + 1, pending, done, m :: rest =>
    match pendingFind pending m.bunchID with
    | some arr =>
      expand fuel (pendingErase pending m.bunchID) (done ++ [m]) (rest ++ arr)
    | none => expand fuel pending (done ++ [m]) rest

/-- The error-reporting walk of `Order.receive`: starting from a failed
meta, follow parents inside `newNodeMetas`; a repeat is a cycle, a dead end
is a missing parent.  Structural in a fuel; each round adds one unseen id
to `seen`, so `news.length + 1` always suffices. -/
def cycleWalk : Nat → List BunchMeta → List String → BunchMeta → OrderErr
  | 0, _, _, _ => .internal
  | fuel + 1, news, seen, cur =>
    match findMeta news cur.parentID with
    | none => .unknownParent
    | some next =>
      if next.bunchID ∈ seen then .cycle
      else cycleWalk fuel news (next.bunchID :: seen) next

/-- Install one new node (`Order.newNode`), appending it to the tree with
depth `parent.depth + 1`; `none` models the internal error when the parent
is missing. -/
def newNode (st : OrderState) (m : BunchMeta) : Option OrderState :=
  match treeFind st m.parentID with
  | none => none
  | some p =>
    some { st with
           tree := st.tree ++ [(m.bunchID, ⟨some m.parentID, m.offset, p.depth + 1⟩)] }

/-- Install the whole processing order, left to right. -/
def applyAll : OrderState → List BunchMeta → Option OrderState
  | st, [] => some st
  | st, m :: rest => (newNode st m).bind (fun st' => applyAll st' rest)

/-- `Order.receive(metas)`. -/
def receive (st : OrderState) (metas : List BunchMeta) :
    Except OrderErr OrderState :=
  match phase1 st metas [] with
  | .error e => .error e
  | .ok news =>
    let tp := splitNew st news
    let ed := expand (tp.1.length + pendingSum tp.2 + 1) tp.2 [] tp.1
    match ed.2 with
    | [] =>
      match applyAll st ed.1 with
      | none => .error .internal
      | some st' => .ok st'
    | (_, arr) :: _ =>
      match arr with
      | [] => .error .internal
      | m0 :: _ => .error (cycleWalk (news.length + 1) news [] m0)

/-! ### order.ts: createPositions -/

/-- `MIN_POSITION`. -/
def MIN_POSITION : Position := ⟨ROOT, 0⟩

/-- `MAX_POSITION`. -/
def MAX_POSITION : Position := ⟨ROOT, 1⟩

/-- Locally-created counter of a node, if this replica created it. -/
def createdFind (st : OrderState) (id : String) : Option Int :=
  (st.created.find? (fun p => p.1 = id)).map (·.2)

/-- Set (or insert) a locally-created counter. -/
def createdSet (st : OrderState) (id : String) (v : Int) : OrderState :=
  { st with
    created :=
      if (st.created.find? (fun p => p.1 = id)).isSome then
        st.created.map (fun p => if p.1 = id then (p.1, v) else p)
      else st.created ++ [(id, v)] }

/-- Locally-created child of `(parent, offset)`, if any. -/
def createdChildFind (st : OrderState) (pid : String) (off : Int) :
    Option String :=
  (st.createdChildren.find? (fun p => p.1 = (pid, off))).map (·.2)

/-- Record a locally-created child. -/
def createdChildAdd (st : OrderState) (pid : String) (off : Int)
    (cid : String) : OrderState :=
  { st with createdChildren := st.createdChildren ++ [((pid, off), cid)] }

/-- Climb of `Order.isDescendant`: walk `steps` levels up from `cur`,
tracking `curInnerIndex = aAnc.offset >> 1` at each step; returns the final
ancestor's id and the tracked inner index. -/
def descLoop (st : OrderState) :
    Nat → (String × NodeRec) → Int → Option (String × Int)
  | 0, cur, curInner => some (cur.1, curInner)
  | steps + 1, cur, _ =>
    match cur.2.parentID with
    | none => none
    | some pid =>
      match treeFind st pid with
      | none => none
      | some p => descLoop st steps (pid, p) (jsShr1 cur.2.offset)

/-- `Order.isDescendant(a, b)`: is `a` a descendant of `b` in the position
tree (a node's positions forming a rightward chain)?  `none` models the
crash when a bunch id is absent (unreachable after validation). -/
def isDescendant (st : OrderState) (a b : Position) : Option Bool :=
  match treeFind st a.bunchID, treeFind st b.bunchID with
  | some an, some bn =>
    (descLoop st (an.depth - bn.depth) (a.bunchID, an) a.innerIndex).map
      (fun fin => fin.1 = b.bunchID && fin.2 ≥ b.innerIndex)
  | _, _ => none

/-- Minting step of `Order.createPositions`: apply the reuse exception if a
created child already sits at `(parentID, offset)`, otherwise install a new
node with the given fresh id. -/
def mint (st : OrderState) (newID parentID : String) (offset count : Int) :
    Except OrderErr (Position × Option BunchMeta × OrderState) :=
  match createdChildFind st parentID offset with
  | some cid =>
    let cc := (createdFind st cid).getD 0
    .ok (⟨cid, cc⟩, none, createdSet st cid (cc + count))
  | none =>
    if treeHas st newID then .error .idCollision
    else
      match newNode st ⟨newID, parentID, offset⟩ with
      | none => .error .internal
      | some st' =>
        let st2 := createdChildAdd (createdSet st' newID count) parentID offset newID
        .ok (⟨newID, 0⟩, some ⟨newID, parentID, offset⟩, st2)

/-- `Order.createPositions(prevPos, nextPos, count)`.  `newID` stands for
the value `this.newNodeID()` returns if a mint happens. -/
def createPositions (newID : String) (st : OrderState) (prevPos nextPos : Position)
    (count : Int) : Except OrderErr (Position × Option BunchMeta × OrderState) :=
  match compare st prevPos nextPos with
  | none => .error .invalidPosition
  | some c =>
    if c ≥ 0 then .error .inversion
    else if count < 1 then .error .inversion
    else
      match isDescendant st nextPos prevPos with
      | none => .error .internal
      | some isDesc =>
        if isDesc then mint st newID nextPos.bunchID (2 * nextPos.innerIndex) count
        else
          match treeFind st prevPos.bunchID with
          | none => .error .internal
          | some _ =>
            match createdFind st prevPos.bunchID with
            | some cc =>
              .ok (⟨prevPos.bunchID, cc⟩, none,
                   createdSet st prevPos.bunchID (cc + count))
            | none => mint st newID prevPos.bunchID (2 * prevPos.innerIndex + 1) count

/-- `Order.startPosToArray(startPos, count)` element `i`:
`{bunchID, innerIndex + i}`. -/
def posAtOffset (startPos : Position) (i : Int) : Position :=
  ⟨startPos.bunchID, startPos.innerIndex + i⟩

/-! ### order.ts: lex and unlex -/

/-- Climb from a node to the root collecting the metas of the path,
root child first (`BunchNode.dependencies` followed by `meta()`). -/
def depsLoop (st : OrderState) :
    Nat → (String × NodeRec) → List BunchMeta → Option (List BunchMeta)
  | fuel, cur, acc =>
    match cur.2.parentID with
    | none => some acc
    | some pid =>
      match fuel with
      | 0 => none
      | fuel + 1 =>
        match treeFind st pid with
        | none => none
        | some p => depsLoop st fuel (pid, p) (⟨cur.1, pid, cur.2.offset⟩ :: acc)

/-- `Order.lex(pos)`; `none` models thrown errors. -/
def lex (st : OrderState) (pos : Position) : Option String :=
  match getNodeFor st pos with
  | .error _ => none
  | .ok node =>
    (depsLoop st node.2.depth node []).bind fun metas =>
      (combineNodePfx metas).bind fun pfx => combinePos pfx pos.innerIndex

/-- `Order.unlex(lexPos)`: split the string, and `receive` the embedded
path when the bunch is unknown. -/
def unlex (st : OrderState) (lexPos : String) :
    Except OrderErr (Position × OrderState) :=
  let pv := splitPos lexPos
  match bunchIDFor pv.1 with
  | none => .error .invalidPosition
  | some bid =>
    if treeHas st bid then .ok (⟨bid, pv.2⟩, st)
    else
      match splitNodePfx pv.1 with
      | none => .error .invalidPosition
      | some metas => (receive st metas).map (fun st' => (⟨bid, pv.2⟩, st'))

/-! ### position_source.ts: PositionSource -/

/-- JavaScript `slice` with signed indices: negatives count from the end,
then both are clamped into `[0, length]`. -/
def jsSliceInt (s : String) (a b : Int) : String :=
  let len : Int := s.data.length
  let norm := fun (x : Int) => if x < 0 then max (len + x) 0 else min x len
  strSlice s (norm a).toNat (norm b).toNat

/-- JavaScript `lastIndexOf(c)` as an `Int` (-1 when absent). -/
def jsLastIndexOf (s : String) (c : Char) : Int :=
  match lastIndexOf s c with
  | none => -1
  | some i => (i : Int)

/-- JavaScript `lastIndexOf(c, fromIndex)`: last occurrence at an index
`≤ fromIndex` (clamped below by 0); -1 when absent. -/
def jsLastIndexOfFrom (s : String) (c : Char) (frm : Int) : Int :=
  let idxs := (List.range s.data.length).filter
    (fun i => s.data.get? i = some c && (i : Int) ≤ frm)
  match idxs.getLast? with
  | none => -1
  | some i => (i : Int)

/-- JavaScript `startsWith`. -/
def jsStartsWith (s pre : String) : Bool :=
  s.data.take pre.data.length = pre.data

/-- Uppercase ASCII letters (JavaScript `toUpperCase` on the strings in
play). -/
def jsToUpper (s : String) : String :=
  String.mk (s.data.map (fun c =>
    if 97 ≤ c.val ∧ c.val ≤ 122 then Char.ofNat (c.val.toNat - 32) else c))

/-- Lowercase ASCII letters (JavaScript `toLowerCase`). -/
def jsToLower (s : String) : String :=
  String.mk (s.data.map (fun c =>
    if 65 ≤ c.val ∧ c.val ≤ 90 then Char.ofNat (c.val.toNat + 32) else c))

/-- `stringifyNumber(n) = n.toString(36).toUpperCase()`. -/
def stringifyNumber (n : Int) : String :=
  jsToUpper (jsToString36 n)

/-- `parseNumber(s) = Number.parseInt(s.toLowerCase(), 36)`;
`none` models NaN. -/
def parseNumber (s : String) : Option Int :=
  parseInt36 (jsToLower s)

/-- `lexSucc(n)` from position_source.ts: the successor in the prefix-free
base-36 enumeration.  `d` is the exact number of base-36 digits (the
source's float logarithm is exact on these magnitudes); for negative `n`
(never reached) we return `n + 1`. -/
def lexSucc (n : Int) : Int :=
  if n < 0 then n + 1
  else
    let d := digitCount36 n.toNat n.toNat
    if n = 36 ^ d - 18 ^ d - 1 then (n + 1) * 36 else n + 1

/-- State of a `PositionSource`: its `ID` and `lastValueIndices`. -/
structure PSource where
  id : String
  lastValueIndices : List Int
deriving DecidableEq, Repr

/-- A fresh `PositionSource` with the given (already validated) ID. -/
def psInit (id : String) : PSource :=
  ⟨id, []⟩

/-- `newWaypoint()`: returns the node string for a fresh waypoint and
pushes a `0` counter. -/
def newWaypoint (ps : PSource) : String × PSource :=
  (ps.id ++ "," ++ stringifyNumber (ps.lastValueIndices.length : Int) ++ ",0r",
   { ps with lastValueIndices := ps.lastValueIndices ++ [0] })

/-- The right-child branch of `createBetween` for a non-FIRST `left`:
attempt to reuse `left`'s leaf waypoint, else append a new waypoint. -/
def psRightPath (ps : PSource) (l : String) : String × PSource :=
  let lastComma := jsLastIndexOf l ','
  let secondLastComma := jsLastIndexOfFrom l ',' (lastComma - 1)
  let leafSender := jsSliceInt l (secondLastComma - ps.id.data.length) secondLastComma
  let reused : Option (String × PSource) :=
    if leafSender = ps.id then
      match parseNumber (jsSliceInt l (secondLastComma + 1) lastComma),
            parseNumber (jsSliceInt l (lastComma + 1) (-1)) with
      | some leafCounter, some leafValueIndex =>
        if h : 0 ≤ leafCounter ∧ leafCounter.toNat < ps.lastValueIndices.length then
          if ps.lastValueIndices.get ⟨leafCounter.toNat, h.2⟩ = leafValueIndex then
            let valueIndex := lexSucc leafValueIndex
            some (jsSliceInt l 0 (lastComma + 1) ++ stringifyNumber valueIndex ++ "r",
                  { ps with lastValueIndices :=
                      ps.lastValueIndices.set leafCounter.toNat valueIndex })
          else none
        else none
      | _, _ => none
    else none
  match reused with
  | some r => r
  | none =>
    let w := newWaypoint ps
    (l ++ w.1, w.2)

/-- `PositionSource.createBetween(left, right)`; `none` models the
precondition and assertion throws. -/
def psCreateBetween (ps : PSource) (left right : String) :
    Option (String × PSource) :=
  if ¬ (jsStrLt left right = true) then none
  else if jsStrLt "~" right then none
  else
    let result : String × PSource :=
      if right ≠ "~" ∧ (left = "" ∨ jsStartsWith right left) then
        -- Left child of right.
        let w := newWaypoint ps
        (jsSliceInt right 0 (-1) ++ "l" ++ w.1, w.2)
      else if left = "" then newWaypoint ps
      else psRightPath ps left
    if jsStrLt left result.1 ∧ jsStrLt result.1 right then some result
    else none

/-! ### local_list.ts: the List presence map

`local_list.ts` uses the older tree model (`Node` with `parentNode`,
`parentValueIndex` and ordered `children`; positions
`{creatorID, timestamp, valueIndex}`).  That `order.ts` is not among the
repository's files, so the scaffolding is modelled from the spec (§4.3,
§9): the tree is a rooted tree whose children lists are kept in sibling
order, sorted by `parentValueIndex`; a child at `parentValueIndex = k` is
emitted between value `k-1` and value `k` (as `valuesAndChildren` and
`index` both encode).  A node is identified here by its path of child-array
indices from the root; the `List` state entry of a node (`NodeInfo`) is
stored inside the node: absent entries are represented by `total = 0,
items = []`, which the source treats identically (`locate2`, `set` and
`delete` behave the same for a missing entry and an empty one).
`total` is a `Nat`: the spec's presence invariant (§8.9) keeps it equal to
a count.  The `List` functions themselves (`locate2`, `set`, `delete`,
`valuesAndChildren`, `index`, `position`, `save`, `load`) are transcribed
from local_list.ts. -/

/-- One run of the alternating items array: present values, or a count of
deleted ones. -/
inductive Item (T : Type) where
  | vals (l : List T)
  | gap (n : Nat)
deriving DecidableEq, Repr

/-- Length of a run. -/
def itemSize {T : Type} : Item T → Nat
  | .vals l => l.length
  | .gap n => n

mutual

/-- A tree node with its `NodeInfo`: stored subtree `total`, the items
array, and the ordered children. -/
inductive LTree (T : Type) where
  | mk (total : Nat) (items : List (Item T)) (children : LForest T)

/-- Ordered children: each child carries its `parentValueIndex`. -/
inductive LForest (T : Type) where
  | nil
  | cons (pvi : Nat) (t : LTree T) (rest : LForest T)

end

namespace LTree

/-- Stored subtree total. -/
def total {T : Type} : LTree T → Nat
  | .mk tot _ _ => tot

/-- The items array. -/
def items {T : Type} : LTree T → List (Item T)
  | .mk _ it _ => it

/-- The children. -/
def children {T : Type} : LTree T → LForest T
  | .mk _ _ ch => ch

end LTree

/-- Children as a list of `(index, parentValueIndex, subtree)`, indices
starting at `i0`. -/
def forestEnum {T : Type} : LForest T → Nat → List (Nat × Nat × LTree T)
  | .nil, _ => []
  | .cons pvi t rest, i => (i, pvi, t) :: forestEnum rest (i + 1)

/-- Child at array index `k`, with its `parentValueIndex`. -/
def forestGet? {T : Type} : LForest T → Nat → Option (Nat × LTree T)
  | .nil, _ => none
  | .cons pvi t _, 0 => some (pvi, t)
  | .cons _ _ rest, k + 1 => forestGet? rest k

/-- Sum of the children's stored totals. -/
def sumF {T : Type} : LForest T → Nat
  | .nil => 0
  | .cons _ t rest => t.total + sumF rest

/-- Number of present values in an items array (`valueCount`). -/
def ownCount {T : Type} : List (Item T) → Nat
  | [] => 0
  | .vals l :: rest => l.length + ownCount rest
  | .gap _ :: rest => ownCount rest

/-- `List.locate2(node, valueIndex)` restricted to its observable output:
`(isPresent, nodeValuesBefore)`. -/
def locItems {T : Type} : List (Item T) → Nat → Bool × Nat
  | [], _ => (false, 0)
  | .vals l :: rest, v =>
    if v < l.length then (true, v)
    else
      let r := locItems rest (v - l.length)
      (r.1, r.2 + l.length)
  | .gap n :: rest, v =>
    if v < n then (false, 0)
    else locItems rest (v - n)

/-- The loop of `List.set`, carrying the reversed processed prefix `acc`.
`none` models the runtime type errors the source would hit when a neighbor
it casts to `T[]` is a number (unreachable for alternating run arrays). -/
def setGo {T : Type} (x : T) (acc : List (Item T)) :
    List (Item T) → Nat → Option (List (Item T) × Bool)
  | [], rem =>
    -- Position in the implied deleted last item.
    if rem ≠ 0 then some (acc.reverse ++ [.gap rem, .vals [x]], true)
    else
      match acc with
      | [] => some ([.vals [x]], true)
      | .vals lv :: acc' => some ((Item.vals (lv ++ [x]) :: acc').reverse, true)
      | .gap _ :: _ => none
  | .vals l :: rest, rem =>
    if rem < l.length then
      some (acc.reverse ++ Item.vals (l.set rem x) :: rest, false)
    else setGo x (.vals l :: acc) rest (rem - l.length)
  | .gap n :: rest, rem =>
    if rem < n then
      -- Replace the gap with [remaining, [value], n - 1 - remaining],
      -- omitting zeros and merging [value] with neighboring arrays.
      let leftM : Bool := (rem == 0) && !acc.isEmpty
      let rightM : Bool := (rem == n - 1) && !rest.isEmpty
      let leftVals : Option (List T × List (Item T)) :=
        if rem = 0 then
          match acc with
          | [] => some ([], [])
          | .vals lv :: acc' => some (lv, acc')
          | .gap _ :: _ => none
        else some ([], acc)
      let rightVals : Option (List T × List (Item T)) :=
        if rem = n - 1 then
          match rest with
          | [] => some ([], [])
          | .vals rv :: rest' => some (rv, rest')
          | .gap _ :: _ => none
        else some ([], rest)
      match leftVals, rightVals with
      | some (lv, accLeft), some (rv, restRight) =>
        some ((if leftM then accLeft else acc).reverse ++
              (if rem ≠ 0 then [Item.gap rem] else []) ++
              [Item.vals (lv ++ [x] ++ rv)] ++
              (if rem ≠ n - 1 then [Item.gap (n - 1 - rem)] else []) ++
              (if rightM then restRight else rest), true)
      | _, _ => none
    else setGo x (.gap n :: acc) rest (rem - n)

/-- `List.set` on one node's items: new items and the returned boolean. -/
def setItems {T : Type} (items : List (Item T)) (v : Nat) (x : T) :
    Option (List (Item T) × Bool) :=
  setGo x [] items v

/-- Drop a trailing deleted run (the source's single `pop`). -/
def dropTrailGap {T : Type} (l : List (Item T)) : List (Item T) :=
  match l.getLast? with
  | some (.gap _) => l.dropLast
  | _ => l

/-- The loop of `List.delete`.  `none` models the silent corruption the
source would produce when a neighbor it casts to a number is an array
(unreachable for alternating run arrays). -/
def delGo {T : Type} (acc : List (Item T)) :
    List (Item T) → Nat → Option (List (Item T) × Bool)
  | [], _ => some (acc.reverse, false)
  | .gap n :: rest, rem =>
    if rem < n then some (acc.reverse ++ Item.gap n :: rest, false)
    else delGo (.gap n :: acc) rest (rem - n)
  | .vals l :: rest, rem =>
    if rem < l.length then
      let leftM : Bool := (rem == 0) && !acc.isEmpty
      let rightM : Bool := (rem == l.length - 1) && !rest.isEmpty
      let leftGap : Option (Nat × List (Item T)) :=
        if rem = 0 then
          match acc with
          | [] => some (0, [])
          | .gap g :: acc' => some (g, acc')
          | .vals _ :: _ => none
        else some (0, acc)
      let rightGap : Option (Nat × List (Item T)) :=
        if rem = l.length - 1 then
          match rest with
          | [] => some (0, [])
          | .gap g :: rest' => some (g, rest')
          | .vals _ :: _ => none
        else some (0, rest)
      match leftGap, rightGap with
      | some (lg, accLeft), some (rg, restRight) =>
        let items' := (if leftM then accLeft else acc).reverse ++
          (if rem ≠ 0 then [Item.vals (l.take rem)] else []) ++
          [Item.gap ((if leftM then lg else 0) + 1 + (if rightM then rg else 0))] ++
          (if rem ≠ l.length - 1 then [Item.vals (l.drop (rem + 1))] else []) ++
          (if rightM then restRight else rest)
        some (dropTrailGap items', true)
      | _, _ => none
    else delGo (.vals l :: acc) rest (rem - l.length)

/-- `List.delete` on one node's items. -/
def delItems {T : Type} (items : List (Item T)) (v : Nat) :
    Option (List (Item T) × Bool) :=
  delGo [] items v

/-- Strict type alternation of a run array. -/
def itemsAlt {T : Type} : List (Item T) → Bool
  | [] => true
  | [_] => true
  | .vals _ :: .vals _ :: _ => false
  | .gap _ :: .gap _ :: _ => false
  | _ :: b :: rest => itemsAlt (b :: rest)

/-- Well-formed run array: alternating, and not ending in a deleted run
(spec §8.9; the source maintains exactly this). -/
def itemsWF {T : Type} (l : List (Item T)) : Bool :=
  itemsAlt l &&
    (match l.getLast? with
     | some (.gap _) => false
     | _ => true)

/-- Resolve a node by its path of child indices. -/
def resolveT {T : Type} : LTree T → List Nat → Option (LTree T)
  | t, [] => some t
  | t, k :: rest => (forestGet? t.children k).bind (fun c => resolveT c.2 rest)

/-- `List.has(pos)` (`locate` then presence); `none` when the node is
missing (`getNodeFor` throws). -/
def listHas {T : Type} (t : LTree T) (path : List Nat) (v : Nat) :
    Option Bool :=
  (resolveT t path).map (fun n => (locItems n.items v).1)

/-- The boolean `List.set(pos, value)` returns. -/
def listSetReturns {T : Type} (t : LTree T) (path : List Nat) (v : Nat)
    (x : T) : Option Bool :=
  (resolveT t path).bind (fun n => (setItems n.items v x).map (·.2))

/-- The boolean `List.delete(pos)` returns. -/
def listDelReturns {T : Type} (t : LTree T) (path : List Nat) (v : Nat) :
    Option Bool :=
  (resolveT t path).bind (fun n => (delItems n.items v).map (·.2))

/-! ### local_list.ts: valuesAndChildren, position, index -/

/-- One yield of `valuesAndChildren`: a slice of a present item (the slice
already evaluated, with the `valueIndex` of its first value), or a child
with nonzero total (tagged with its child-array index). -/
inductive VoC (T : Type) where
  | vals (sl : List T) (valueIndex : Nat)
  | child (idx : Nat) (t : LTree T)

/-- The inner child loop of `valuesAndChildren` for one item spanning
value indices `[svi, evi)`: consume children whose `parentValueIndex` is
below `evi`, skipping zero totals, emitting each child after the value
slice that precedes it.  Returns the yields, the final value cursor, and
the unconsumed children. -/
def vacInner {T : Type} (item : Item T) (svi evi : Nat) :
    Nat → List (Nat × Nat × LTree T) →
    List (VoC T) × Nat × List (Nat × Nat × LTree T)
  | vi, [] => ([], vi, [])
  | vi, (i, pvi, c) :: cs' =>
    if pvi ≥ evi then ([], vi, (i, pvi, c) :: cs')
    else if c.total ≠ 0 then
      let pre : List (VoC T) :=
        if vi < pvi then
          match item with
          | .vals l => [.vals ((l.drop (vi - svi)).take (pvi - vi)) vi]
          | .gap _ => []
        else []
      let vi' := if vi < pvi then pvi else vi
      let r := vacInner item svi evi vi' cs'
      (pre ++ VoC.child i c :: r.1, r.2)
    else vacInner item svi evi vi cs'

/-- The item loop of `valuesAndChildren`, then the trailing children. -/
def vacGo {T : Type} : List (Item T) → Nat → List (Nat × Nat × LTree T) →
    List (VoC T)
  | [], _, cs =>
    cs.filterMap (fun e => if e.2.2.total ≠ 0 then some (.child e.1 e.2.2) else none)
  | item :: rest, svi, cs =>
    let evi := svi + itemSize item
    let r := vacInner item svi evi svi cs
    let tailVals : List (VoC T) :=
      match item with
      | .vals l =>
        if r.2.1 < evi then
          [.vals ((l.drop (r.2.1 - svi)).take (evi - r.2.1)) r.2.1]
        else []
      | .gap _ => []
    r.1 ++ tailVals ++ vacGo rest evi r.2.2

/-- `List.valuesAndChildren(node)` as a list of yields. -/
def vac {T : Type} (t : LTree T) : List (VoC T) :=
  vacGo t.items 0 (forestEnum t.children 0)

mutual

/-- Node count of a tree (fuel for `position`'s descent). -/
def sizeT {T : Type} : LTree T → Nat
  | .mk _ _ ch => 1 + sizeF ch

/-- Node count of a forest. -/
def sizeF {T : Type} : LForest T → Nat
  | .nil => 0
  | .cons _ t rest => sizeT t + sizeF rest

end

/-- The scan over one node's yields, debiting `remaining`; a child hit
descends through `recur` (the source sets `node = next.child` and
loops). -/
def posGoF {T : Type} (recur : LTree T → Nat → Option (List Nat × Nat)) :
    List (VoC T) → Nat → Option (List Nat × Nat)
  | [], _ => none
  | .vals sl vi :: rest, rem =>
    if rem < sl.length then some ([], vi + rem)
    else posGoF recur rest (rem - sl.length)
  | .child i c :: rest, rem =>
    if rem < c.total then (recur c rem).map (fun pv => (i :: pv.1, pv.2))
    else posGoF recur rest (rem - c.total)

/-- `List.position(index)`'s outer loop: open the node's
`valuesAndChildren`.  The fuel bounds the descent depth (the source's
`while (true)` recursing into a child each round); `sizeT t + 1` always
suffices. -/
def posAt {T : Type} : Nat → LTree T → Nat → Option (List Nat × Nat)
  | 0, _, _ => none
  | fuel + 1, t, rem => posGoF (posAt fuel) (vac t) rem

/-- `List.position(index)`: bounds-check against `length` (the root's
stored total), then descend. -/
def listPosition {T : Type} (t : LTree T) (index : Int) :
    Option (List Nat × Nat) :=
  if index < 0 ∨ (t.total : Int) ≤ index then none
  else posAt (sizeT t + 1) t index.toNat

/-- Totals of the first `k` children (the siblings before child `k`,
in array order). -/
def sumBefore {T : Type} (ch : LForest T) (k : Nat) : Nat :=
  ((forestEnum ch 0).take k).foldl (fun a e => a + e.2.2.total) 0

/-- Totals of the children with `parentValueIndex ≤ v` (the source's loop
with its `break`; the children are sorted by `parentValueIndex`). -/
def sumLeftOf {T : Type} (ch : LForest T) (v : Nat) : Nat :=
  ((forestEnum ch 0).takeWhile (fun e => e.2.1 ≤ v)).foldl
    (fun a e => a + e.2.2.total) 0

/-- `List.index(pos)`'s accumulation, computed down the path: at the target
node, own values before `v` plus left children; at each ancestor, its
values before the child's `parentValueIndex` plus earlier siblings'
totals.  The source accumulates the same sum walking parent pointers
upward; this embedding walks the identifying path downward.  Returns
`(valuesBefore, isPresent)`; `none` when the path is invalid. -/
def idxCore {T : Type} : LTree T → List Nat → Nat → Option (Nat × Bool)
  | t, [], v =>
    let lp := locItems t.items v
    some (lp.2 + sumLeftOf t.children v, lp.1)
  | t, k :: rest, v =>
    match forestGet? t.children k with
    | none => none
    | some (pvi, c) =>
      (idxCore c rest v).map (fun sub =>
        (sub.1 + (locItems t.items pvi).2 + sumBefore t.children k, sub.2))

/-- The search directions of `List.index`. -/
inductive SearchDir where
  | dirNone | dirLeft | dirRight
deriving DecidableEq, Repr

/-- `List.index(pos, searchDir)`. -/
def listIndex {T : Type} (t : LTree T) (path : List Nat) (v : Nat)
    (dir : SearchDir) : Option Int :=
  (idxCore t path v).map (fun s =>
    if s.2 then (s.1 : Int)
    else
      match dir with
      | .dirNone => -1
      | .dirLeft => (s.1 : Int) - 1
      | .dirRight => (s.1 : Int))

/-! ### local_list.ts: save, load, clear -/

mutual

/-- `List.clear()`: drop the whole presence map (every node loses its
entry; the tree shape itself belongs to the Order and stays). -/
def clearT {T : Type} : LTree T → LTree T
  | .mk _ _ ch => .mk 0 [] (clearF ch)

/-- Clear a forest. -/
def clearF {T : Type} : LForest T → LForest T
  | .nil => .nil
  | .cons pvi t rest => .cons pvi (clearT t) (clearF rest)

end

mutual

/-- `List.save()`: the nonempty items arrays, keyed by node (here: by
path).  The source keys by `creatorID`/`timestamp` and sorts the creator
ids; the key shape does not matter below. -/
def saveT {T : Type} (path : List Nat) : LTree T → List (List Nat × List (Item T))
  | .mk _ items ch =>
    (if items.isEmpty then [] else [(path, items)]) ++ saveF path 0 ch

/-- Save a forest. -/
def saveF {T : Type} (path : List Nat) (i : Nat) :
    LForest T → List (List Nat × List (Item T))
  | .nil => []
  | .cons _ t rest => saveT (path ++ [i]) t ++ saveF path (i + 1) rest

end

/-- `List.save()` from the root. -/
def listSave {T : Type} (t : LTree T) : List (List Nat × List (Item T)) :=
  saveT [] t

/-- `List.load(savedState)` as implemented: `this.clear()` and nothing
else (the body after `clear` is a TODO comment). -/
def listLoad {T : Type} (t : LTree T)
    (savedState : List (List Nat × List (Item T))) : LTree T :=
  clearT t

/-! ### Specification-side notions for receive -/

/-- The new metas phase 1 of `receive` collects, if it does not throw. -/
def phase1Res (st : OrderState) (metas : List BunchMeta) :
    Option (List BunchMeta) :=
  (phase1 st metas []).toOption

/-- One step of the parent relation induced by a batch's new metas:
`m'` is `m`'s parent and belongs to the batch. -/
def metaStep (news : List BunchMeta) (m m' : BunchMeta) : Prop :=
  m' ∈ news ∧ m'.bunchID = m.parentID

/-- The parent relation among the batch's new metas contains a cycle. -/
def CycleIn (news : List BunchMeta) : Prop :=
  ∃ m, m ∈ news ∧ Relation.TransGen (metaStep news) m m

/-- Every new meta's parent is already installed or in the batch
(no missing parents). -/
def parentsResolvable (st : OrderState) (news : List BunchMeta) : Prop :=
  ∀ m ∈ news, treeHas st m.parentID = true ∨ m.parentID ∈ news.map (·.bunchID)

/-- A processing order is topologically sound over `st` extended by the
ids in `base`: each meta's parent is installed or among `base` and the
earlier metas. -/
def TopoAux (st : OrderState) (base : List String) : List BunchMeta → Prop
  | [] => True
  | m :: rest =>
    (treeHas st m.parentID = true ∨ m.parentID ∈ base) ∧
      TopoAux st (m.bunchID :: base) rest

/-- The invariant of the pending map built by `splitNew` and consumed by
`expand`: every bucket is keyed by a parent missing from the tree, is
nonempty, and holds new metas whose parent is the key. -/
def pendingInv (st : OrderState) (news : List BunchMeta)
    (p : List (String × List BunchMeta)) : Prop :=
  ∀ e ∈ p, treeHas st e.1 = false ∧ e.2 ≠ [] ∧
    ∀ x ∈ e.2, x ∈ news ∧ x.parentID = e.1

/-! ### Spec notions for C7: list well-formedness and scan bookkeeping -/

/-- Total length of a run array. -/
def itemsSize {T : Type} (l : List (Item T)) : Nat :=
  (l.map itemSize).sum

/-- Sum of the subtree totals of an enumerated child list. -/
def chSum {T : Type} (l : List (Nat × Nat × LTree T)) : Nat :=
  (l.map (fun e => e.2.2.total)).sum

/-- The children's `parentValueIndex`es are non-decreasing (spec §8.9:
children sorted by parent value index). -/
def sortedEnum {T : Type} : List (Nat × Nat × LTree T) → Bool
  | [] => true
  | [_] => true
  | a :: b :: rest => (a.2.1 ≤ b.2.1 : Bool) && sortedEnum (b :: rest)

mutual

/-- Well-formed list state (spec §8.9): every stored `total` equals the
node's own present count plus its children's totals, and children are
sorted by `parentValueIndex`. -/
def wfT {T : Type} : LTree T → Bool
  | .mk tot items ch =>
    (tot == ownCount items + sumF ch) && sortedEnum (forestEnum ch 0) && wfF ch

/-- All trees of a forest are well-formed. -/
def wfF {T : Type} : LForest T → Bool
  | .nil => true
  | .cons _ t rest => wfT t && wfF rest

end

/-- Number of list positions a yield spans. -/
def ysize {T : Type} : VoC T → Nat
  | .vals sl _ => sl.length
  | .child _ c => c.total

/-- Positions spanned by a yield list. -/
def wsum {T : Type} (ys : List (VoC T)) : Nat :=
  (ys.map ysize).sum

/-- `D` present positions of the node precede the cursor for this item
(`vi` inside a present run; nothing inside a deleted one). -/
def dOf {T : Type} : Item T → Nat → Nat → Nat
  | .vals _, svi, vi => vi - svi
  | .gap _, _, _ => 0

/-- A yield is correct at cumulative offset `D` within the node
`(items, ch)`: a value slice's positions are present with `index`
accumulation `D + off`, and a child yield sits at a real child whose
`index` accumulation is `D`. -/
def YCv {T : Type} (items : List (Item T)) (ch : LForest T) :
    VoC T → Nat → Prop
  | .vals sl vi, D => ∀ off, off < sl.length →
      (locItems items (vi + off)).1 = true ∧
      (locItems items (vi + off)).2 + sumLeftOf ch (vi + off) = D + off
  | .child i c, D => ∃ pvi, forestGet? ch i = some (pvi, c) ∧
      (locItems items pvi).2 + sumBefore ch i = D

/-- All yields correct, at successive cumulative offsets from `D`. -/
def YAll {T : Type} (items : List (Item T)) (ch : LForest T) :
    List (VoC T) → Nat → Prop
  | [], _ => True
  | y :: ys, D => YCv items ch y D ∧ YAll items ch ys (D + ysize y)

/-! ### Concrete states used by the claim theorems -/

/-- Order with `X` a right child of the root and `Y` a right child of
`X`'s inner index 0 (offsets 1). -/
def stXY : OrderState :=
  ⟨[(ROOT, ⟨none, 0, 0⟩), ("X", ⟨some ROOT, 1, 1⟩), ("Y", ⟨some "X", 1, 2⟩)],
   [], []⟩

/-- Order with a single root child `X`. -/
def stX : OrderState :=
  ⟨[(ROOT, ⟨none, 0, 0⟩), ("X", ⟨some ROOT, 1, 1⟩)], [], []⟩

/-- Order with a single root child `P`. -/
def stP : OrderState :=
  ⟨[(ROOT, ⟨none, 0, 0⟩), ("P", ⟨some ROOT, 1, 1⟩)], [], []⟩

/-- The state after `createPositions({P,0}, {P,2}, 2)` on `stP` mints `Z`. -/
def stPZ : OrderState :=
  ⟨[(ROOT, ⟨none, 0, 0⟩), ("P", ⟨some ROOT, 1, 1⟩), ("Z", ⟨some "P", 4, 2⟩)],
   [("Z", 2)], [(("P", 4), "Z")]⟩

/-- A batch with a missing parent (`Z` under unknown `W`) and a cycle
(`X` under `Y` under `X`). -/
def c5batch : List BunchMeta :=
  [⟨"Z", "W", 1⟩, ⟨"X", "Y", 1⟩, ⟨"Y", "X", 1⟩]

/-- A pure two-cycle batch. -/
def c5cyc : List BunchMeta :=
  [⟨"X", "Y", 1⟩, ⟨"Y", "X", 1⟩]

/-- A one-node list holding the value 42 at the root position 0. -/
def c8tree : LTree Nat := .mk 1 [.vals [42]] .nil

/-! ## Claim theorems -/

/-- C1: the claim says `compare` is a strict total order on accepted
positions, with `compare(a,b) = 0` only for equal positions and
`sign(compare(a,b)) = -sign(compare(b,a))`.  It is not: with `X` a root
child and `Y` a child of `X` (offset 1), the positions `a = {X,1}` and
`b = {Y,0}` are both accepted, yet `compare(a,b) = 0` while
`compare(b,a) = -1` — the second climb loop of `compare` subtracts
`b.innerIndex + 1` where its mirror image subtracts the other position's
inner index. -/
theorem C1_compare_violates_total_order :
    receive initialOrder [⟨"X", ROOT, 1⟩, ⟨"Y", "X", 1⟩] = .ok stXY ∧
    compare stXY ⟨"X", 1⟩ ⟨"Y", 0⟩ = some 0 ∧
    compare stXY ⟨"Y", 0⟩ ⟨"X", 1⟩ = some (-1) ∧
    (⟨"X", 1⟩ : Position) ≠ ⟨"Y", 0⟩ :=
  ⟨rfl, rfl, rfl, by decide⟩

/-- C2: the claim says `sign(compare(a,b))` equals the sign of the
byte-lexicographic comparison of `lex(a)` and `lex(b)`.  With a single
root child `X`, `compare({X,0},{X,1}) = -1`, but `lex({X,0}) = "X,-is"`
is byte-lexicographically greater than `lex({X,1}) = "X,-iq"`: the XOR
slip in `sequence` makes the value-index encodings negative numbers whose
rendered digits are out of order. -/
theorem C2_compare_lex_sign_mismatch :
    receive initialOrder [⟨"X", ROOT, 1⟩] = .ok stX ∧
    compare stX ⟨"X", 0⟩ ⟨"X", 1⟩ = some (-1) ∧
    lex stX ⟨"X", 0⟩ = some "X,-is" ∧
    lex stX ⟨"X", 1⟩ = some "X,-iq" ∧
    jsStrLt "X,-iq" "X,-is" = true ∧
    jsStrLt "X,-is" "X,-iq" = false :=
  ⟨rfl, rfl, rfl, rfl, rfl, rfl⟩

/-- C3: the claim says `unlex(lex(p)) = p` for every accepted position
including `MAX_POSITION`, and `lex(unlex(s)) = s` for every well-formed
lex position including `"~"`.  Both fail at the maximum sentinel:
`lex(MAX_POSITION) = "~"` but `unlex("~") = MIN_POSITION` (whose `lex` is
`""`), because `splitPos` returns value index 0 for `"~"` where
`combinePos` produces `"~"` only from value index 1. -/
theorem C3_lex_unlex_roundtrip_fails :
    lex initialOrder MAX_POSITION = some "~" ∧
    unlex initialOrder "~" = .ok (MIN_POSITION, initialOrder) ∧
    lex initialOrder MIN_POSITION = some "" ∧
    MIN_POSITION ≠ MAX_POSITION ∧
    ("" : String) ≠ "~" :=
  ⟨rfl, rfl, rfl, by decide, by decide⟩

/-- C4: the claim says every position returned by
`createPositions(prev, next, count)` compares strictly between `prev`
and `next` afterwards.  With `P` a root child, `prev = {P,0}`,
`next = {P,2}` (valid, `compare(prev,next) = -2 < 0`) and `count = 2`,
the call mints `Z` (offset 4) and returns the run `{Z,0}, {Z,1}`, but in
the post-call order `compare(prev, {Z,1}) = 0`, not `< 0` — the same
`compare` slip as in C1, hit by the second returned position. -/
theorem C4_createPositions_bound_violated :
    receive initialOrder [⟨"P", ROOT, 1⟩] = .ok stP ∧
    compare stP ⟨"P", 0⟩ ⟨"P", 2⟩ = some (-2) ∧
    createPositions "Z" stP ⟨"P", 0⟩ ⟨"P", 2⟩ 2 =
      .ok (⟨"Z", 0⟩, some ⟨"Z", "P", 4⟩, stPZ) ∧
    posAtOffset ⟨"Z", 0⟩ 1 = ⟨"Z", 1⟩ ∧
    compare stPZ ⟨"P", 0⟩ ⟨"Z", 1⟩ = some 0 :=
  ⟨rfl, rfl, rfl, rfl, rfl⟩

/-- C5 (counterexample): the claim says `receive` throws a cycle error
whenever the batch's new metas contain a cycle.  The batch
`[Z(parent W), X(parent Y), Y(parent X)]` has the cycle `X → Y → X`
among its new metas, yet `receive` reports the missing parent `W`
instead: the error branch walks up from the first pending meta only. -/
theorem C5_counterexample_mixed_batch :
    phase1Res initialOrder c5batch = some c5batch ∧
    CycleIn c5batch ∧
    receive initialOrder c5batch = .error .unknownParent ∧
    OrderErr.unknownParent ≠ OrderErr.cycle := by
  refine ⟨rfl, ⟨⟨"X", "Y", 1⟩, by decide, ?_⟩, rfl, by decide⟩
  have h1 : metaStep c5batch ⟨"X", "Y", 1⟩ ⟨"Y", "X", 1⟩ := ⟨by decide, rfl⟩
  have h2 : metaStep c5batch ⟨"Y", "X", 1⟩ ⟨"X", "Y", 1⟩ := ⟨by decide, rfl⟩
  exact Relation.TransGen.tail (Relation.TransGen.single h1) h2

/-- C6: the claim says the enumeration has `(B/2)^d` codes of each digit
length `d` starting at the integer `B^d - B·(B/2)^(d-1)` (so 0 for
`d = 1`), and that distinct value indices get mutually prefix-free
encodings.  The transcription of `sequence` uses JavaScript `^` (XOR)
where the comment's formula adds `B^d - B·(B/2)^(d-1)`: `sequence(0)`
is `-675`, not `0`, and the encodings of value indices 0 and 10 are the
identical string `"-is"` — each a prefix of the other. -/
theorem C6_sequence_formula_and_collision :
    sequence 0 = -675 ∧
    (36 : Int) ^ 1 - 36 * 18 ^ 0 = 0 ∧
    (-675 : Int) ≠ 0 ∧
    encodeValueIndex 0 = "-is" ∧
    encodeValueIndex 10 = "-is" ∧
    (0 : Int) ≠ 10 :=
  ⟨rfl, rfl, by decide, rfl, rfl, by decide⟩

/-- C8: the claim says that after `l2.load(l1.save())` the fresh list
`l2` has `l1`'s length and values.  `List.load` as implemented only
clears: for the one-value list `c8tree`, the loaded replica has length 0
and no value at the saved position, while `l1` has length 1. -/
theorem C8_load_discards_saved_state :
    listSave c8tree = [([], [.vals [42]])] ∧
    listLoad (clearT c8tree) (listSave c8tree) = clearT c8tree ∧
    (clearT c8tree).total = 0 ∧
    c8tree.total = 1 ∧
    listHas c8tree [] 0 = some true ∧
    listHas (listLoad (clearT c8tree) (listSave c8tree)) [] 0 = some false :=
  ⟨rfl, rfl, rfl, rfl, rfl, rfl⟩

/-! ### C5: lemmas about the pending map -/

theorem pendingFind_add (p : List (String × List BunchMeta)) (k : String)
    (m : BunchMeta) (k' : String) :
    pendingFind (pendingAdd p k m) k' =
      if k' = k then some ((pendingFind p k).getD [] ++ [m])
      else pendingFind p k' := by
  induction p with
  | nil =>
    by_cases h : k' = k
    · subst h; simp [pendingAdd, pendingFind]
    · have h2 : ¬ k = k' := fun hh => h hh.symm
      simp [pendingAdd, pendingFind, h, h2]
  | cons e rest ih =>
    obtain ⟨ke, arre⟩ := e
    by_cases hek : ke = k
    · subst hek
      by_cases h : ke = k'
      · subst h
        simp [pendingAdd, pendingFind]
      · have h2 : ¬ k' = ke := fun hh => h hh.symm
        simp [pendingAdd, pendingFind, h, h2]
    · simp only [pendingAdd, if_neg hek]
      by_cases h : ke = k'
      · subst h
        rw [pendingFind, if_pos rfl,
          if_neg (show ¬ ke = k from hek), pendingFind, if_pos rfl]
      · rw [pendingFind, if_neg h, ih]
        by_cases hk : k' = k
        · subst hk
          rw [if_pos rfl, if_pos rfl, pendingFind, if_neg hek]
        · rw [if_neg hk, if_neg hk, pendingFind, if_neg h]

theorem pendingAdd_keysNodup (p : List (String × List BunchMeta)) (k : String)
    (m : BunchMeta) (h : (p.map (·.1)).Nodup) :
    ((pendingAdd p k m).map (·.1)).Nodup := by
  induction p with
  | nil => simp [pendingAdd]
  | cons e rest ih =>
    obtain ⟨ke, arre⟩ := e
    simp only [List.map_cons, List.nodup_cons] at h
    by_cases hek : ke = k
    · subst hek
      simpa [pendingAdd, List.nodup_cons] using h
    · have hks : (pendingAdd rest k m).map (·.1) =
          if k ∈ rest.map (·.1) then rest.map (·.1) else rest.map (·.1) ++ [k] := by
        clear ih h
        induction rest with
        | nil => simp [pendingAdd]
        | cons e' rest' ih' =>
          obtain ⟨ke', arre'⟩ := e'
          by_cases he' : ke' = k
          · subst he'
            simp [pendingAdd]
          · have h2 : ¬ k = ke' := fun hh => he' hh.symm
            simp only [pendingAdd, if_neg he', List.map_cons, ih']
            by_cases hkr : k ∈ rest'.map (·.1)
            · simp [hkr, h2]
            · simp [hkr, h2]
      simp only [pendingAdd, if_neg hek, List.map_cons, List.nodup_cons]
      refine ⟨?_, ih h.2⟩
      rw [hks]
      by_cases hkr : k ∈ rest.map (·.1)
      · simpa [hkr] using h.1
      · simp only [if_neg hkr, List.mem_append, List.mem_singleton, not_or]
        exact ⟨h.1, hek⟩

theorem pendingErase_sublist (p : List (String × List BunchMeta)) (k : String) :
    (pendingErase p k).Sublist p := by
  induction p with
  | nil => simp [pendingErase]
  | cons e rest ih =>
    obtain ⟨ke, arre⟩ := e
    by_cases hek : ke = k
    · simpa [pendingErase, hek] using List.sublist_cons_self _ _
    · simp only [pendingErase, if_neg hek]
      exact List.Sublist.cons₂ (ke, arre) ih

theorem pendingErase_keysNodup (p : List (String × List BunchMeta)) (k : String)
    (h : (p.map (·.1)).Nodup) : ((pendingErase p k).map (·.1)).Nodup :=
  ((pendingErase_sublist p k).map (·.1)).nodup h

theorem pendingErase_mem (p : List (String × List BunchMeta)) (k : String)
    (e : String × List BunchMeta) (h : e ∈ pendingErase p k) : e ∈ p :=
  (pendingErase_sublist p k).mem h

theorem pendingFind_not_mem_keys (p : List (String × List BunchMeta))
    (k : String) (h : k ∉ p.map (·.1)) : pendingFind p k = none := by
  induction p with
  | nil => simp [pendingFind]
  | cons e rest ih =>
    obtain ⟨ke, arre⟩ := e
    simp only [List.map_cons, List.mem_cons, not_or] at h
    simp only [pendingFind, if_neg (fun hh : ke = k => h.1 hh.symm)]
    exact ih h.2

theorem pendingFind_erase_self (p : List (String × List BunchMeta)) (k : String)
    (h : (p.map (·.1)).Nodup) : pendingFind (pendingErase p k) k = none := by
  induction p with
  | nil => simp [pendingErase, pendingFind]
  | cons e rest ih =>
    obtain ⟨ke, arre⟩ := e
    simp only [List.map_cons, List.nodup_cons] at h
    by_cases hek : ke = k
    · subst hek
      simp only [pendingErase, if_pos rfl]
      exact pendingFind_not_mem_keys rest ke h.1
    · simp only [pendingErase, if_neg hek, pendingFind, if_neg hek]
      exact ih h.2

theorem pendingFind_erase_ne (p : List (String × List BunchMeta)) (k k' : String)
    (h : k' ≠ k) : pendingFind (pendingErase p k) k' = pendingFind p k' := by
  induction p with
  | nil => simp [pendingErase]
  | cons e rest ih =>
    obtain ⟨ke, arre⟩ := e
    by_cases hek : ke = k
    · subst hek
      have h2 : ¬ ke = k' := fun hh => h hh.symm
      simp [pendingErase, pendingFind, h2]
    · by_cases h' : ke = k'
      · subst h'
        simp [pendingErase, pendingFind, hek]
      · simp [pendingErase, pendingFind, hek, h', ih]

theorem pendingFind_of_mem (p : List (String × List BunchMeta))
    (e : String × List BunchMeta) (hn : (p.map (·.1)).Nodup) (h : e ∈ p) :
    pendingFind p e.1 = some e.2 := by
  induction p with
  | nil => simp at h
  | cons e' rest ih =>
    obtain ⟨ke, arre⟩ := e'
    simp only [List.map_cons, List.nodup_cons] at hn
    rcases List.mem_cons.mp h with rfl | h'
    · simp [pendingFind]
    · have hne : ke ≠ e.1 := by
        intro hh
        exact hn.1 (hh ▸ List.mem_map.mpr ⟨e, h', rfl⟩)
      simp only [pendingFind, if_neg hne]
      exact ih hn.2 h'

theorem pendingFind_mem (p : List (String × List BunchMeta)) (k : String)
    (arr : List BunchMeta) (h : pendingFind p k = some arr) : (k, arr) ∈ p := by
  induction p with
  | nil => simp [pendingFind] at h
  | cons e rest ih =>
    obtain ⟨ke, arre⟩ := e
    by_cases hek : ke = k
    · subst hek
      simp [pendingFind] at h
      subst h
      exact List.mem_cons_self _ _
    · simp only [pendingFind, if_neg hek] at h
      exact List.mem_cons_of_mem _ (ih h)

theorem pendingErase_sum (p : List (String × List BunchMeta)) (k : String)
    (arr : List BunchMeta) (h : pendingFind p k = some arr) :
    pendingSum (pendingErase p k) + arr.length = pendingSum p := by
  induction p with
  | nil => simp [pendingFind] at h
  | cons e rest ih =>
    obtain ⟨ke, arre⟩ := e
    by_cases hek : ke = k
    · subst hek
      simp [pendingFind] at h
      subst h
      simp [pendingErase, pendingSum, Nat.add_comm]
    · simp only [pendingFind, if_neg hek] at h
      have := ih h
      simp only [pendingErase, if_neg hek, pendingSum, List.map_cons,
        List.sum_cons] at this ⊢
      omega

/-! ### C5: lemmas about findMeta, phase1 and cycles -/

theorem findMeta_some {news : List BunchMeta} {id : String} {m : BunchMeta}
    (h : findMeta news id = some m) : m ∈ news ∧ m.bunchID = id := by
  induction news with
  | nil => simp [findMeta] at h
  | cons x rest ih =>
    by_cases hx : x.bunchID = id
    · simp only [findMeta, if_pos hx] at h
      cases h
      exact ⟨List.mem_cons_self _ _, hx⟩
    · simp only [findMeta, if_neg hx] at h
      exact ⟨List.mem_cons_of_mem _ (ih h).1, (ih h).2⟩

theorem findMeta_of_mem_ids {news : List BunchMeta} {id : String}
    (h : id ∈ news.map (·.bunchID)) : ∃ m, findMeta news id = some m := by
  induction news with
  | nil => simp at h
  | cons x rest ih =>
    by_cases hx : x.bunchID = id
    · exact ⟨x, by simp [findMeta, hx]⟩
    · simp only [List.map_cons, List.mem_cons] at h
      rcases h with h | h
      · exact absurd h.symm hx
      · obtain ⟨m, hm⟩ := ih h
        exact ⟨m, by simp [findMeta, hx, hm]⟩

theorem findMeta_none_not_mem {l : List BunchMeta} {id : String}
    (h : findMeta l id = none) : id ∉ l.map (·.bunchID) := by
  induction l with
  | nil => simp
  | cons x rest ih =>
    by_cases hx : x.bunchID = id
    · simp [findMeta, hx] at h
    · simp only [findMeta, if_neg hx] at h
      simp only [List.map_cons, List.mem_cons, not_or]
      exact ⟨fun hh => hx hh.symm, ih h⟩

theorem phase1_ok_facts (st : OrderState) :
    ∀ (metas acc news : List BunchMeta), phase1 st metas acc = .ok news →
    (acc.map (·.bunchID)).Nodup →
    (∀ m ∈ acc, treeFind st m.bunchID = none) →
    (news.map (·.bunchID)).Nodup ∧ ∀ m ∈ news, treeFind st m.bunchID = none := by
  intro metas
  induction metas with
  | nil =>
    intro acc news h h1 h2
    simp only [phase1] at h
    cases h
    exact ⟨h1, h2⟩
  | cons m rest ih =>
    intro acc news h h1 h2
    simp only [phase1] at h
    split at h
    · cases h
    · split at h
      · -- an existing node: redundant or conflicting
        split at h
        · cases h
        · split at h
          · exact ih acc news h h1 h2
          · cases h
      · rename_i htf
        split at h
        · -- a duplicate within the batch
          split at h
          · exact ih acc news h h1 h2
          · cases h
        · rename_i hfm
          split at h
          · refine ih (acc ++ [m]) news h ?_ ?_
            · rw [List.map_append]
              apply List.Nodup.append h1 (by simp)
              intro a ha hb
              simp only [List.map_cons, List.map_nil, List.mem_singleton] at hb
              subst hb
              exact findMeta_none_not_mem hfm ha
            · intro m2 hm2
              rcases List.mem_append.mp hm2 with hm2 | hm2
              · exact h2 m2 hm2
              · simp only [List.mem_singleton] at hm2
                subst hm2
                exact htf
          · cases h

theorem phase1_no_internal (st : OrderState)
    (hroot : ∀ id n, treeFind st id = some n → n.parentID = none → id = ROOT) :
    ∀ (metas acc : List BunchMeta), phase1 st metas acc ≠ .error .internal := by
  intro metas
  induction metas with
  | nil => intro acc h; simp [phase1] at h
  | cons m rest ih =>
    intro acc h
    simp only [phase1] at h
    split at h
    · simp at h
    · rename_i hr
      split at h
      · rename_i existing htf
        split at h
        · -- metaOfNode returned none: the node has no parent, so it is
          -- the root, contradicting the non-root check
          rename_i hmo
          have hpar : existing.parentID = none := by
            cases hp : existing.parentID with
            | none => rfl
            | some pid => simp [metaOfNode, hp] at hmo
          exact hr (hroot _ _ htf hpar)
        · split at h
          · exact ih acc h
          · simp at h
      · split at h
        · split at h
          · exact ih acc h
          · simp at h
        · split at h
          · exact ih (acc ++ [m]) h
          · simp at h

theorem meta_id_unique {news : List BunchMeta}
    (hn : (news.map (·.bunchID)).Nodup) {y1 y2 : BunchMeta}
    (h1 : y1 ∈ news) (h2 : y2 ∈ news) (he : y1.bunchID = y2.bunchID) :
    y1 = y2 :=
  List.inj_on_of_nodup_map hn h1 h2 he

theorem cycle_up {news : List BunchMeta}
    (hn : (news.map (·.bunchID)).Nodup) {x q : BunchMeta}
    (hx : Relation.TransGen (metaStep news) x x) (hq : q ∈ news)
    (hpq : q.bunchID = x.parentID) :
    Relation.TransGen (metaStep news) q q := by
  obtain ⟨c, hxc, hcx⟩ := Relation.TransGen.head'_iff.mp hx
  have hqc : q = c := meta_id_unique hn hq hxc.1 (hpq.trans hxc.2.symm)
  subst hqc
  exact Relation.TransGen.tail' hcx hxc

/-! ### C5: lemmas about splitNew -/

theorem pendingAdd_mem (p : List (String × List BunchMeta)) (k : String)
    (m : BunchMeta) (e : String × List BunchMeta) (h : e ∈ pendingAdd p k m) :
    e ∈ p ∨ ∃ old, e = (k, old ++ [m]) ∧ (old = [] ∨ (k, old) ∈ p) := by
  induction p with
  | nil =>
    simp only [pendingAdd, List.mem_singleton] at h
    exact Or.inr ⟨[], by simpa using h, Or.inl rfl⟩
  | cons e' rest ih =>
    obtain ⟨ke, arre⟩ := e'
    by_cases hek : ke = k
    · subst hek
      simp only [pendingAdd, if_true, List.mem_cons] at h
      rcases h with he | h
      · exact Or.inr ⟨arre, he, Or.inr (List.mem_cons_self _ _)⟩
      · exact Or.inl (List.mem_cons_of_mem _ h)
    · simp only [pendingAdd, if_neg hek, List.mem_cons] at h
      rcases h with he | h
      · exact Or.inl (by rw [he]; exact List.mem_cons_self _ _)
      · rcases ih h with h' | ⟨old, he, hold⟩
        · exact Or.inl (List.mem_cons_of_mem _ h')
        · refine Or.inr ⟨old, he, ?_⟩
          rcases hold with rfl | hold
          · exact Or.inl rfl
          · exact Or.inr (List.mem_cons_of_mem _ hold)

theorem splitNew_fold_queue (st : OrderState) :
    ∀ (news : List BunchMeta) (acc : List BunchMeta × List (String × List BunchMeta)),
    (news.foldl (snStep st) acc).1 =
      acc.1 ++ news.filter (fun m => treeHas st m.parentID) := by
  intro news
  induction news with
  | nil => intro acc; simp
  | cons m rest ih =>
    intro acc
    simp only [List.foldl_cons, List.filter_cons]
    by_cases hm : treeHas st m.parentID = true
    · rw [ih]
      simp [snStep, hm]
    · rw [ih]
      simp only [Bool.not_eq_true] at hm
      simp [snStep, hm]

theorem splitNew_fold_bucket (st : OrderState)
    (P : List (String × List BunchMeta) → Prop) :
    ∀ (news : List BunchMeta) (acc : List BunchMeta × List (String × List BunchMeta)),
    P acc.2 →
    (∀ p (m : BunchMeta), m ∈ news → treeHas st m.parentID = false →
      P p → P (pendingAdd p m.parentID m)) →
    P (news.foldl (snStep st) acc).2 := by
  intro news
  induction news with
  | nil => intro acc hP _; exact hP
  | cons m rest ih =>
    intro acc hP hstep
    simp only [List.foldl_cons]
    apply ih
    · by_cases hm : treeHas st m.parentID = true
      · simpa [snStep, hm] using hP
      · simp only [Bool.not_eq_true] at hm
        simpa [snStep, hm] using
          hstep acc.2 m (List.mem_cons_self _ _) hm hP
    · intro p m' hm' hh hP'
      exact hstep p m' (List.mem_cons_of_mem _ hm') hh hP'

theorem splitNew_fold_find_mono (st : OrderState) :
    ∀ (news : List BunchMeta) (acc : List BunchMeta × List (String × List BunchMeta))
    (k : String) (arr : List BunchMeta) (x : BunchMeta),
    pendingFind acc.2 k = some arr → x ∈ arr →
    ∃ arr', pendingFind (news.foldl (snStep st) acc).2 k = some arr' ∧ x ∈ arr' := by
  intro news
  induction news with
  | nil => intro acc k arr x h hx; exact ⟨arr, h, hx⟩
  | cons m rest ih =>
    intro acc k arr x h hx
    simp only [List.foldl_cons]
    by_cases hm : treeHas st m.parentID = true
    · exact ih _ k arr x (by simpa [snStep, hm] using h) hx
    · simp only [Bool.not_eq_true] at hm
      by_cases hk : k = m.parentID
      · refine ih _ k (arr ++ [m]) x ?_ (List.mem_append_left _ hx)
        show pendingFind (snStep st acc m).2 k = some (arr ++ [m])
        simp only [snStep, hm, Bool.false_eq_true, if_false, pendingFind_add]
        rw [if_pos hk, ← hk, h]
        rfl
      · refine ih _ k arr x ?_ hx
        show pendingFind (snStep st acc m).2 k = some arr
        simp [snStep, hm, pendingFind_add, hk, h]

theorem splitNew_fold_find (st : OrderState) :
    ∀ (news : List BunchMeta) (acc : List BunchMeta × List (String × List BunchMeta))
    (m : BunchMeta), m ∈ news → treeHas st m.parentID = false →
    ∃ arr, pendingFind (news.foldl (snStep st) acc).2 m.parentID = some arr ∧
      m ∈ arr := by
  intro news
  induction news with
  | nil => intro acc m h _; simp at h
  | cons m0 rest ih =>
    intro acc m h hm
    simp only [List.foldl_cons]
    rcases List.mem_cons.mp h with rfl | h'
    · -- this step inserts m into its bucket; the rest only grows it
      have hfind : pendingFind (snStep st acc m).2 m.parentID =
          some ((pendingFind acc.2 m.parentID).getD [] ++ [m]) := by
        simp [snStep, hm, pendingFind_add]
      exact splitNew_fold_find_mono st rest _ m.parentID _ m hfind
        (List.mem_append_right _ (List.mem_singleton_self _))
    · exact ih _ m h' hm

/-! ### C5: lemmas about expand -/

theorem expand_done_prefix :
    ∀ (fuel : Nat) (pending : List (String × List BunchMeta))
    (done queue : List BunchMeta),
    ∃ Δ, (expand fuel pending done queue).1 = done ++ Δ := by
  intro fuel
  induction fuel with
  | zero => intro pending done queue; exact ⟨[], by simp [expand]⟩
  | succ fuel ih =>
    intro pending done queue
    match queue with
    | [] => exact ⟨[], by simp [expand]⟩
    | m :: rest =>
      cases hf : pendingFind pending m.bunchID with
      | some arr =>
        obtain ⟨Δ, hΔ⟩ := ih (pendingErase pending m.bunchID) (done ++ [m]) (rest ++ arr)
        exact ⟨m :: Δ, by simp [expand, hf, hΔ]⟩
      | none =>
        obtain ⟨Δ, hΔ⟩ := ih pending (done ++ [m]) rest
        exact ⟨m :: Δ, by simp [expand, hf, hΔ]⟩

theorem expand_done_mono (fuel : Nat)
    (pending : List (String × List BunchMeta)) (done queue : List BunchMeta)
    (x : BunchMeta) (hx : x ∈ done) : x ∈ (expand fuel pending done queue).1 := by
  obtain ⟨Δ, hΔ⟩ := expand_done_prefix fuel pending done queue
  rw [hΔ]
  exact List.mem_append_left _ hx

theorem expand_queue_done :
    ∀ (fuel : Nat) (pending : List (String × List BunchMeta))
    (done queue : List BunchMeta),
    queue.length + pendingSum pending + 1 ≤ fuel →
    ∀ x, x ∈ queue → x ∈ (expand fuel pending done queue).1 := by
  intro fuel
  induction fuel with
  | zero => intro pending done queue hf; omega
  | succ fuel ih =>
    intro pending done queue hf x hx
    match queue with
    | [] => simp at hx
    | m :: rest =>
      cases hf2 : pendingFind pending m.bunchID with
      | some arr =>
        simp only [expand, hf2]
        have hsum := pendingErase_sum pending m.bunchID arr hf2
        rcases List.mem_cons.mp hx with rfl | hx'
        · exact expand_done_mono _ _ _ _ x (List.mem_append_right _
            (List.mem_singleton_self _))
        · refine ih _ _ _ ?_ x (List.mem_append_left _ hx')
          simp only [List.length_cons] at hf
          simp only [List.length_append]
          omega
      | none =>
        simp only [expand, hf2]
        rcases List.mem_cons.mp hx with rfl | hx'
        · exact expand_done_mono _ _ _ _ x (List.mem_append_right _
            (List.mem_singleton_self _))
        · refine ih _ _ _ ?_ x hx'
          simp only [List.length_cons] at hf
          omega

theorem expand_pending_mem :
    ∀ (fuel : Nat) (pending : List (String × List BunchMeta))
    (done queue : List BunchMeta) (e : String × List BunchMeta),
    e ∈ (expand fuel pending done queue).2 → e ∈ pending := by
  intro fuel
  induction fuel with
  | zero => intro pending done queue e h; simpa [expand] using h
  | succ fuel ih =>
    intro pending done queue e h
    match queue with
    | [] => simpa [expand] using h
    | m :: rest =>
      cases hf : pendingFind pending m.bunchID with
      | some arr =>
        simp only [expand, hf] at h
        exact pendingErase_mem _ _ _ (ih _ _ _ e h)
      | none =>
        simp only [expand, hf] at h
        exact ih _ _ _ e h

theorem expand_keysNodup (fuel : Nat)
    (pending : List (String × List BunchMeta)) (done queue : List BunchMeta)
    (h : (pending.map (·.1)).Nodup) :
    (((expand fuel pending done queue).2).map (·.1)).Nodup := by
  induction fuel generalizing pending done queue with
  | zero => simpa [expand] using h
  | succ fuel ih =>
    match queue with
    | [] => simpa [expand] using h
    | m :: rest =>
      cases hf : pendingFind pending m.bunchID with
      | some arr =>
        simp only [expand, hf]
        exact ih _ _ _ (pendingErase_keysNodup _ _ h)
      | none =>
        simp only [expand, hf]
        exact ih _ _ _ h

theorem pendingErase_mem_of_ne (p : List (String × List BunchMeta))
    (k0 : String) (e : String × List BunchMeta) (h : e ∈ p) (hne : e.1 ≠ k0) :
    e ∈ pendingErase p k0 := by
  induction p with
  | nil => simp at h
  | cons e' rest ih =>
    obtain ⟨ke, arre⟩ := e'
    by_cases hek : ke = k0
    · subst hek
      simp only [pendingErase, if_true, List.mem_cons]
      rcases List.mem_cons.mp h with he | h'
      · exact absurd (by rw [he]) hne
      · exact h'
    · simp only [pendingErase, if_neg hek, List.mem_cons]
      rcases List.mem_cons.mp h with he | h'
      · exact Or.inl he
      · exact Or.inr (ih h')

theorem splitNew_pendingInv (st : OrderState) (news : List BunchMeta) :
    pendingInv st news (splitNew st news).2 := by
  refine splitNew_fold_bucket st (pendingInv st news) news ([], []) ?_ ?_
  · intro e he; simp at he
  · intro p m hm hpar hP e he
    rcases pendingAdd_mem p m.parentID m e he with he' | ⟨old, heq, hold⟩
    · exact hP e he'
    · subst heq
      refine ⟨hpar, by simp, ?_⟩
      intro x hx
      rcases List.mem_append.mp hx with hx' | hx'
      · rcases hold with rfl | hold
        · simp at hx'
        · exact (hP _ hold).2.2 x hx'
      · simp only [List.mem_singleton] at hx'
        subst hx'
        exact ⟨hm, rfl⟩

theorem splitNew_keysNodup (st : OrderState) (news : List BunchMeta) :
    (((splitNew st news).2).map (·.1)).Nodup := by
  refine splitNew_fold_bucket st (fun p => (p.map (·.1)).Nodup) news ([], [])
    (by simp) ?_
  intro p m _ _ hP
  exact pendingAdd_keysNodup p m.parentID m hP

theorem expand_cover :
    ∀ (fuel : Nat) (pending : List (String × List BunchMeta))
    (done queue : List BunchMeta),
    (pending.map (·.1)).Nodup →
    queue.length + pendingSum pending + 1 ≤ fuel →
    ∀ x, (x ∈ queue ∨ ∃ e, e ∈ pending ∧ x ∈ e.2) →
    x ∈ (expand fuel pending done queue).1 ∨
      ∃ e, e ∈ (expand fuel pending done queue).2 ∧ x ∈ e.2 := by
  intro fuel
  induction fuel with
  | zero => intro pending done queue _ hf; omega
  | succ fuel ih =>
    intro pending done queue hnd hf x hx
    match queue with
    | [] =>
      rcases hx with hx | hx
      · simp at hx
      · exact Or.inr (by simpa [expand] using hx)
    | m :: rest =>
      cases hfind : pendingFind pending m.bunchID with
      | some arr =>
        simp only [expand, hfind]
        have hsum := pendingErase_sum pending m.bunchID arr hfind
        have hnd' := pendingErase_keysNodup pending m.bunchID hnd
        have hfuel' : (rest ++ arr).length +
            pendingSum (pendingErase pending m.bunchID) + 1 ≤ fuel := by
          simp only [List.length_cons] at hf
          simp only [List.length_append]
          omega
        rcases hx with hx | ⟨e, hep, hxe⟩
        · rcases List.mem_cons.mp hx with rfl | hx'
          · exact Or.inl (expand_done_mono _ _ _ _ x
              (List.mem_append_right _ (List.mem_singleton_self _)))
          · exact ih _ _ _ hnd' hfuel' x (Or.inl (List.mem_append_left _ hx'))
        · by_cases hek : e.1 = m.bunchID
          · have hfe : pendingFind pending e.1 = some e.2 :=
              pendingFind_of_mem pending e hnd hep
            rw [hek, hfind] at hfe
            have harr : e.2 = arr := (Option.some.injEq _ _ ▸ hfe).symm
            exact ih _ _ _ hnd' hfuel' x
              (Or.inl (List.mem_append_right _ (harr ▸ hxe)))
          · exact ih _ _ _ hnd' hfuel' x
              (Or.inr ⟨e, pendingErase_mem_of_ne pending m.bunchID e hep hek, hxe⟩)
      | none =>
        simp only [expand, hfind]
        have hfuel' : rest.length + pendingSum pending + 1 ≤ fuel := by
          simp only [List.length_cons] at hf; omega
        rcases hx with hx | ⟨e, hep, hxe⟩
        · rcases List.mem_cons.mp hx with rfl | hx'
          · exact Or.inl (expand_done_mono _ _ _ _ x
              (List.mem_append_right _ (List.mem_singleton_self _)))
          · exact ih _ _ _ hnd hfuel' x (Or.inl hx')
        · exact ih _ _ _ hnd hfuel' x (Or.inr ⟨e, hep, hxe⟩)

theorem expand_EF :
    ∀ (fuel : Nat) (pending : List (String × List BunchMeta))
    (done queue : List BunchMeta),
    (pending.map (·.1)).Nodup →
    (∀ e ∈ pending, e.1 ∉ done.map (·.bunchID)) →
    ∀ e ∈ (expand fuel pending done queue).2,
      e.1 ∉ ((expand fuel pending done queue).1).map (·.bunchID) := by
  intro fuel
  induction fuel with
  | zero =>
    intro pending done queue _ hED e he
    simp only [expand] at he ⊢
    exact hED e he
  | succ fuel ih =>
    intro pending done queue hnd hED e he
    match queue with
    | [] =>
      simp only [expand] at he ⊢
      exact hED e he
    | m :: rest =>
      cases hfind : pendingFind pending m.bunchID with
      | some arr =>
        simp only [expand, hfind] at he ⊢
        refine ih _ _ _ (pendingErase_keysNodup pending m.bunchID hnd) ?_ e he
        intro e' he'
        have hp' := pendingErase_mem pending m.bunchID e' he'
        have h1 := hED e' hp'
        simp only [List.map_append, List.mem_append, List.map_cons,
          List.map_nil, List.mem_singleton]
        rintro (h | h)
        · exact h1 h
        · have hfe : pendingFind (pendingErase pending m.bunchID) e'.1 = some e'.2 :=
            pendingFind_of_mem _ e' (pendingErase_keysNodup pending m.bunchID hnd) he'
          rw [h, pendingFind_erase_self pending m.bunchID hnd] at hfe
          exact Option.noConfusion hfe
      | none =>
        simp only [expand, hfind] at he ⊢
        refine ih _ _ _ hnd ?_ e he
        intro e' he'
        have h1 := hED e' he'
        simp only [List.map_append, List.mem_append, List.map_cons,
          List.map_nil, List.mem_singleton]
        rintro (h | h)
        · exact h1 h
        · have hfe := pendingFind_of_mem _ e' hnd he'
          rw [h, hfind] at hfe
          exact Option.noConfusion hfe

theorem expand_done_src :
    ∀ (fuel : Nat) (pending : List (String × List BunchMeta))
    (done queue : List BunchMeta) (x : BunchMeta),
    x ∈ (expand fuel pending done queue).1 →
    x ∈ done ∨ x ∈ queue ∨ ∃ e, e ∈ pending ∧ x ∈ e.2 := by
  intro fuel
  induction fuel with
  | zero =>
    intro pending done queue x h
    simp only [expand] at h
    exact Or.inl h
  | succ fuel ih =>
    intro pending done queue x h
    match queue with
    | [] =>
      simp only [expand] at h
      exact Or.inl h
    | m :: rest =>
      cases hfind : pendingFind pending m.bunchID with
      | some arr =>
        simp only [expand, hfind] at h
        rcases ih _ _ _ x h with h' | h' | ⟨e, hep, hxe⟩
        · rcases List.mem_append.mp h' with h'' | h''
          · exact Or.inl h''
          · simp only [List.mem_singleton] at h''
            exact Or.inr (Or.inl (h'' ▸ List.mem_cons_self _ _))
        · rcases List.mem_append.mp h' with h'' | h''
          · exact Or.inr (Or.inl (List.mem_cons_of_mem _ h''))
          · exact Or.inr (Or.inr ⟨(m.bunchID, arr), pendingFind_mem _ _ _ hfind, h''⟩)
        · exact Or.inr (Or.inr ⟨e, pendingErase_mem _ _ _ hep, hxe⟩)
      | none =>
        simp only [expand, hfind] at h
        rcases ih _ _ _ x h with h' | h' | ⟨e, hep, hxe⟩
        · rcases List.mem_append.mp h' with h'' | h''
          · exact Or.inl h''
          · simp only [List.mem_singleton] at h''
            exact Or.inr (Or.inl (h'' ▸ List.mem_cons_self _ _))
        · exact Or.inr (Or.inl (List.mem_cons_of_mem _ h'))
        · exact Or.inr (Or.inr ⟨e, hep, hxe⟩)

theorem TopoAux_snoc {st : OrderState} :
    ∀ (done : List BunchMeta) (base : List String) (m : BunchMeta),
    TopoAux st base done →
    (treeHas st m.parentID = true ∨ m.parentID ∈ base ∨
      m.parentID ∈ done.map (·.bunchID)) →
    TopoAux st base (done ++ [m]) := by
  intro done
  induction done with
  | nil =>
    intro base m _ hm
    refine ⟨?_, trivial⟩
    rcases hm with h | h | h
    · exact Or.inl h
    · exact Or.inr h
    · simp at h
  | cons d rest ih =>
    intro base m hT hm
    refine ⟨hT.1, ?_⟩
    refine ih _ m hT.2 ?_
    rcases hm with h | h | h
    · exact Or.inl h
    · exact Or.inr (Or.inl (List.mem_cons_of_mem _ h))
    · simp only [List.map_cons, List.mem_cons] at h
      rcases h with h | h
      · exact Or.inr (Or.inl (by rw [h]; exact List.mem_cons_self _ _))
      · exact Or.inr (Or.inr h)

theorem expand_topo (st : OrderState) :
    ∀ (fuel : Nat) (pending : List (String × List BunchMeta))
    (done queue : List BunchMeta),
    TopoAux st [] done →
    (∀ x ∈ queue, treeHas st x.parentID = true ∨
      x.parentID ∈ done.map (·.bunchID)) →
    (∀ e ∈ pending, ∀ x ∈ e.2, x.parentID = e.1) →
    TopoAux st [] (expand fuel pending done queue).1 := by
  intro fuel
  induction fuel with
  | zero => intro pending done queue hT _ _; exact hT
  | succ fuel ih =>
    intro pending done queue hT hq hp
    match queue with
    | [] => exact hT
    | m :: rest =>
      have hm := hq m (List.mem_cons_self _ _)
      have hT' : TopoAux st [] (done ++ [m]) := by
        refine TopoAux_snoc done [] m hT ?_
        rcases hm with h | h
        · exact Or.inl h
        · exact Or.inr (Or.inr h)
      cases hfind : pendingFind pending m.bunchID with
      | some arr =>
        simp only [expand, hfind]
        refine ih _ _ _ hT' ?_ ?_
        · intro x hx
          rcases List.mem_append.mp hx with hx' | hx'
          · rcases hq x (List.mem_cons_of_mem _ hx') with h | h
            · exact Or.inl h
            · refine Or.inr ?_
              simp only [List.map_append, List.mem_append]
              exact Or.inl h
          · have hkey : x.parentID = m.bunchID :=
              hp (m.bunchID, arr) (pendingFind_mem _ _ _ hfind) x hx'
            refine Or.inr ?_
            simp only [List.map_append, List.mem_append, List.map_cons,
              List.map_nil, List.mem_singleton]
            exact Or.inr hkey
        · intro e he x hx
          exact hp e (pendingErase_mem _ _ _ he) x hx
      | none =>
        simp only [expand, hfind]
        refine ih _ _ _ hT' ?_ hp
        intro x hx
        rcases hq x (List.mem_cons_of_mem _ hx) with h | h
        · exact Or.inl h
        · refine Or.inr ?_
          simp only [List.map_append, List.mem_append]
          exact Or.inl h

theorem assocFind_append_some {A : Type} (t1 t2 : List (String × A)) (id : String)
    (v : A) (h : assocFind t1 id = some v) : assocFind (t1 ++ t2) id = some v := by
  induction t1 with
  | nil => simp [assocFind] at h
  | cons e rest ih =>
    obtain ⟨k, w⟩ := e
    by_cases hk : k = id
    · subst hk
      simp [assocFind] at h ⊢
      exact h
    · simp only [List.cons_append, assocFind, if_neg hk] at h ⊢
      exact ih h

theorem assocFind_append_right {A : Type} (t1 t2 : List (String × A)) (id : String)
    (h : assocFind t1 id = none) : assocFind (t1 ++ t2) id = assocFind t2 id := by
  induction t1 with
  | nil => rfl
  | cons e rest ih =>
    obtain ⟨k, w⟩ := e
    by_cases hk : k = id
    · subst hk
      simp [assocFind] at h
    · simp only [assocFind, if_neg hk] at h
      simp only [List.cons_append, assocFind, if_neg hk]
      exact ih h

theorem newNode_some (st : OrderState) (m : BunchMeta)
    (h : treeHas st m.parentID = true) : ∃ st', newNode st m = some st' := by
  unfold treeHas at h
  cases hf : treeFind st m.parentID with
  | none => rw [hf] at h; simp at h
  | some p => exact ⟨_, by unfold newNode; rw [hf]⟩

theorem newNode_has (st st' : OrderState) (m : BunchMeta)
    (h : newNode st m = some st') (x : String)
    (hx : treeHas st x = true ∨ x = m.bunchID) : treeHas st' x = true := by
  unfold newNode at h
  cases hf : treeFind st m.parentID with
  | none => rw [hf] at h; simp at h
  | some p =>
    rw [hf] at h
    simp only [Option.some.injEq] at h
    subst h
    rcases hx with hx | hx
    · unfold treeHas treeFind at hx ⊢
      cases ha : assocFind st.tree x with
      | none => rw [ha] at hx; simp at hx
      | some v =>
        have := assocFind_append_some st.tree
          [(m.bunchID, ⟨some m.parentID, m.offset, p.depth + 1⟩)] x v ha
        simp only [this]
        rfl
    · subst hx
      unfold treeHas treeFind
      cases ha : assocFind st.tree m.bunchID with
      | none =>
        rw [assocFind_append_right _ _ _ ha]
        simp [assocFind]
      | some v =>
        have := assocFind_append_some st.tree
          [(m.bunchID, ⟨some m.parentID, m.offset, p.depth + 1⟩)] m.bunchID v ha
        simp only [this]
        rfl

theorem applyAll_ok :
    ∀ (done : List BunchMeta) (st0 st : OrderState) (base : List String),
    (∀ id, treeHas st0 id = true → treeHas st id = true) →
    (∀ id ∈ base, treeHas st id = true) →
    TopoAux st0 base done →
    ∃ st', applyAll st done = some st' := by
  intro done
  induction done with
  | nil => intro st0 st base _ _ _; exact ⟨st, rfl⟩
  | cons m rest ih =>
    intro st0 st base hmono hbase hT
    have hpar : treeHas st m.parentID = true := by
      rcases hT.1 with h | h
      · exact hmono _ h
      · exact hbase _ h
    obtain ⟨st1, h1⟩ := newNode_some st m hpar
    obtain ⟨st', h'⟩ := ih st0 st1 (m.bunchID :: base)
      (fun id h => newNode_has st st1 m h1 id (Or.inl (hmono id h)))
      (fun id hid => by
        rcases List.mem_cons.mp hid with rfl | hid'
        · exact newNode_has st st1 m h1 _ (Or.inr rfl)
        · exact newNode_has st st1 m h1 _ (Or.inl (hbase _ hid')))
      hT.2
    exact ⟨st', by simp [applyAll, h1, h']⟩

theorem cycleWalk_ne_internal :
    ∀ (fuel : Nat) (news : List BunchMeta) (seen : List String) (cur : BunchMeta),
    seen.Nodup → (∀ s ∈ seen, s ∈ news.map (·.bunchID)) →
    news.length + 1 ≤ fuel + seen.length →
    cycleWalk fuel news seen cur ≠ .internal := by
  intro fuel
  induction fuel with
  | zero =>
    intro news seen cur hnd hsub hlen
    exfalso
    have h1 : seen.length ≤ (news.map (·.bunchID)).length :=
      (hnd.subperm hsub).length_le
    simp only [List.length_map] at h1
    omega
  | succ fuel ih =>
    intro news seen cur hnd hsub hlen h
    cases hfm : findMeta news cur.parentID with
    | none => simp [cycleWalk, hfm] at h
    | some next =>
      by_cases hmem : next.bunchID ∈ seen
      · simp [cycleWalk, hfm, hmem] at h
      · simp only [cycleWalk, hfm, if_neg hmem] at h
        have hnext := findMeta_some hfm
        refine ih news (next.bunchID :: seen) next
          (List.nodup_cons.mpr ⟨hmem, hnd⟩) ?_ (by simp; omega) h
        intro s hs
        rcases List.mem_cons.mp hs with rfl | hs'
        · exact List.mem_map_of_mem _ hnext.1
        · exact hsub s hs'

theorem cycleWalk_ne_unknown (G : BunchMeta → Prop)
    (news : List BunchMeta)
    (hstep : ∀ c, G c → ∃ next, findMeta news c.parentID = some next ∧ G next) :
    ∀ (fuel : Nat) (seen : List String) (cur : BunchMeta), G cur →
    cycleWalk fuel news seen cur ≠ .unknownParent := by
  intro fuel
  induction fuel with
  | zero => intro seen cur _ h; simp [cycleWalk] at h
  | succ fuel ih =>
    intro seen cur hG h
    obtain ⟨next, hfm, hGn⟩ := hstep cur hG
    by_cases hmem : next.bunchID ∈ seen
    · simp [cycleWalk, hfm, hmem] at h
    · simp only [cycleWalk, hfm, if_neg hmem] at h
      exact ih _ next hGn h

theorem cycleWalk_cases :
    ∀ (fuel : Nat) (news : List BunchMeta) (seen : List String) (cur : BunchMeta),
    cycleWalk fuel news seen cur = .internal ∨
    cycleWalk fuel news seen cur = .unknownParent ∨
    cycleWalk fuel news seen cur = .cycle := by
  intro fuel
  induction fuel with
  | zero => intro news seen cur; exact Or.inl rfl
  | succ fuel ih =>
    intro news seen cur
    cases hfm : findMeta news cur.parentID with
    | none => exact Or.inr (Or.inl (by simp [cycleWalk, hfm]))
    | some next =>
      by_cases hmem : next.bunchID ∈ seen
      · exact Or.inr (Or.inr (by simp [cycleWalk, hfm, hmem]))
      · have := ih news (next.bunchID :: seen) next
        simpa [cycleWalk, hfm, hmem] using this

theorem TopoAux_cycle_free {news : List BunchMeta} (st : OrderState)
    (hnd : (news.map (·.bunchID)).Nodup) :
    ∀ (l : List BunchMeta) (base : List String),
    (∀ x ∈ l, x ∈ news) →
    TopoAux st base l →
    (∀ q, q ∈ news → Relation.TransGen (metaStep news) q q →
      treeHas st q.parentID = false ∧ q.parentID ∉ base) →
    ∀ q, q ∈ news → Relation.TransGen (metaStep news) q q → q ∉ l := by
  intro l
  induction l with
  | nil => intro base _ _ _ q _ _ h; simp at h
  | cons m rest ih =>
    intro base hsub hT hbase q hq hcyc hmem
    have hmn : m ∈ news := hsub m (List.mem_cons_self _ _)
    have hmnc : ¬ Relation.TransGen (metaStep news) m m := by
      intro hmc
      obtain ⟨hfalse, hnb⟩ := hbase m hmn hmc
      rcases hT.1 with h | h
      · rw [h] at hfalse; exact Bool.noConfusion hfalse
      · exact hnb h
    rcases List.mem_cons.mp hmem with rfl | hmem'
    · exact hmnc hcyc
    · refine ih (m.bunchID :: base)
        (fun x hx => hsub x (List.mem_cons_of_mem _ hx)) hT.2 ?_ q hq hcyc hmem'
      intro q' hq' hc'
      obtain ⟨hfalse, hnb⟩ := hbase q' hq' hc'
      refine ⟨hfalse, ?_⟩
      intro hmemb
      rcases List.mem_cons.mp hmemb with heq | hmemb'
      · exact hmnc (cycle_up hnd hc' hmn heq.symm)
      · exact hnb hmemb'

theorem receive_error_eq (st : OrderState) (metas : List BunchMeta) (e0 : OrderErr)
    (hph : phase1 st metas [] = .error e0) : receive st metas = .error e0 := by
  simp only [receive, hph]

theorem receive_ok_apply (st : OrderState) (metas news : List BunchMeta)
    (st' : OrderState) (hph : phase1 st metas [] = .ok news)
    (hed2 : (expand ((splitNew st news).1.length + pendingSum (splitNew st news).2 + 1)
      (splitNew st news).2 [] (splitNew st news).1).2 = [])
    (happ : applyAll st (expand ((splitNew st news).1.length +
        pendingSum (splitNew st news).2 + 1)
      (splitNew st news).2 [] (splitNew st news).1).1 = some st') :
    receive st metas = .ok st' := by
  simp only [receive, hph, hed2, happ]

theorem receive_ok_walk (st : OrderState) (metas news : List BunchMeta)
    (k : String) (m0 : BunchMeta) (arrT : List BunchMeta)
    (restp : List (String × List BunchMeta))
    (hph : phase1 st metas [] = .ok news)
    (hed2 : (expand ((splitNew st news).1.length + pendingSum (splitNew st news).2 + 1)
      (splitNew st news).2 [] (splitNew st news).1).2 = (k, m0 :: arrT) :: restp) :
    receive st metas = .error (cycleWalk (news.length + 1) news [] m0) := by
  simp only [receive, hph, hed2]

/-- C5: `Order.receive` is atomic — every error is raised before any bunch
is installed, and in particular it never reports its internal error — and a
batch whose new metas' parent relation contains a cycle makes it throw:
always some error, and the cycle error itself whenever each new meta's
parent is either already installed or among the batch's new metas.  The
`hroot` hypothesis records the tree invariant that only the root node lacks
a parent. -/
theorem C5_receive_atomic_and_cycle (st : OrderState) (metas : List BunchMeta)
    (hroot : ∀ id n, treeFind st id = some n → n.parentID = none → id = ROOT) :
    (∀ e, receive st metas = .error e → e ≠ OrderErr.internal) ∧
    (∀ news, phase1Res st metas = some news → CycleIn news →
      (∃ e, receive st metas = .error e) ∧
      (parentsResolvable st news → receive st metas = .error OrderErr.cycle)) := by
  cases hph : phase1 st metas [] with
  | error e0 =>
    have hrec := receive_error_eq st metas e0 hph
    constructor
    · intro e he hint
      rw [hrec] at he
      have he2 : e0 = e := by injection he
      subst he2
      subst hint
      exact phase1_no_internal st hroot metas [] hph
    · intro news hnews
      simp only [phase1Res, hph] at hnews
      simp [Except.toOption] at hnews
  | ok news =>
    obtain ⟨hnodup, hnotin⟩ := phase1_ok_facts st metas [] news hph (by simp) (by simp)
    have hq1 : (splitNew st news).1 = news.filter (fun m => treeHas st m.parentID) := by
      simpa [splitNew] using splitNew_fold_queue st news ([], [])
    have hInv : pendingInv st news (splitNew st news).2 := splitNew_pendingInv st news
    have hknd : (((splitNew st news).2).map (·.1)).Nodup := splitNew_keysNodup st news
    have hEF := expand_EF
      ((splitNew st news).1.length + pendingSum (splitNew st news).2 + 1)
      (splitNew st news).2 [] (splitNew st news).1 hknd (by simp)
    have hPM := fun e he => expand_pending_mem
      ((splitNew st news).1.length + pendingSum (splitNew st news).2 + 1)
      (splitNew st news).2 [] (splitNew st news).1 e he
    have hTopo : TopoAux st []
        (expand ((splitNew st news).1.length + pendingSum (splitNew st news).2 + 1)
          (splitNew st news).2 [] (splitNew st news).1).1 := by
      refine expand_topo st _ _ _ _ trivial ?_ ?_
      · intro x hx
        rw [hq1] at hx
        exact Or.inl ((List.mem_filter.mp hx).2)
      · intro e he x hx
        exact ((hInv e he).2.2 x hx).2
    have hDoneSrc : ∀ x ∈
        (expand ((splitNew st news).1.length + pendingSum (splitNew st news).2 + 1)
          (splitNew st news).2 [] (splitNew st news).1).1, x ∈ news := by
      intro x hx
      rcases expand_done_src _ _ _ _ x hx with h | h | ⟨e, hep, hxe⟩
      · simp at h
      · rw [hq1] at h; exact List.mem_of_mem_filter h
      · exact ((hInv e hep).2.2 x hxe).1
    have hCover : ∀ m ∈ news,
        m ∈ (expand ((splitNew st news).1.length + pendingSum (splitNew st news).2 + 1)
          (splitNew st news).2 [] (splitNew st news).1).1 ∨
        ∃ e, e ∈ (expand ((splitNew st news).1.length +
            pendingSum (splitNew st news).2 + 1)
          (splitNew st news).2 [] (splitNew st news).1).2 ∧ m ∈ e.2 := by
      intro m hm
      by_cases hpar : treeHas st m.parentID = true
      · refine expand_cover _ _ _ _ hknd (le_refl _) m (Or.inl ?_)
        rw [hq1]
        exact List.mem_filter.mpr ⟨hm, hpar⟩
      · simp only [Bool.not_eq_true] at hpar
        obtain ⟨arr, hfind, hmarr⟩ := splitNew_fold_find st news ([], []) m hm hpar
        exact expand_cover _ _ _ _ hknd (le_refl _) m
          (Or.inr ⟨(m.parentID, arr), pendingFind_mem _ _ _ hfind, hmarr⟩)
    have hcycbase : ∀ q, q ∈ news → Relation.TransGen (metaStep news) q q →
        treeHas st q.parentID = false ∧ q.parentID ∉ ([] : List String) := by
      intro q hq hc
      refine ⟨?_, by simp⟩
      obtain ⟨c, hqc, hcq⟩ := Relation.TransGen.head'_iff.mp hc
      have htf : treeFind st c.bunchID = none := hnotin c hqc.1
      rw [← hqc.2]
      simp [treeHas, htf]
    cases hed2 : (expand ((splitNew st news).1.length +
        pendingSum (splitNew st news).2 + 1)
        (splitNew st news).2 [] (splitNew st news).1).2 with
    | nil =>
      obtain ⟨st', happ⟩ := applyAll_ok _ st st [] (fun id h => h) (by simp) hTopo
      have hrec2 : receive st metas = .ok st' := receive_ok_apply st metas news st' hph hed2 happ
      constructor
      · intro e he
        rw [hrec2] at he
        exact absurd he (by simp)
      · intro news0 hnews0 hcyc0
        simp only [phase1Res, hph] at hnews0
        simp only [Except.toOption, Option.some.injEq] at hnews0
        subst hnews0
        exfalso
        obtain ⟨m, hm, hmc⟩ := hcyc0
        rcases hCover m hm with hdone | ⟨e, hee, _⟩
        · exact TopoAux_cycle_free st hnodup _ [] hDoneSrc hTopo hcycbase m hm hmc hdone
        · rw [hed2] at hee; simp at hee
    | cons p restp =>
      obtain ⟨k, arr⟩ := p
      have hp2 : (k, arr) ∈ (expand ((splitNew st news).1.length +
          pendingSum (splitNew st news).2 + 1)
          (splitNew st news).2 [] (splitNew st news).1).2 := by
        rw [hed2]; exact List.mem_cons_self _ _
      have hInvE := hInv (k, arr) (hPM (k, arr) hp2)
      cases arr with
      | nil => exact absurd rfl hInvE.2.1
      | cons m0 arrT =>
        have hrec3 := receive_ok_walk st metas news k m0 arrT restp hph hed2
        have hm0news : m0 ∈ news := (hInvE.2.2 m0 (List.mem_cons_self _ _)).1
        have hne1 : cycleWalk (news.length + 1) news [] m0 ≠ OrderErr.internal :=
          cycleWalk_ne_internal (news.length + 1) news [] m0 (by simp) (by simp) (by simp)
        constructor
        · intro e he
          rw [hrec3] at he
          have he2 : cycleWalk (news.length + 1) news [] m0 = e := by injection he
          subst he2
          exact hne1
        · intro news0 hnews0 hcyc0
          simp only [phase1Res, hph] at hnews0
          simp only [Except.toOption, Option.some.injEq] at hnews0
          subst hnews0
          refine ⟨⟨_, hrec3⟩, ?_⟩
          intro hres
          have hGstep : ∀ c, (c ∈ news ∧ ∃ e, e ∈
              (expand ((splitNew st news).1.length + pendingSum (splitNew st news).2 + 1)
                (splitNew st news).2 [] (splitNew st news).1).2 ∧ c ∈ e.2) →
              ∃ next, findMeta news c.parentID = some next ∧
                (next ∈ news ∧ ∃ e, e ∈
                  (expand ((splitNew st news).1.length + pendingSum (splitNew st news).2 + 1)
                    (splitNew st news).2 [] (splitNew st news).1).2 ∧ next ∈ e.2) := by
            rintro c ⟨hcn, e, hee, hce⟩
            have hInvE2 := hInv e (hPM e hee)
            have hcp : c.parentID = e.1 := (hInvE2.2.2 c hce).2
            have hkey : treeHas st e.1 = false := hInvE2.1
            rcases hres c hcn with h | h
            · rw [hcp, hkey] at h
              exact absurd h (by simp)
            · obtain ⟨next, hfm⟩ := findMeta_of_mem_ids h
              have hnx := findMeta_some hfm
              refine ⟨next, hfm, hnx.1, ?_⟩
              have hnotdone : next ∉
                  (expand ((splitNew st news).1.length + pendingSum (splitNew st news).2 + 1)
                    (splitNew st news).2 [] (splitNew st news).1).1 := by
                intro hdn
                have hmm : next.bunchID ∈
                    ((expand ((splitNew st news).1.length +
                        pendingSum (splitNew st news).2 + 1)
                      (splitNew st news).2 [] (splitNew st news).1).1).map (·.bunchID) :=
                  List.mem_map_of_mem _ hdn
                rw [hnx.2, hcp] at hmm
                exact hEF e hee hmm
              rcases hCover next hnx.1 with h' | h'
              · exact absurd h' hnotdone
              · exact h'
          have hG0 : m0 ∈ news ∧ ∃ e, e ∈
              (expand ((splitNew st news).1.length + pendingSum (splitNew st news).2 + 1)
                (splitNew st news).2 [] (splitNew st news).1).2 ∧ m0 ∈ e.2 :=
            ⟨hm0news, (k, m0 :: arrT), hp2, List.mem_cons_self _ _⟩
          have hne2 := cycleWalk_ne_unknown _ news hGstep (news.length + 1) [] m0 hG0
          rcases cycleWalk_cases (news.length + 1) news [] m0 with h | h | h
          · exact absurd h hne1
          · exact absurd h hne2
          · rw [hrec3, h]

/-- Witness: on a fresh order, receiving the two-element batch whose metas
name each other as parents throws the cycle error. -/
theorem C5_receive_witness :
    receive initialOrder c5cyc = .error OrderErr.cycle := by
  have h := C5_receive_atomic_and_cycle initialOrder c5cyc
    (fun id n hf hp => by
      simp only [initialOrder, treeFind, assocFind] at hf
      split at hf
      · rename_i hid
        exact hid.symm
      · exact Option.noConfusion hf)
  have hcyc : CycleIn c5cyc := by
    refine ⟨⟨"X", "Y", 1⟩, by decide, ?_⟩
    have h1 : metaStep c5cyc ⟨"X", "Y", 1⟩ ⟨"Y", "X", 1⟩ := ⟨by decide, rfl⟩
    have h2 : metaStep c5cyc ⟨"Y", "X", 1⟩ ⟨"X", "Y", 1⟩ := ⟨by decide, rfl⟩
    exact Relation.TransGen.tail (Relation.TransGen.single h1) h2
  exact (h.2 c5cyc rfl hcyc).2 (by unfold parentsResolvable; decide)

/-! ### C7: arithmetic of run arrays and child enumerations -/

theorem itemsSize_append {T : Type} (l1 l2 : List (Item T)) :
    itemsSize (l1 ++ l2) = itemsSize l1 + itemsSize l2 := by
  simp [itemsSize]

theorem ownCount_append {T : Type} (l1 l2 : List (Item T)) :
    ownCount (l1 ++ l2) = ownCount l1 + ownCount l2 := by
  induction l1 with
  | nil => simp [ownCount]
  | cons a l1 ih =>
    cases a with
    | vals lv =>
      simp only [List.cons_append, ownCount, List.append_eq, ih]
      omega
    | gap n => simp only [List.cons_append, ownCount, List.append_eq, ih]

theorem chSum_append {T : Type} (l1 l2 : List (Nat × Nat × LTree T)) :
    chSum (l1 ++ l2) = chSum l1 + chSum l2 := by
  simp [chSum]

theorem wsum_append {T : Type} (l1 l2 : List (VoC T)) :
    wsum (l1 ++ l2) = wsum l1 + wsum l2 := by
  simp [wsum]

theorem chSum_zero {T : Type} (l : List (Nat × Nat × LTree T))
    (h : ∀ e ∈ l, e.2.2.total = 0) : chSum l = 0 := by
  induction l with
  | nil => rfl
  | cons a l ih =>
    have h0 := h a (List.mem_cons_self _ _)
    have hl : chSum l = 0 := ih (fun e he => h e (List.mem_cons_of_mem _ he))
    simp [chSum] at hl ⊢
    exact ⟨h0, hl⟩

theorem chSum_foldl {T : Type} (l : List (Nat × Nat × LTree T)) :
    ∀ n : Nat, l.foldl (fun a e => a + e.2.2.total) n = n + chSum l := by
  induction l with
  | nil => intro n; simp [chSum]
  | cons a l ih =>
    intro n
    simp only [List.foldl_cons, ih]
    simp [chSum]
    omega

theorem sumBefore_eq {T : Type} (ch : LForest T) (k : Nat) :
    sumBefore ch k = chSum ((forestEnum ch 0).take k) := by
  simp [sumBefore, chSum_foldl]

theorem sumLeftOf_eq {T : Type} (ch : LForest T) (v : Nat) :
    sumLeftOf ch v =
      chSum ((forestEnum ch 0).takeWhile (fun e => e.2.1 ≤ v)) := by
  simp [sumLeftOf, chSum_foldl]

theorem forestEnum_get? {T : Type} :
    ∀ (ch : LForest T) (i0 k : Nat),
    (forestEnum ch i0).get? k =
      (forestGet? ch k).map (fun pc => (i0 + k, pc.1, pc.2))
  | .nil, i0, k => by simp [forestEnum, forestGet?]
  | .cons pvi t rest, i0, 0 => by simp [forestEnum, forestGet?]
  | .cons pvi t rest, i0, k + 1 => by
    show (forestEnum rest (i0 + 1)).get? k =
      (forestGet? rest k).map (fun pc => (i0 + (k + 1), pc.1, pc.2))
    rw [forestEnum_get? rest (i0 + 1) k]
    have h2 : i0 + 1 + k = i0 + (k + 1) := by omega
    rw [h2]

theorem chSum_forestEnum {T : Type} :
    ∀ (ch : LForest T) (i0 : Nat), chSum (forestEnum ch i0) = sumF ch
  | .nil, i0 => rfl
  | .cons pvi t rest, i0 => by
    simp only [forestEnum, sumF, chSum, List.map_cons, List.sum_cons]
    have := chSum_forestEnum rest (i0 + 1)
    simp only [chSum] at this
    rw [this]

theorem wfF_get {T : Type} :
    ∀ (ch : LForest T) (k : Nat) (pvi : Nat) (c : LTree T),
    forestGet? ch k = some (pvi, c) → wfF ch = true → wfT c = true
  | .nil, k, pvi, c, h, _ => by simp [forestGet?] at h
  | .cons pvi0 t rest, 0, pvi, c, h, hwf => by
    simp only [forestGet?, Option.some.injEq, Prod.mk.injEq] at h
    obtain ⟨h1, h2⟩ := h
    subst h2
    simp only [wfF, Bool.and_eq_true] at hwf
    exact hwf.1
  | .cons pvi0 t rest, k + 1, pvi, c, h, hwf => by
    simp only [forestGet?] at h
    simp only [wfF, Bool.and_eq_true] at hwf
    exact wfF_get rest k pvi c h hwf.2

theorem sizeT_get {T : Type} :
    ∀ (ch : LForest T) (k : Nat) (pvi : Nat) (c : LTree T),
    forestGet? ch k = some (pvi, c) → sizeT c ≤ sizeF ch
  | .nil, k, pvi, c, h => by simp [forestGet?] at h
  | .cons pvi0 t rest, 0, pvi, c, h => by
    simp only [forestGet?, Option.some.injEq, Prod.mk.injEq] at h
    obtain ⟨h1, h2⟩ := h
    subst h2
    simp [sizeF]
  | .cons pvi0 t rest, k + 1, pvi, c, h => by
    simp only [forestGet?] at h
    have hle := sizeT_get rest k pvi c h
    simp only [sizeF]
    omega

theorem enum_split_get {T : Type} (ch : LForest T)
    (X Y : List (Nat × Nat × LTree T)) (e : Nat × Nat × LTree T)
    (h : forestEnum ch 0 = X ++ e :: Y) :
    e.1 = X.length ∧ forestGet? ch X.length = some (e.2.1, e.2.2) := by
  have hg : (forestEnum ch 0).get? X.length = some e := by
    rw [h]
    rw [List.get?_append_right (le_refl _)]
    simp
  rw [forestEnum_get? ch 0 X.length] at hg
  cases hf : forestGet? ch X.length with
  | none => rw [hf] at hg; simp at hg
  | some pc =>
    rw [hf] at hg
    simp only [Option.map, Option.some.injEq] at hg
    constructor
    · rw [← hg]; simp
    · rw [← hg]

theorem sortedEnum_tail {T : Type} (a : Nat × Nat × LTree T)
    (l : List (Nat × Nat × LTree T)) (h : sortedEnum (a :: l) = true) :
    sortedEnum l = true := by
  match l with
  | [] => rfl
  | b :: rest =>
    simp only [sortedEnum, Bool.and_eq_true] at h
    exact h.2

theorem sortedEnum_head_le {T : Type} (a : Nat × Nat × LTree T) :
    ∀ (l : List (Nat × Nat × LTree T)), sortedEnum (a :: l) = true →
    ∀ e ∈ l, a.2.1 ≤ e.2.1 := by
  intro l
  induction l generalizing a with
  | nil => intro _ e he; simp at he
  | cons b rest ih =>
    intro h e he
    simp only [sortedEnum, Bool.and_eq_true, decide_eq_true_eq] at h
    rcases List.mem_cons.mp he with rfl | he'
    · exact h.1
    · exact le_trans h.1 (ih b h.2 e he')

theorem sortedEnum_suffix {T : Type} :
    ∀ (X Y : List (Nat × Nat × LTree T)),
    sortedEnum (X ++ Y) = true → sortedEnum Y = true := by
  intro X
  induction X with
  | nil => intro Y h; exact h
  | cons a X ih =>
    intro Y h
    exact ih Y (sortedEnum_tail a _ h)

theorem takeWhile_chSum_split {T : Type} :
    ∀ (X Y : List (Nat × Nat × LTree T)) (v : Nat),
    sortedEnum (X ++ Y) = true →
    (∀ e ∈ X, e.2.1 ≤ v ∨ e.2.2.total = 0) →
    (∀ e ∈ Y, v < e.2.1) →
    chSum ((X ++ Y).takeWhile (fun e => e.2.1 ≤ v)) = chSum X := by
  intro X
  induction X with
  | nil =>
    intro Y v _ _ hY
    match Y with
    | [] => rfl
    | b :: Y' =>
      have hbv := hY b (List.mem_cons_self _ _)
      have hb : (b.2.1 ≤ v : Bool) = false := by
        simp only [decide_eq_false_iff_not]
        omega
      simp only [List.nil_append, List.takeWhile_cons, hb]
      rfl
  | cons a X ih =>
    intro Y v hs hX hY
    by_cases ha : a.2.1 ≤ v
    · have hb : (a.2.1 ≤ v : Bool) = true := by simpa using ha
      simp only [List.cons_append, List.takeWhile_cons, hb, if_true]
      have heq := ih Y v (sortedEnum_tail a _ hs)
        (fun e he => hX e (List.mem_cons_of_mem _ he)) hY
      simp only [chSum, List.map_cons, List.sum_cons, List.append_eq] at heq ⊢
      omega
    · -- a's pvi exceeds v, so a and everything after it in X is a zero
      -- run: both sides are the sum over X's below-v prefix, i.e. zero
      have ha0 : a.2.2.total = 0 := by
        rcases hX a (List.mem_cons_self _ _) with h | h
        · omega
        · exact h
      have hrest : ∀ e ∈ X, e.2.2.total = 0 := by
        intro e he
        have hle := sortedEnum_head_le a (X ++ Y) hs e
          (List.mem_append_left _ he)
        rcases hX e (List.mem_cons_of_mem _ he) with h | h
        · omega
        · exact h
      have hXz : chSum (a :: X) = 0 := by
        apply chSum_zero
        intro e he
        rcases List.mem_cons.mp he with rfl | he'
        · exact ha0
        · exact hrest e he'
      have hb : (a.2.1 ≤ v : Bool) = false := by
        simp only [decide_eq_false_iff_not]
        omega
      simp only [List.cons_append, List.takeWhile_cons, hb]
      rw [hXz]
      rfl

theorem takeWhile_chSum_ge {T : Type} :
    ∀ (X Y : List (Nat × Nat × LTree T)) (v : Nat),
    (∀ e ∈ X, e.2.1 ≤ v) →
    chSum X ≤ chSum ((X ++ Y).takeWhile (fun e => e.2.1 ≤ v)) := by
  intro X
  induction X with
  | nil => intro Y v _; simp [chSum]
  | cons a X ih =>
    intro Y v hX
    have ha : (a.2.1 ≤ v : Bool) = true := by
      simpa using hX a (List.mem_cons_self _ _)
    simp only [List.cons_append, List.takeWhile_cons, ha, if_true]
    have hih := ih Y v (fun e he => hX e (List.mem_cons_of_mem _ he))
    simp only [chSum, List.map_cons, List.sum_cons, List.append_eq] at hih ⊢
    omega

theorem chSum_take_le {T : Type} (l : List (Nat × Nat × LTree T)) :
    ∀ j k, j ≤ k → chSum (l.take j) ≤ chSum (l.take k) := by
  induction l with
  | nil => intro j k _; simp [chSum]
  | cons a l ih =>
    intro j k hjk
    match j, k with
    | 0, k => simp [chSum]
    | j + 1, k + 1 =>
      simp only [List.take_succ_cons, chSum, List.map_cons, List.sum_cons]
      have hih := ih j k (by omega)
      simp only [chSum] at hih
      omega

theorem takeWhile_get_true {T : Type} (p : Nat × Nat × LTree T → Bool) :
    ∀ (l : List (Nat × Nat × LTree T)) (k : Nat) (e : Nat × Nat × LTree T),
    l.get? k = some e → p e = false → (l.takeWhile p).length ≤ k := by
  intro l
  induction l with
  | nil => intro k e h _; simp at h
  | cons a l ih =>
    intro k e h hp
    match k with
    | 0 =>
      simp only [List.get?, Option.some.injEq] at h
      subst h
      simp [List.takeWhile_cons, hp]
    | k + 1 =>
      simp only [List.get?] at h
      cases hpa : p a with
      | false => simp [List.takeWhile_cons, hpa]
      | true =>
        simp only [List.takeWhile_cons, hpa, if_true]
        have hih := ih k e h hp
        simp only [List.length_cons]
        omega

theorem takeWhile_eq_take {T : Type} (p : Nat × Nat × LTree T → Bool) :
    ∀ (l : List (Nat × Nat × LTree T)),
    l.takeWhile p = l.take (l.takeWhile p).length := by
  intro l
  induction l with
  | nil => rfl
  | cons a l ih =>
    cases hpa : p a with
    | false => simp [List.takeWhile_cons, hpa]
    | true =>
      simp only [List.takeWhile_cons, hpa, if_true, List.length_cons,
        List.take_succ_cons]
      rw [← ih]

/-! ### C7: locating values in a run array -/

theorem locItems_pre_vals {T : Type} :
    ∀ (pre : List (Item T)) (l : List T) (suf : List (Item T)) (off : Nat),
    off < l.length →
    locItems (pre ++ .vals l :: suf) (itemsSize pre + off) =
      (true, ownCount pre + off) := by
  intro pre
  induction pre with
  | nil =>
    intro l suf off h
    simp [locItems, itemsSize, ownCount, h]
  | cons a pre ih =>
    intro l suf off h
    cases a with
    | vals lv =>
      have harith : itemsSize (Item.vals lv :: pre) + off =
          lv.length + (itemsSize pre + off) := by
        simp [itemsSize, itemSize]; omega
      rw [harith]
      simp only [List.cons_append, locItems]
      rw [if_neg (by omega)]
      have hsub : lv.length + (itemsSize pre + off) - lv.length =
          itemsSize pre + off := by omega
      rw [hsub]
      simp only [List.append_eq]
      rw [ih l suf off h]
      simp only [ownCount, Prod.mk.injEq]
      exact ⟨trivial, by omega⟩
    | gap n =>
      have harith : itemsSize (Item.gap n :: pre) + off =
          n + (itemsSize pre + off) := by
        simp [itemsSize, itemSize]; omega
      rw [harith]
      simp only [List.cons_append, locItems]
      rw [if_neg (by omega)]
      have hsub : n + (itemsSize pre + off) - n = itemsSize pre + off := by
        omega
      rw [hsub]
      simp only [List.append_eq]
      rw [ih l suf off h]
      rfl

theorem locItems_pre_gap {T : Type} :
    ∀ (pre : List (Item T)) (n : Nat) (suf : List (Item T)) (off : Nat),
    off < n →
    locItems (pre ++ .gap n :: suf) (itemsSize pre + off) =
      (false, ownCount pre) := by
  intro pre
  induction pre with
  | nil =>
    intro n suf off h
    simp [locItems, itemsSize, ownCount, h]
  | cons a pre ih =>
    intro n suf off h
    cases a with
    | vals lv =>
      have harith : itemsSize (Item.vals lv :: pre) + off =
          lv.length + (itemsSize pre + off) := by
        simp [itemsSize, itemSize]; omega
      rw [harith]
      simp only [List.cons_append, locItems]
      rw [if_neg (by omega)]
      have hsub : lv.length + (itemsSize pre + off) - lv.length =
          itemsSize pre + off := by omega
      rw [hsub]
      simp only [List.append_eq]
      rw [ih n suf off h]
      simp only [ownCount, Prod.mk.injEq]
      exact ⟨trivial, by omega⟩
    | gap m =>
      have harith : itemsSize (Item.gap m :: pre) + off =
          m + (itemsSize pre + off) := by
        simp [itemsSize, itemSize]; omega
      rw [harith]
      simp only [List.cons_append, locItems]
      rw [if_neg (by omega)]
      have hsub : m + (itemsSize pre + off) - m = itemsSize pre + off := by
        omega
      rw [hsub]
      simp only [List.append_eq]
      rw [ih n suf off h]
      rfl

theorem locItems_past {T : Type} :
    ∀ (l : List (Item T)) (v : Nat), itemsSize l ≤ v →
    locItems l v = (false, ownCount l) := by
  intro l
  induction l with
  | nil => intro v _; rfl
  | cons a l ih =>
    intro v h
    cases a with
    | vals lv =>
      simp only [itemsSize, List.map_cons, List.sum_cons, itemSize] at h
      simp only [locItems]
      rw [if_neg (by omega)]
      rw [ih (v - lv.length) (by simp [itemsSize]; omega)]
      simp only [ownCount, Prod.mk.injEq]
      exact ⟨trivial, by omega⟩
    | gap n =>
      simp only [itemsSize, List.map_cons, List.sum_cons, itemSize] at h
      simp only [locItems]
      rw [if_neg (by omega)]
      exact ih (v - n) (by simp [itemsSize]; omega)

theorem locItems_le_ownCount {T : Type} :
    ∀ (l : List (Item T)) (v : Nat), (locItems l v).2 ≤ ownCount l := by
  intro l
  induction l with
  | nil => intro v; simp [locItems, ownCount]
  | cons a l ih =>
    intro v
    cases a with
    | vals lv =>
      simp only [locItems]
      by_cases hv : v < lv.length
      · rw [if_pos hv]; simp only [ownCount]; omega
      · rw [if_neg hv]
        simp only [ownCount]
        have := ih (v - lv.length)
        omega
    | gap n =>
      simp only [locItems]
      by_cases hv : v < n
      · rw [if_pos hv]; simp [ownCount]
      · rw [if_neg hv]
        simp only [ownCount]
        exact ih (v - n)

theorem locItems_lt_ownCount {T : Type} :
    ∀ (l : List (Item T)) (v : Nat), (locItems l v).1 = true →
    (locItems l v).2 < ownCount l := by
  intro l
  induction l with
  | nil => intro v h; simp [locItems] at h
  | cons a l ih =>
    intro v h
    cases a with
    | vals lv =>
      simp only [locItems] at h ⊢
      by_cases hv : v < lv.length
      · rw [if_pos hv]
        rw [if_pos hv] at h
        simp only [ownCount]
        omega
      · rw [if_neg hv] at h ⊢
        simp only [ownCount]
        have := ih (v - lv.length) h
        omega
    | gap n =>
      simp only [locItems] at h ⊢
      by_cases hv : v < n
      · rw [if_pos hv] at h; simp at h
      · rw [if_neg hv] at h ⊢
        simp only [ownCount]
        exact ih (v - n) h

theorem locItems_mono {T : Type} :
    ∀ (l : List (Item T)) (v v' : Nat), v ≤ v' →
    (locItems l v).2 ≤ (locItems l v').2 := by
  intro l
  induction l with
  | nil => intro v v' _; simp [locItems]
  | cons a l ih =>
    intro v v' hvv
    cases a with
    | vals lv =>
      simp only [locItems]
      by_cases hv : v < lv.length
      · rw [if_pos hv]
        by_cases hv' : v' < lv.length
        · rw [if_pos hv']; omega
        · rw [if_neg hv']; omega
      · rw [if_neg hv, if_neg (by omega : ¬ v' < lv.length)]
        have := ih (v - lv.length) (v' - lv.length) (by omega)
        omega
    | gap n =>
      simp only [locItems]
      by_cases hv : v < n
      · rw [if_pos hv]
        by_cases hv' : v' < n
        · rw [if_pos hv']
        · rw [if_neg hv']; simp
      · rw [if_neg hv, if_neg (by omega : ¬ v' < n)]
        exact ih (v - n) (v' - n) (by omega)

theorem locItems_strict_mono {T : Type} :
    ∀ (l : List (Item T)) (v v' : Nat), v < v' →
    (locItems l v).1 = true →
    (locItems l v).2 < (locItems l v').2 := by
  intro l
  induction l with
  | nil => intro v v' _ h; simp [locItems] at h
  | cons a l ih =>
    intro v v' hvv h
    cases a with
    | vals lv =>
      simp only [locItems] at h ⊢
      by_cases hv : v < lv.length
      · rw [if_pos hv]
        by_cases hv' : v' < lv.length
        · rw [if_pos hv']; omega
        · rw [if_neg hv']
          have := locItems_mono l 0 (v' - lv.length) (by omega)
          omega
      · rw [if_neg hv] at h ⊢
        rw [if_neg (by omega : ¬ v' < lv.length)]
        have := ih (v - lv.length) (v' - lv.length) (by omega) h
        omega
    | gap n =>
      simp only [locItems] at h ⊢
      by_cases hv : v < n
      · rw [if_pos hv] at h; simp at h
      · rw [if_neg hv] at h ⊢
        rw [if_neg (by omega : ¬ v' < n)]
        exact ih (v - n) (v' - n) (by omega) h

/-! ### C7: the scan of one node's yields -/

theorem YAll_append {T : Type} (items : List (Item T)) (ch : LForest T) :
    ∀ (ys1 ys2 : List (VoC T)) (D : Nat),
    YAll items ch ys1 D → YAll items ch ys2 (D + wsum ys1) →
    YAll items ch (ys1 ++ ys2) D := by
  intro ys1
  induction ys1 with
  | nil =>
    intro ys2 D _ h2
    simpa [wsum] using h2
  | cons y ys1 ih =>
    intro ys2 D h1 h2
    refine ⟨h1.1, ?_⟩
    refine ih ys2 (D + ysize y) h1.2 ?_
    have : D + ysize y + wsum ys1 = D + wsum (y :: ys1) := by
      simp [wsum]; omega
    rw [this]
    exact h2

theorem YAll_child_mem {T : Type} (items : List (Item T)) (ch : LForest T) :
    ∀ (ys : List (VoC T)) (D : Nat), YAll items ch ys D →
    ∀ i c, VoC.child i c ∈ ys →
    ∃ pvi, forestGet? ch i = some (pvi, c) := by
  intro ys
  induction ys with
  | nil => intro D _ i c h; simp at h
  | cons y ys ih =>
    intro D hY i c h
    rcases List.mem_cons.mp h with rfl | h'
    · obtain ⟨pvi, hf, _⟩ := hY.1
      exact ⟨pvi, hf⟩
    · exact ih (D + ysize y) hY.2 i c h'

theorem posGoF_correct {T : Type} (recur : LTree T → Nat → Option (List Nat × Nat))
    (tot : Nat) (items : List (Item T)) (ch : LForest T) :
    ∀ (ys : List (VoC T)) (D rem : Nat),
    YAll items ch ys D → rem < wsum ys →
    (∀ i c, VoC.child i c ∈ ys → ∀ r, r < c.total →
      ∃ pv, recur c r = some pv ∧ idxCore c pv.1 pv.2 = some (r, true)) →
    ∃ pv, posGoF recur ys rem = some pv ∧
      idxCore (LTree.mk tot items ch) pv.1 pv.2 = some (D + rem, true) := by
  intro ys
  induction ys with
  | nil => intro D rem _ hrem _; simp [wsum] at hrem
  | cons y ys ih =>
    intro D rem hY hrem hrec
    cases y with
    | vals sl vi =>
      by_cases hin : rem < sl.length
      · refine ⟨([], vi + rem), ?_, ?_⟩
        · simp [posGoF, hin]
        · have hc := hY.1 rem hin
          simp only [idxCore, LTree.items, LTree.children]
          rw [hc.1, hc.2]
      · obtain ⟨pv, h1, h2⟩ := ih (D + sl.length) (rem - sl.length) hY.2
          (by simp [wsum, ysize] at hrem ⊢; omega)
          (fun i c hm r hr => hrec i c (List.mem_cons_of_mem _ hm) r hr)
        refine ⟨pv, ?_, ?_⟩
        · simp [posGoF, hin, h1]
        · rw [h2]
          have : D + sl.length + (rem - sl.length) = D + rem := by omega
          rw [this]
    | child i c =>
      by_cases hin : rem < c.total
      · obtain ⟨pv, hr1, hr2⟩ := hrec i c (List.mem_cons_self _ _) rem hin
        obtain ⟨pvi, hf, hD⟩ := hY.1
        refine ⟨(i :: pv.1, pv.2), ?_, ?_⟩
        · simp [posGoF, hin, hr1]
        · simp only [idxCore, LTree.items, LTree.children, hf]
          rw [hr2]
          have harith : rem + (locItems items pvi).2 + sumBefore ch i =
              D + rem := by omega
          simp only [Option.map, Option.some.injEq, Prod.mk.injEq]
          exact ⟨harith, trivial⟩
      · obtain ⟨pv, h1, h2⟩ := ih (D + c.total) (rem - c.total) hY.2
          (by simp [wsum, ysize] at hrem ⊢; omega)
          (fun i' c' hm r hr => hrec i' c' (List.mem_cons_of_mem _ hm) r hr)
        refine ⟨pv, ?_, ?_⟩
        · simp [posGoF, hin, h1]
        · rw [h2]
          have : D + c.total + (rem - c.total) = D + rem := by omega
          rw [this]

/-! ### C7: correctness of valuesAndChildren -/

theorem slice_YC {T : Type} (items : List (Item T)) (ch : LForest T)
    (pre0 : List (Item T)) (l : List T) (suf0 : List (Item T))
    (hitems : items = pre0 ++ .vals l :: suf0)
    (X Y : List (Nat × Nat × LTree T))
    (hsplit : forestEnum ch 0 = X ++ Y)
    (hsort : sortedEnum (forestEnum ch 0) = true)
    (a b : Nat)
    (hsa : itemsSize pre0 ≤ a) (hab : a ≤ b)
    (hb : b ≤ itemsSize pre0 + l.length)
    (hX : ∀ e ∈ X, e.2.1 ≤ a ∨ e.2.2.total = 0)
    (hY : ∀ e ∈ Y, b ≤ e.2.1) :
    YCv items ch (.vals ((l.drop (a - itemsSize pre0)).take (b - a)) a)
      (ownCount pre0 + (a - itemsSize pre0) + chSum X) := by
  intro off hoff
  have hlen : ((l.drop (a - itemsSize pre0)).take (b - a)).length = b - a := by
    simp [List.length_take, List.length_drop]
    omega
  rw [hlen] at hoff
  have hoff' : (a - itemsSize pre0) + off < l.length := by omega
  have hv : a + off = itemsSize pre0 + ((a - itemsSize pre0) + off) := by omega
  have hloc := locItems_pre_vals pre0 l suf0 ((a - itemsSize pre0) + off) hoff'
  rw [← hitems] at hloc
  rw [hv, hloc]
  refine ⟨rfl, ?_⟩
  have hsl : sumLeftOf ch (itemsSize pre0 + ((a - itemsSize pre0) + off)) =
      chSum X := by
    rw [sumLeftOf_eq, hsplit]
    refine takeWhile_chSum_split X Y _ (by rw [← hsplit]; exact hsort) ?_ ?_
    · intro e he
      rcases hX e he with h | h
      · exact Or.inl (by omega)
      · exact Or.inr h
    · intro e he
      have := hY e he
      omega
  rw [hsl]
  omega

theorem child_YC {T : Type} (items : List (Item T)) (ch : LForest T)
    (pre0 : List (Item T)) (item : Item T) (suf0 : List (Item T))
    (hitems : items = pre0 ++ item :: suf0)
    (X Y : List (Nat × Nat × LTree T)) (i pvi : Nat) (c : LTree T)
    (hsplit : forestEnum ch 0 = X ++ (i, pvi, c) :: Y)
    (hsa : itemsSize pre0 ≤ pvi)
    (hb : pvi < itemsSize pre0 + itemSize item) :
    YCv items ch (.child i c)
      (ownCount pre0 + dOf item (itemsSize pre0) pvi + chSum X) := by
  obtain ⟨hi, hget⟩ := enum_split_get ch X ((i, pvi, c) :: Y).tail (i, pvi, c) hsplit
  simp only at hi
  refine ⟨pvi, by rw [hi]; exact hget, ?_⟩
  have hsb : sumBefore ch i = chSum X := by
    rw [sumBefore_eq, hsplit, hi, List.take_left]
  rw [hsb]
  cases item with
  | vals l =>
    have hoff : pvi - itemsSize pre0 < l.length := by
      simp only [itemSize] at hb
      omega
    have hloc := locItems_pre_vals pre0 l suf0 (pvi - itemsSize pre0) hoff
    rw [← hitems] at hloc
    have hv : pvi = itemsSize pre0 + (pvi - itemsSize pre0) := by omega
    rw [hv, hloc]
    simp only [dOf]
    omega
  | gap n =>
    have hoff : pvi - itemsSize pre0 < n := by
      simp only [itemSize] at hb
      omega
    have hloc := locItems_pre_gap pre0 n suf0 (pvi - itemsSize pre0) hoff
    rw [← hitems] at hloc
    have hv : pvi = itemsSize pre0 + (pvi - itemsSize pre0) := by omega
    rw [hv, hloc]
    simp [dOf]

theorem childT_YC {T : Type} (items : List (Item T)) (ch : LForest T)
    (X Y : List (Nat × Nat × LTree T)) (i pvi : Nat) (c : LTree T)
    (hsplit : forestEnum ch 0 = X ++ (i, pvi, c) :: Y)
    (hpast : itemsSize items ≤ pvi) :
    YCv items ch (.child i c) (ownCount items + chSum X) := by
  obtain ⟨hi, hget⟩ := enum_split_get ch X ((i, pvi, c) :: Y).tail (i, pvi, c) hsplit
  simp only at hi
  refine ⟨pvi, by rw [hi]; exact hget, ?_⟩
  have hsb : sumBefore ch i = chSum X := by
    rw [sumBefore_eq, hsplit, hi, List.take_left]
  rw [hsb, locItems_past items pvi hpast]

theorem chSum_cons {T : Type} (e : Nat × Nat × LTree T)
    (l : List (Nat × Nat × LTree T)) :
    chSum (e :: l) = e.2.2.total + chSum l := by
  simp [chSum]

theorem chSum_nil {T : Type} : chSum ([] : List (Nat × Nat × LTree T)) = 0 :=
  rfl

theorem wsum_cons {T : Type} (y : VoC T) (l : List (VoC T)) :
    wsum (y :: l) = ysize y + wsum l := by
  simp [wsum]

theorem wsum_nil {T : Type} : wsum ([] : List (VoC T)) = 0 := rfl

theorem vacInner_correct {T : Type} (items : List (Item T)) (ch : LForest T)
    (pre0 : List (Item T)) (item : Item T) (suf0 : List (Item T))
    (svi evi : Nat) (hitems : items = pre0 ++ item :: suf0)
    (hsvi : svi = itemsSize pre0) (hevi : evi = svi + itemSize item) :
    ∀ (cs cdone : List (Nat × Nat × LTree T)) (vi : Nat),
    forestEnum ch 0 = cdone ++ cs →
    sortedEnum (forestEnum ch 0) = true →
    (∀ e ∈ cdone, e.2.1 ≤ vi ∨ e.2.2.total = 0) →
    svi ≤ vi → vi ≤ evi →
    (∀ e ∈ cs, vi ≤ e.2.1) →
    ∃ csA,
      cs = csA ++ (vacInner item svi evi vi cs).2.2 ∧
      (∀ e ∈ csA, e.2.1 ≤ (vacInner item svi evi vi cs).2.1 ∨
        e.2.2.total = 0) ∧
      vi ≤ (vacInner item svi evi vi cs).2.1 ∧
      (vacInner item svi evi vi cs).2.1 ≤ evi ∧
      (∀ e ∈ (vacInner item svi evi vi cs).2.2, evi ≤ e.2.1) ∧
      YAll items ch (vacInner item svi evi vi cs).1
        (ownCount pre0 + dOf item svi vi + chSum cdone) ∧
      wsum (vacInner item svi evi vi cs).1 + dOf item svi vi + chSum cdone =
        dOf item svi (vacInner item svi evi vi cs).2.1 + chSum (cdone ++ csA) := by
  intro cs
  induction cs with
  | nil =>
    intro cdone vi hsplit hsort hdone hsvi2 hvi2 hcs
    refine ⟨[], ?_, ?_, ?_, ?_, ?_, ?_, ?_⟩
    · simp [vacInner]
    · intro e he; simp at he
    · simp [vacInner]
    · simp only [vacInner]; exact hvi2
    · intro e he; simp [vacInner] at he
    · exact trivial
    · simp [vacInner, wsum]
  | cons e0 cs' ih =>
    obtain ⟨i, pvi, c⟩ := e0
    intro cdone vi hsplit hsort hdone hsvi2 hvi2 hcs
    have hvile : vi ≤ pvi := hcs (i, pvi, c) (List.mem_cons_self _ _)
    have hsuffix : sortedEnum ((i, pvi, c) :: cs') = true :=
      sortedEnum_suffix cdone _ (by rw [← hsplit]; exact hsort)
    by_cases hstop : pvi ≥ evi
    · refine ⟨[], ?_, ?_, ?_, ?_, ?_, ?_, ?_⟩
      · simp [vacInner, if_pos hstop]
      · intro e he; simp at he
      · simp [vacInner, if_pos hstop]
      · simp only [vacInner, if_pos hstop]; exact hvi2
      · intro e he
        simp only [vacInner, if_pos hstop] at he
        rcases List.mem_cons.mp he with rfl | he'
        · exact hstop
        · exact le_trans hstop (sortedEnum_head_le _ _ hsuffix e he')
      · simp only [vacInner, if_pos hstop]
        exact trivial
      · simp [vacInner, if_pos hstop, wsum]
    · have hlt : pvi < evi := by omega
      by_cases htot : c.total ≠ 0
      · -- the child is emitted, after any value slice up to `pvi`
        have hvieq : (if vi < pvi then pvi else vi) = pvi := by
          split <;> omega
        obtain ⟨csA', h1, h2, h3, h4, h5, h6, h7⟩ :=
          ih (cdone ++ [(i, pvi, c)]) pvi
            (by rw [hsplit]; simp)
            hsort
            (by intro e he
                rcases List.mem_append.mp he with h | h
                · rcases hdone e h with h' | h'
                  · exact Or.inl (le_trans h' hvile)
                  · exact Or.inr h'
                · simp only [List.mem_singleton] at h
                  subst h
                  exact Or.inl (le_refl _))
            (le_trans hsvi2 hvile)
            (by omega)
            (fun e he => sortedEnum_head_le _ _ hsuffix e he)
        have hchild : YCv items ch (.child i c)
            (ownCount pre0 + dOf item svi pvi + chSum cdone) := by
          rw [hsvi]
          refine child_YC items ch pre0 item suf0 hitems cdone cs' i pvi c
            (by rw [hsplit]) (by omega) (by omega)
        have h6' : YAll items ch (vacInner item svi evi pvi cs').1
            (ownCount pre0 + dOf item svi pvi + chSum cdone + c.total) := by
          have harith : ownCount pre0 + dOf item svi pvi +
              chSum (cdone ++ [(i, pvi, c)]) =
              ownCount pre0 + dOf item svi pvi + chSum cdone + c.total := by
            simp only [chSum_append, chSum_cons, chSum_nil]
            omega
          rw [← harith]
          exact h6
        refine ⟨(i, pvi, c) :: csA', ?_, ?_, ?_, ?_, ?_, ?_, ?_⟩
        · simp only [vacInner, if_neg hstop, if_pos htot, hvieq]
          rw [List.cons_append, ← h1]
        · intro e he
          simp only [vacInner, if_neg hstop, if_pos htot, hvieq]
          rcases List.mem_cons.mp he with rfl | he'
          · exact Or.inl h3
          · exact h2 e he'
        · simp only [vacInner, if_neg hstop, if_pos htot, hvieq]
          omega
        · simp only [vacInner, if_neg hstop, if_pos htot, hvieq]
          exact h4
        · simp only [vacInner, if_neg hstop, if_pos htot, hvieq]
          exact h5
        · simp only [vacInner, if_neg hstop, if_pos htot, hvieq]
          by_cases hltv : vi < pvi
          · cases item with
            | vals l =>
              simp only [if_pos hltv]
              refine YAll_append items ch _ _ _ ⟨?_, trivial⟩ ?_
              · -- the slice before the child is correct
                have hslice : YCv items ch
                    (VoC.vals ((l.drop (vi - svi)).take (pvi - vi)) vi)
                    (ownCount pre0 + dOf (Item.vals l) svi vi +
                      chSum cdone) := by
                  rw [hsvi]
                  simp only [dOf]
                  refine slice_YC items ch pre0 l suf0 hitems cdone
                    ((i, pvi, c) :: cs') (by rw [hsplit]) hsort vi pvi
                    (by omega) (by omega)
                    (by simp only [itemSize] at hevi; omega)
                    (fun e he => hdone e he)
                    ?_
                  intro e he
                  rcases List.mem_cons.mp he with rfl | he'
                  · exact le_refl _
                  · exact sortedEnum_head_le _ _ hsuffix e he'
                exact hslice
              · have hws : wsum [VoC.vals ((l.drop (vi - svi)).take (pvi - vi)) vi] =
                    pvi - vi := by
                  simp only [wsum, List.map_cons, List.map_nil, List.sum_cons,
                    List.sum_nil, ysize, List.length_take, List.length_drop]
                  simp only [itemSize] at hevi
                  omega
                rw [hws]
                refine ⟨?_, ?_⟩
                · have harith : ownCount pre0 + dOf (Item.vals l) svi vi +
                      chSum cdone + (pvi - vi) =
                      ownCount pre0 + dOf (Item.vals l) svi pvi +
                      chSum cdone := by
                    simp only [dOf]
                    omega
                  rw [harith]
                  exact hchild
                · have harith : ownCount pre0 + dOf (Item.vals l) svi vi +
                      chSum cdone + (pvi - vi) + ysize (VoC.child i c) =
                      ownCount pre0 + dOf (Item.vals l) svi pvi + chSum cdone +
                      c.total := by
                    simp only [dOf, ysize]
                    omega
                  rw [harith]
                  exact h6'
            | gap n =>
              simp only [if_pos hltv]
              refine ⟨?_, ?_⟩
              · have harith : ownCount pre0 + dOf (Item.gap n : Item T) svi vi +
                    chSum cdone =
                    ownCount pre0 + dOf (Item.gap n : Item T) svi pvi +
                    chSum cdone := by simp [dOf]
                rw [harith]
                exact hchild
              · have harith : ownCount pre0 + dOf (Item.gap n : Item T) svi vi +
                    chSum cdone + ysize (VoC.child i c) =
                    ownCount pre0 + dOf (Item.gap n : Item T) svi pvi +
                    chSum cdone + c.total := by simp [dOf, ysize]
                rw [harith]
                exact h6'
          · -- vi = pvi: no slice is emitted
            have hveq : vi = pvi := by omega
            simp only [if_neg hltv]
            refine ⟨?_, ?_⟩
            · rw [hveq]
              exact hchild
            · have harith : ownCount pre0 + dOf item svi vi + chSum cdone +
                  ysize (VoC.child i c) =
                  ownCount pre0 + dOf item svi pvi + chSum cdone + c.total := by
                rw [hveq]
                simp [ysize]
              rw [harith]
              exact h6'
        · simp only [vacInner, if_neg hstop, if_pos htot, hvieq]
          have h7' := h7
          simp only [chSum_append, chSum_cons, chSum_nil] at h7'
          by_cases hltv : vi < pvi
          · cases item with
            | vals l =>
              simp only [if_pos hltv]
              simp only [wsum_append, wsum_cons, wsum_nil, chSum_append,
                chSum_cons, chSum_nil, ysize, dOf, List.length_take,
                List.length_drop] at h7' ⊢
              simp only [itemSize] at hevi
              omega
            | gap n =>
              simp only [if_pos hltv, List.nil_append]
              simp only [wsum_append, wsum_cons, wsum_nil, chSum_append,
                chSum_cons, chSum_nil, ysize, dOf] at h7' ⊢
              omega
          · have hveq : vi = pvi := by omega
            simp only [if_neg hltv, List.nil_append]
            simp only [wsum_append, wsum_cons, wsum_nil, chSum_append,
              chSum_cons, chSum_nil, ysize] at h7' ⊢
            subst hveq
            omega
      · -- a zero-total child is skipped but still counts as consumed
        have htot0 : c.total = 0 := by simpa using htot
        obtain ⟨csA', h1, h2, h3, h4, h5, h6, h7⟩ :=
          ih (cdone ++ [(i, pvi, c)]) vi
            (by rw [hsplit]; simp)
            hsort
            (by intro e he
                rcases List.mem_append.mp he with h | h
                · exact hdone e h
                · simp only [List.mem_singleton] at h
                  subst h
                  exact Or.inr htot0)
            hsvi2
            hvi2
            (by intro e he
                exact le_trans hvile (sortedEnum_head_le _ _ hsuffix e he))
        refine ⟨(i, pvi, c) :: csA', ?_, ?_, ?_, ?_, ?_, ?_, ?_⟩
        · simp only [vacInner, if_neg hstop, if_neg htot]
          rw [List.cons_append, ← h1]
        · intro e he
          simp only [vacInner, if_neg hstop, if_neg htot]
          rcases List.mem_cons.mp he with rfl | he'
          · exact Or.inr htot0
          · exact h2 e he'
        · simp only [vacInner, if_neg hstop, if_neg htot]
          exact h3
        · simp only [vacInner, if_neg hstop, if_neg htot]
          exact h4
        · simp only [vacInner, if_neg hstop, if_neg htot]
          exact h5
        · simp only [vacInner, if_neg hstop, if_neg htot]
          have harith : ownCount pre0 + dOf item svi vi +
              chSum (cdone ++ [(i, pvi, c)]) =
              ownCount pre0 + dOf item svi vi + chSum cdone := by
            simp only [chSum_append, chSum_cons, chSum_nil, htot0]
            omega
          rw [← harith]
          exact h6
        · simp only [vacInner, if_neg hstop, if_neg htot]
          have h7' := h7
          simp only [chSum_append, chSum_cons, chSum_nil, htot0] at h7' ⊢
          omega


theorem vacTrailing_correct {T : Type} (items : List (Item T))
    (ch : LForest T) :
    ∀ (cs cdone : List (Nat × Nat × LTree T)),
    forestEnum ch 0 = cdone ++ cs →
    (∀ e ∈ cs, itemsSize items ≤ e.2.1) →
    YAll items ch
      (cs.filterMap (fun e =>
        if e.2.2.total ≠ 0 then some (.child e.1 e.2.2) else none))
      (ownCount items + chSum cdone) ∧
    wsum (cs.filterMap (fun e =>
        if e.2.2.total ≠ 0 then some (.child e.1 e.2.2) else none)) +
      chSum cdone = chSum cdone + chSum cs := by
  intro cs
  induction cs with
  | nil =>
    intro cdone _ _
    exact ⟨trivial, by simp [wsum, chSum]⟩
  | cons e0 cs' ih =>
    obtain ⟨i, pvi, c⟩ := e0
    intro cdone hsplit hcs
    by_cases htot : c.total ≠ 0
    · have hrec := ih (cdone ++ [(i, pvi, c)])
        (by rw [hsplit]; simp)
        (fun e he => hcs e (List.mem_cons_of_mem _ he))
      simp only [chSum_append, chSum_cons, chSum_nil] at hrec
      constructor
      · simp only [List.filterMap_cons, if_pos htot]
        refine ⟨?_, ?_⟩
        · exact childT_YC items ch cdone cs' i pvi c hsplit
            (hcs (i, pvi, c) (List.mem_cons_self _ _))
        · convert hrec.1 using 1
          simp only [ysize]
          omega
      · simp only [List.filterMap_cons, if_pos htot]
        simp only [wsum_cons, chSum_cons, ysize]
        omega
    · have htot0 : c.total = 0 := by simpa using htot
      have hrec := ih (cdone ++ [(i, pvi, c)])
        (by rw [hsplit]; simp)
        (fun e he => hcs e (List.mem_cons_of_mem _ he))
      simp only [chSum_append, chSum_cons, chSum_nil, htot0] at hrec
      constructor
      · simp only [List.filterMap_cons, if_neg htot]
        convert hrec.1 using 1
      · simp only [List.filterMap_cons, if_neg htot]
        simp only [chSum_cons, htot0]
        omega

theorem vacGo_correct {T : Type} (items : List (Item T)) (ch : LForest T)
    (hsort : sortedEnum (forestEnum ch 0) = true) :
    ∀ (suf pre0 : List (Item T)) (cs cdone : List (Nat × Nat × LTree T)),
    items = pre0 ++ suf →
    forestEnum ch 0 = cdone ++ cs →
    (∀ e ∈ cdone, e.2.1 ≤ itemsSize pre0 ∨ e.2.2.total = 0) →
    (∀ e ∈ cs, itemsSize pre0 ≤ e.2.1) →
    YAll items ch (vacGo suf (itemsSize pre0) cs)
      (ownCount pre0 + chSum cdone) ∧
    wsum (vacGo suf (itemsSize pre0) cs) + ownCount pre0 + chSum cdone =
      ownCount items + chSum (forestEnum ch 0) := by
  intro suf
  induction suf with
  | nil =>
    intro pre0 cs cdone hitems hsplit hdone hcs
    have hpre : pre0 = items := by rw [hitems]; simp
    have ht := vacTrailing_correct items ch cs cdone hsplit
      (by rw [← hpre]; exact hcs)
    constructor
    · rw [hpre]
      simp only [vacGo]
      exact ht.1
    · rw [hpre]
      simp only [vacGo]
      rw [hsplit, chSum_append]
      have ht2 := ht.2
      omega
  | cons item suf' ih =>
    intro pre0 cs cdone hitems hsplit hdone hcs
    obtain ⟨csA, v1, v2, v3, v4, v5, v6, v7⟩ :=
      vacInner_correct items ch pre0 item suf' (itemsSize pre0)
        (itemsSize pre0 + itemSize item) (by rw [hitems]) rfl rfl
        cs cdone (itemsSize pre0) hsplit hsort
        (fun e he => hdone e he) (le_refl _) (by omega) hcs
    have hd0 : dOf item (itemsSize pre0) (itemsSize pre0) = 0 := by
      cases item <;> simp [dOf]
    rw [hd0] at v6 v7
    simp only [Nat.add_zero] at v6 v7
    have hpre' : items = (pre0 ++ [item]) ++ suf' := by
      rw [hitems]; simp
    have hsize' : itemsSize (pre0 ++ [item]) =
        itemsSize pre0 + itemSize item := by
      simp [itemsSize_append, itemsSize, itemSize]
    have hsplit' : forestEnum ch 0 = (cdone ++ csA) ++
        (vacInner item (itemsSize pre0) (itemsSize pre0 + itemSize item)
          (itemsSize pre0) cs).2.2 := by
      rw [hsplit, List.append_assoc]
      exact congrArg (fun x => cdone ++ x) v1
    have hrec := ih (pre0 ++ [item]) _ (cdone ++ csA) hpre' hsplit'
      (by intro e he
          rcases List.mem_append.mp he with h | h
          · rcases hdone e h with h' | h'
            · exact Or.inl (by rw [hsize']; omega)
            · exact Or.inr h'
          · rcases v2 e h with h' | h'
            · exact Or.inl (by rw [hsize']; omega)
            · exact Or.inr h')
      (by intro e he
          rw [hsize']
          exact v5 e he)
    rw [hsize'] at hrec
    simp only [ownCount_append, chSum_append] at hrec
    cases item with
    | gap n =>
      simp only [dOf] at v7
      simp only [chSum_append] at v7
      constructor
      · show YAll items ch (vacGo (Item.gap n :: suf') (itemsSize pre0) cs) _
        simp only [vacGo, List.append_nil]
        refine YAll_append items ch _ _ _ v6 ?_
        convert hrec.1 using 1
        simp only [ownCount]
        omega
      · show wsum (vacGo (Item.gap n :: suf') (itemsSize pre0) cs) + _ + _ = _
        simp only [vacGo, List.append_nil]
        simp only [wsum_append]
        have hr2 := hrec.2
        simp only [ownCount] at hr2
        omega
    | vals l =>
      simp only [dOf] at v7
      simp only [chSum_append] at v7
      simp only [itemSize] at v1 v2 v3 v4 v5 v6 v7 hrec hsplit'
      have hocv : ownCount [Item.vals l] = l.length := by simp [ownCount]
      simp only [hocv] at hrec
      by_cases hvlt : (vacInner (Item.vals l) (itemsSize pre0)
          (itemsSize pre0 + l.length) (itemsSize pre0) cs).2.1 <
          itemsSize pre0 + l.length
      · -- a final value slice is emitted for this run
        have hsl := slice_YC items ch pre0 l suf' (by rw [hitems])
          (cdone ++ csA)
          (vacInner (Item.vals l) (itemsSize pre0)
            (itemsSize pre0 + l.length) (itemsSize pre0) cs).2.2
          hsplit' hsort
          (vacInner (Item.vals l) (itemsSize pre0)
            (itemsSize pre0 + l.length) (itemsSize pre0) cs).2.1
          (itemsSize pre0 + l.length)
          (by omega) (by omega) (by omega)
          (by intro e he
              rcases List.mem_append.mp he with h | h
              · rcases hdone e h with h' | h'
                · exact Or.inl (by omega)
                · exact Or.inr h'
              · exact v2 e h)
          (fun e he => v5 e he)
        have hsll : ((l.drop ((vacInner (Item.vals l) (itemsSize pre0)
            (itemsSize pre0 + l.length) (itemsSize pre0) cs).2.1 -
              itemsSize pre0)).take
              ((itemsSize pre0 + l.length) -
              (vacInner (Item.vals l) (itemsSize pre0)
                (itemsSize pre0 + l.length) (itemsSize pre0) cs).2.1)).length =
            (itemsSize pre0 + l.length) -
            (vacInner (Item.vals l) (itemsSize pre0)
              (itemsSize pre0 + l.length) (itemsSize pre0) cs).2.1 := by
          simp only [List.length_take, List.length_drop]
          omega
        constructor
        · show YAll items ch (vacGo (Item.vals l :: suf') (itemsSize pre0) cs) _
          simp only [vacGo, itemSize]
          rw [if_pos hvlt]
          refine YAll_append items ch _ _ _ ?_ ?_
          · refine YAll_append items ch _ _ _ v6 ?_
            refine ⟨?_, trivial⟩
            convert hsl using 1
            simp only [chSum_append]
            omega
          · convert hrec.1 using 1
            simp only [wsum_append, wsum_cons, wsum_nil, ysize, hsll]
            omega
        · show wsum (vacGo (Item.vals l :: suf') (itemsSize pre0) cs) + _ + _ = _
          simp only [vacGo, itemSize]
          rw [if_pos hvlt]
          simp only [wsum_append, wsum_cons, wsum_nil, ysize, hsll]
          have hr2 := hrec.2
          omega
      · -- the run was consumed exactly: no tail slice
        have hveq : (vacInner (Item.vals l) (itemsSize pre0)
            (itemsSize pre0 + l.length) (itemsSize pre0) cs).2.1 =
            itemsSize pre0 + l.length := by
          omega
        rw [hveq] at v7
        constructor
        · show YAll items ch (vacGo (Item.vals l :: suf') (itemsSize pre0) cs) _
          simp only [vacGo, itemSize]
          rw [if_neg hvlt]
          rw [List.append_nil]
          refine YAll_append items ch _ _ _ v6 ?_
          convert hrec.1 using 1
          omega
        · show wsum (vacGo (Item.vals l :: suf') (itemsSize pre0) cs) + _ + _ = _
          simp only [vacGo, itemSize]
          rw [if_neg hvlt]
          rw [List.append_nil]
          simp only [wsum_append]
          have hr2 := hrec.2
          omega


theorem sizeT_pos {T : Type} (t : LTree T) : 0 < sizeT t := by
  cases t
  simp [sizeT]

theorem posAt_correct {T : Type} :
    ∀ (fuel : Nat) (t : LTree T), wfT t = true → sizeT t ≤ fuel →
    ∀ rem, rem < t.total →
    ∃ pv, posAt fuel t rem = some pv ∧
      idxCore t pv.1 pv.2 = some (rem, true) := by
  intro fuel
  induction fuel with
  | zero =>
    intro t _ hsz
    have := sizeT_pos t
    omega
  | succ fuel ih =>
    intro t hwf hsz rem hrem
    obtain ⟨tot, items, ch⟩ := t
    simp only [wfT, Bool.and_eq_true, beq_iff_eq] at hwf
    obtain ⟨⟨htot, hsort⟩, hwfF⟩ := hwf
    have hvac := vacGo_correct items ch hsort items [] (forestEnum ch 0) []
      (by simp) (by simp) (by intro e he; simp at he)
      (by intro e he
          have : itemsSize ([] : List (Item T)) = 0 := rfl
          rw [this]
          omega)
    have hzero : itemsSize ([] : List (Item T)) = 0 := rfl
    rw [hzero] at hvac
    have hYall : YAll items ch (vacGo items 0 (forestEnum ch 0)) 0 := by
      have := hvac.1
      simpa [ownCount, chSum] using this
    have hW : wsum (vacGo items 0 (forestEnum ch 0)) = tot := by
      have h2 := hvac.2
      rw [chSum_forestEnum] at h2
      simp only [ownCount, chSum, List.map_nil, List.sum_nil] at h2
      omega
    have hrem2 : rem < wsum (vacGo items 0 (forestEnum ch 0)) := by
      rw [hW]
      simpa [LTree.total] using hrem
    have hrec : ∀ i c, VoC.child i c ∈ vacGo items 0 (forestEnum ch 0) →
        ∀ r, r < c.total →
        ∃ pv, posAt fuel c r = some pv ∧
          idxCore c pv.1 pv.2 = some (r, true) := by
      intro i c hmem r hr
      obtain ⟨pvi, hget⟩ := YAll_child_mem items ch _ 0 hYall i c hmem
      have hwfc : wfT c = true := wfF_get ch i pvi c hget hwfF
      have hszc : sizeT c ≤ sizeF ch := sizeT_get ch i pvi c hget
      refine ih c hwfc ?_ r hr
      simp only [sizeT] at hsz
      omega
    obtain ⟨pv, hpos, hidx⟩ := posGoF_correct (posAt fuel) tot items ch
      (vacGo items 0 (forestEnum ch 0)) 0 rem hYall hrem2 hrec
    refine ⟨pv, ?_, ?_⟩
    · show posGoF (posAt fuel) (vac (LTree.mk tot items ch)) rem = some pv
      exact hpos
    · have hzr : 0 + rem = rem := by omega
      rw [hzr] at hidx
      exact hidx

/-! ### C7: bounds and injectivity of the index accumulation -/

theorem takeWhile_chSum_mono {T : Type} (p q : Nat × Nat × LTree T → Bool)
    (hpq : ∀ e, p e = true → q e = true) :
    ∀ l : List (Nat × Nat × LTree T),
    chSum (l.takeWhile p) ≤ chSum (l.takeWhile q) := by
  intro l
  induction l with
  | nil => simp [List.takeWhile]
  | cons a l ih =>
    cases hpa : p a with
    | false =>
      simp only [List.takeWhile_cons, hpa]
      simp [chSum]
    | true =>
      have hqa := hpq a hpa
      simp only [List.takeWhile_cons, hpa, hqa, if_true]
      simp only [chSum_cons]
      omega

theorem chSum_takeWhile_le {T : Type} (p : Nat × Nat × LTree T → Bool)
    (l : List (Nat × Nat × LTree T)) : chSum (l.takeWhile p) ≤ chSum l := by
  induction l with
  | nil => simp [List.takeWhile]
  | cons a l ih =>
    cases hpa : p a with
    | false =>
      simp only [List.takeWhile_cons, hpa, Bool.false_eq_true, if_false]
      simp only [chSum, List.map_nil, List.sum_nil, List.map_cons,
        List.sum_cons]
      omega
    | true =>
      simp only [List.takeWhile_cons, hpa, if_true, chSum_cons]
      omega

theorem sumLeftOf_le_sumF {T : Type} (ch : LForest T) (v : Nat) :
    sumLeftOf ch v ≤ sumF ch := by
  rw [sumLeftOf_eq, ← chSum_forestEnum ch 0]
  exact chSum_takeWhile_le _ _

theorem sumLeftOf_mono {T : Type} (ch : LForest T) (v v' : Nat)
    (h : v ≤ v') : sumLeftOf ch v ≤ sumLeftOf ch v' := by
  rw [sumLeftOf_eq, sumLeftOf_eq]
  refine takeWhile_chSum_mono _ _ ?_ _
  intro e he
  simp only [decide_eq_true_eq] at he ⊢
  omega

theorem chSum_take_succ {T : Type} :
    ∀ (l : List (Nat × Nat × LTree T)) (k : Nat) (e : Nat × Nat × LTree T),
    l.get? k = some e →
    chSum (l.take (k + 1)) = chSum (l.take k) + e.2.2.total := by
  intro l
  induction l with
  | nil => intro k e h; simp at h
  | cons a l ih =>
    intro k e h
    match k with
    | 0 =>
      simp only [List.get?, Option.some.injEq] at h
      subst h
      simp [chSum_cons, chSum]
    | k + 1 =>
      simp only [List.get?] at h
      simp only [List.take_succ_cons, chSum_cons]
      rw [ih k e h]
      omega

theorem sumBefore_succ {T : Type} (ch : LForest T) (k pvi : Nat) (c : LTree T)
    (h : forestGet? ch k = some (pvi, c)) :
    sumBefore ch (k + 1) = sumBefore ch k + c.total := by
  rw [sumBefore_eq, sumBefore_eq]
  refine chSum_take_succ (forestEnum ch 0) k (k, pvi, c) ?_
  rw [forestEnum_get? ch 0 k, h]
  simp

theorem sumBefore_mono {T : Type} (ch : LForest T) (j k : Nat) (h : j ≤ k) :
    sumBefore ch j ≤ sumBefore ch k := by
  rw [sumBefore_eq, sumBefore_eq]
  exact chSum_take_le _ j k h

theorem sumBefore_add_le {T : Type} (ch : LForest T) (k pvi : Nat)
    (c : LTree T) (h : forestGet? ch k = some (pvi, c)) :
    sumBefore ch k + c.total ≤ sumF ch := by
  rw [← sumBefore_succ ch k pvi c h, sumBefore_eq, ← chSum_forestEnum ch 0]
  have h1 := chSum_take_le (forestEnum ch 0) (k + 1)
    (forestEnum ch 0).length (by
      by_contra hlen
      push_neg at hlen
      have : (forestEnum ch 0).get? k = none := by
        rw [List.get?_eq_none]
        omega
      rw [forestEnum_get? ch 0 k, h] at this
      simp at this)
  rw [List.take_length] at h1
  exact h1

theorem sortedEnum_get_mono {T : Type} :
    ∀ (l : List (Nat × Nat × LTree T)), sortedEnum l = true →
    ∀ (j k : Nat) (ej ek : Nat × Nat × LTree T), j ≤ k →
    l.get? j = some ej → l.get? k = some ek → ej.2.1 ≤ ek.2.1 := by
  intro l
  induction l with
  | nil => intro _ j k ej ek _ hj _; simp at hj
  | cons a l ih =>
    intro hs j k ej ek hjk hj hk
    match j, k with
    | 0, 0 =>
      simp only [List.get?, Option.some.injEq] at hj hk
      subst hj; subst hk
      exact le_refl _
    | 0, k + 1 =>
      simp only [List.get?, Option.some.injEq] at hj hk
      subst hj
      exact sortedEnum_head_le a l hs ek (List.get?_mem hk)
    | j + 1, k + 1 =>
      simp only [List.get?] at hj hk
      exact ih (sortedEnum_tail a l hs) j k ej ek (by omega) hj hk

theorem takeWhile_length_ge {T : Type} (p : Nat × Nat × LTree T → Bool) :
    ∀ (l : List (Nat × Nat × LTree T)) (k : Nat),
    (∀ j e, j ≤ k → l.get? j = some e → p e = true) →
    (∃ ek, l.get? k = some ek) →
    k + 1 ≤ (l.takeWhile p).length := by
  intro l
  induction l with
  | nil => intro k _ hek; obtain ⟨ek, hek⟩ := hek; simp at hek
  | cons a l ih =>
    intro k hall hek
    have hpa : p a = true := hall 0 a (by omega) rfl
    simp only [List.takeWhile_cons, hpa, if_true, List.length_cons]
    match k with
    | 0 => omega
    | k + 1 =>
      obtain ⟨ek, hk⟩ := hek
      have := ih k (fun j e hj hje => hall (j + 1) e (by omega) hje) ⟨ek, hk⟩
      omega

theorem sumLeftOf_le_sumBefore {T : Type} (ch : LForest T) (v k pvi : Nat)
    (c : LTree T) (h : forestGet? ch k = some (pvi, c)) (hv : v < pvi) :
    sumLeftOf ch v ≤ sumBefore ch k := by
  rw [sumLeftOf_eq, sumBefore_eq]
  have hget : (forestEnum ch 0).get? k = some (k, pvi, c) := by
    rw [forestEnum_get? ch 0 k, h]; simp
  have hlen := takeWhile_get_true (fun e => e.2.1 ≤ v) (forestEnum ch 0) k
    (k, pvi, c) hget (by simp; omega)
  rw [takeWhile_eq_take]
  exact chSum_take_le _ _ _ hlen

theorem sumBefore_add_le_sumLeftOf {T : Type} (ch : LForest T)
    (hsort : sortedEnum (forestEnum ch 0) = true) (v k pvi : Nat)
    (c : LTree T) (h : forestGet? ch k = some (pvi, c)) (hv : pvi ≤ v) :
    sumBefore ch k + c.total ≤ sumLeftOf ch v := by
  rw [← sumBefore_succ ch k pvi c h, sumLeftOf_eq, sumBefore_eq]
  have hget : (forestEnum ch 0).get? k = some (k, pvi, c) := by
    rw [forestEnum_get? ch 0 k, h]; simp
  have hlen := takeWhile_length_ge (fun e => e.2.1 ≤ v) (forestEnum ch 0) k
    (by intro j e hj hje
        have := sortedEnum_get_mono (forestEnum ch 0) hsort j k e (k, pvi, c)
          hj hje hget
        simp only [decide_eq_true_eq]
        simp only at this
        omega)
    ⟨(k, pvi, c), hget⟩
  conv_rhs => rw [takeWhile_eq_take]
  exact chSum_take_le _ _ _ hlen

theorem idxCore_present_lt {T : Type} :
    ∀ (path : List Nat) (t : LTree T) (v j : Nat), wfT t = true →
    idxCore t path v = some (j, true) → j < t.total := by
  intro path
  induction path with
  | nil =>
    intro t v j hwf h
    obtain ⟨tot, items, ch⟩ := t
    simp only [wfT, Bool.and_eq_true, beq_iff_eq] at hwf
    obtain ⟨⟨htot, _⟩, _⟩ := hwf
    simp only [idxCore, LTree.items, LTree.children, Option.some.injEq,
      Prod.mk.injEq] at h
    obtain ⟨hj, hp⟩ := h
    have h1 := locItems_lt_ownCount items v hp
    have h2 := sumLeftOf_le_sumF ch v
    simp only [LTree.total]
    omega
  | cons k rest ih =>
    intro t v j hwf h
    obtain ⟨tot, items, ch⟩ := t
    have hwf2 := hwf
    simp only [wfT, Bool.and_eq_true, beq_iff_eq] at hwf2
    obtain ⟨⟨htot, _⟩, hwfF⟩ := hwf2
    simp only [idxCore, LTree.items, LTree.children] at h
    cases hget : forestGet? ch k with
    | none => simp only [hget] at h; exact Option.noConfusion h
    | some pc =>
      obtain ⟨pvi, c⟩ := pc
      simp only [hget] at h
      cases hsub : idxCore c rest v with
      | none => rw [hsub] at h; simp at h
      | some s =>
        rw [hsub] at h
        simp only [Option.map_some', Option.some.injEq, Prod.mk.injEq] at h
        obtain ⟨hj, hp⟩ := h
        have hwfc := wfF_get ch k pvi c hget hwfF
        have hslt : s.1 < c.total := by
          refine ih c v s.1 hwfc ?_
          rw [hsub]
          cases s
          simp only at hp
          rw [hp]
        have h2 := locItems_le_ownCount items pvi
        have h3 := sumBefore_add_le ch k pvi c hget
        simp only [LTree.total]
        omega

theorem idxCore_nil_elim {T : Type} (tot : Nat) (items : List (Item T))
    (ch : LForest T) (v j : Nat) (b : Bool)
    (h : idxCore (LTree.mk tot items ch) [] v = some (j, b)) :
    b = (locItems items v).1 ∧ j = (locItems items v).2 + sumLeftOf ch v := by
  simp only [idxCore, LTree.items, LTree.children, Option.some.injEq,
    Prod.mk.injEq] at h
  exact ⟨h.2.symm, h.1.symm⟩

theorem idxCore_cons_elim {T : Type} (tot : Nat) (items : List (Item T))
    (ch : LForest T) (k : Nat) (rest : List Nat) (v j : Nat) (b : Bool)
    (h : idxCore (LTree.mk tot items ch) (k :: rest) v = some (j, b)) :
    ∃ pvi c s, forestGet? ch k = some (pvi, c) ∧
      idxCore c rest v = some (s, b) ∧
      j = s + (locItems items pvi).2 + sumBefore ch k := by
  simp only [idxCore, LTree.items, LTree.children] at h
  cases hget : forestGet? ch k with
  | none => simp only [hget] at h; exact Option.noConfusion h
  | some pc =>
    obtain ⟨pvi, c⟩ := pc
    simp only [hget] at h
    cases hsub : idxCore c rest v with
    | none => rw [hsub] at h; exact Option.noConfusion h
    | some s =>
      obtain ⟨s1, s2⟩ := s
      rw [hsub] at h
      simp only [Option.map_some', Option.some.injEq, Prod.mk.injEq] at h
      refine ⟨pvi, c, s1, rfl, ?_, h.1.symm⟩
      rw [hsub, h.2]

theorem idxCore_val_ne_child {T : Type} (tot : Nat) (items : List (Item T))
    (ch : LForest T) (hwf : wfT (LTree.mk tot items ch) = true)
    (v v' j k : Nat) (rest : List Nat)
    (h1 : idxCore (LTree.mk tot items ch) [] v = some (j, true))
    (h2 : idxCore (LTree.mk tot items ch) (k :: rest) v' = some (j, true)) :
    False := by
  have hwf2 := hwf
  simp only [wfT, Bool.and_eq_true, beq_iff_eq] at hwf2
  obtain ⟨⟨htot, hsort⟩, hwfF⟩ := hwf2
  obtain ⟨hp, hj⟩ := idxCore_nil_elim tot items ch v j true h1
  obtain ⟨pvi, c, s, hget, hsub, hj2⟩ :=
    idxCore_cons_elim tot items ch k rest v' j true h2
  have hslt : s < c.total :=
    idxCore_present_lt rest c v' s (wfF_get ch k pvi c hget hwfF) hsub
  by_cases hvp : v < pvi
  · have hm := locItems_strict_mono items v pvi hvp hp.symm
    have hs := sumLeftOf_le_sumBefore ch v k pvi c hget hvp
    omega
  · have hvp' : pvi ≤ v := by omega
    have hm := locItems_mono items pvi v hvp'
    have hs := sumBefore_add_le_sumLeftOf ch hsort v k pvi c hget hvp'
    omega

theorem idxCore_child_lt {T : Type} (tot : Nat) (items : List (Item T))
    (ch : LForest T) (hwf : wfT (LTree.mk tot items ch) = true)
    (v v' j k k' : Nat) (rest rest' : List Nat) (hkk : k < k')
    (h1 : idxCore (LTree.mk tot items ch) (k :: rest) v = some (j, true))
    (h2 : idxCore (LTree.mk tot items ch) (k' :: rest') v' = some (j, true)) :
    False := by
  have hwf2 := hwf
  simp only [wfT, Bool.and_eq_true, beq_iff_eq] at hwf2
  obtain ⟨⟨htot, hsort⟩, hwfF⟩ := hwf2
  obtain ⟨pvi, c, s, hget, hsub, hj⟩ :=
    idxCore_cons_elim tot items ch k rest v j true h1
  obtain ⟨pvi', c', s', hget', hsub', hj'⟩ :=
    idxCore_cons_elim tot items ch k' rest' v' j true h2
  have hslt : s < c.total :=
    idxCore_present_lt rest c v s (wfF_get ch k pvi c hget hwfF) hsub
  have hpp : pvi ≤ pvi' := by
    have hg1 : (forestEnum ch 0).get? k = some (k, pvi, c) := by
      rw [forestEnum_get? ch 0 k, hget]; simp
    have hg2 : (forestEnum ch 0).get? k' = some (k', pvi', c') := by
      rw [forestEnum_get? ch 0 k', hget']; simp
    have := sortedEnum_get_mono (forestEnum ch 0) hsort k k'
      (k, pvi, c) (k', pvi', c') (by omega) hg1 hg2
    simpa using this
  have hm := locItems_mono items pvi pvi' hpp
  have hsb : sumBefore ch k + c.total ≤ sumBefore ch k' := by
    rw [← sumBefore_succ ch k pvi c hget]
    exact sumBefore_mono ch (k + 1) k' (by omega)
  omega

theorem idxCore_inj {T : Type} :
    ∀ (p : List Nat) (t : LTree T) (v p' v' j : _), wfT t = true →
    idxCore t p v = some (j, true) → idxCore t p' v' = some (j, true) →
    p = p' ∧ v = v' := by
  intro p
  induction p with
  | nil =>
    intro t v p' v' j hwf h1 h2
    obtain ⟨tot, items, ch⟩ := t
    match p' with
    | [] =>
      refine ⟨rfl, ?_⟩
      obtain ⟨hp1, hj1⟩ := idxCore_nil_elim tot items ch v j true h1
      obtain ⟨hp2, hj2⟩ := idxCore_nil_elim tot items ch v' j true h2
      rcases Nat.lt_trichotomy v v' with hlt | heq | hgt
      · exfalso
        have hm := locItems_strict_mono items v v' hlt hp1.symm
        have hs := sumLeftOf_mono ch v v' (by omega)
        omega
      · exact heq
      · exfalso
        have hm := locItems_strict_mono items v' v hgt hp2.symm
        have hs := sumLeftOf_mono ch v' v (by omega)
        omega
    | k' :: rest' =>
      exact (idxCore_val_ne_child tot items ch hwf v v' j k' rest' h1 h2).elim
  | cons k rest ih =>
    intro t v p' v' j hwf h1 h2
    obtain ⟨tot, items, ch⟩ := t
    match p' with
    | [] =>
      exact (idxCore_val_ne_child tot items ch hwf v' v j k rest h2 h1).elim
    | k' :: rest' =>
      rcases Nat.lt_trichotomy k k' with hlt | heq | hgt
      · exact (idxCore_child_lt tot items ch hwf v v' j k k' rest rest'
          hlt h1 h2).elim
      · subst heq
        obtain ⟨pvi, c, s, hget, hsub, hj⟩ :=
          idxCore_cons_elim tot items ch k rest v j true h1
        obtain ⟨pvi', c', s', hget', hsub', hj'⟩ :=
          idxCore_cons_elim tot items ch k rest' v' j true h2
        rw [hget] at hget'
        simp only [Option.some.injEq, Prod.mk.injEq] at hget'
        obtain ⟨hpv, hcc⟩ := hget'
        subst hpv
        subst hcc
        have hss : s = s' := by omega
        subst hss
        have hwf2 := hwf
        simp only [wfT, Bool.and_eq_true, beq_iff_eq] at hwf2
        have hrr := ih c v rest' v' s
          (wfF_get ch k pvi c hget hwf2.2) hsub hsub'
        exact ⟨by rw [hrr.1], hrr.2⟩
      · exact (idxCore_child_lt tot items ch hwf v' v j k' k rest' rest
          hgt h2 h1).elim

theorem listHas_idxCore {T : Type} :
    ∀ (path : List Nat) (t : LTree T) (v : Nat),
    listHas t path v = some true →
    ∃ j, idxCore t path v = some (j, true) := by
  intro path
  induction path with
  | nil =>
    intro t v h
    obtain ⟨tot, items, ch⟩ := t
    simp only [listHas, resolveT, Option.map_some', Option.some.injEq] at h
    refine ⟨(locItems items v).2 + sumLeftOf ch v, ?_⟩
    simp only [idxCore, LTree.items, LTree.children, Option.some.injEq,
      Prod.mk.injEq]
    exact ⟨trivial, h⟩
  | cons k rest ih =>
    intro t v h
    obtain ⟨tot, items, ch⟩ := t
    simp only [listHas, resolveT, LTree.children] at h
    cases hget : forestGet? ch k with
    | none => rw [hget] at h; simp at h
    | some pc =>
      obtain ⟨pvi, c⟩ := pc
      rw [hget] at h
      simp only [Option.some_bind] at h
      have hh : listHas c rest v = some true := h
      obtain ⟨j, hj⟩ := ih c v hh
      refine ⟨j + (locItems items pvi).2 + sumBefore ch k, ?_⟩
      simp only [idxCore, LTree.items, LTree.children, hget, hj,
        Option.map_some']

/-- C7: on any well-formed list state (spec §8.9: stored totals accurate,
children sorted by parent value index), `index` and `position` are mutually
inverse: `index(position(i)) = i` for every `i` in `[0, length)`, and
`position(index(p)) = p` for every present position `p` (so no search
direction is needed). -/
theorem C7_index_position_roundtrip {T : Type} (t : LTree T)
    (hwf : wfT t = true) :
    (∀ i : Int, 0 ≤ i → i < (t.total : Int) →
      ∃ pv, listPosition t i = some pv ∧
        listIndex t pv.1 pv.2 SearchDir.dirNone = some i) ∧
    (∀ path v, listHas t path v = some true →
      ∃ j : Int, listIndex t path v SearchDir.dirNone = some j ∧
        listPosition t j = some (path, v)) := by
  constructor
  · intro i hi0 hitot
    have hnat : i.toNat < t.total := by omega
    obtain ⟨pv, hpos, hidx⟩ := posAt_correct (sizeT t + 1) t hwf (by omega)
      i.toNat hnat
    refine ⟨pv, ?_, ?_⟩
    · simp only [listPosition]
      rw [if_neg (by omega)]
      exact hpos
    · have hcast : ((i.toNat : Int)) = i := Int.toNat_of_nonneg hi0
      simp [listIndex, hidx, hcast]
  · intro path v hhas
    obtain ⟨j, hj⟩ := listHas_idxCore path t v hhas
    have hjlt : j < t.total := idxCore_present_lt path t v j hwf hj
    refine ⟨(j : Int), ?_, ?_⟩
    · simp [listIndex, hj]
    · simp only [listPosition]
      rw [if_neg (by omega)]
      have hnat : ((j : Int)).toNat = j := by omega
      rw [hnat]
      obtain ⟨pv, hpos, hidx⟩ := posAt_correct (sizeT t + 1) t hwf (by omega)
        j hjlt
      have hinj := idxCore_inj pv.1 t pv.2 path v j hwf hidx hj
      rw [hpos]
      obtain ⟨pv1, pv2⟩ := pv
      simp only at hinj
      rw [hinj.1, hinj.2]

/-- Witness: the round trips hold on the concrete one-value list. -/
theorem C7_roundtrip_witness :
    (∃ pv, listPosition c8tree 0 = some pv ∧
      listIndex c8tree pv.1 pv.2 SearchDir.dirNone = some 0) ∧
    (∃ j : Int, listIndex c8tree [] 0 SearchDir.dirNone = some j ∧
      listPosition c8tree j = some ([], 0)) := by
  have h := C7_index_position_roundtrip c8tree (by decide)
  exact ⟨h.1 0 (by decide) (by decide), h.2 [] 0 (by decide)⟩

/-! ### C10: set and delete return values -/

theorem itemsAlt_tail {T : Type} (a : Item T) (l : List (Item T))
    (h : itemsAlt (a :: l) = true) : itemsAlt l = true := by
  match a, l with
  | _, [] => rfl
  | .vals _, .vals _ :: _ => simp [itemsAlt] at h
  | .gap _, .gap _ :: _ => simp [itemsAlt] at h
  | .vals _, .gap _ :: rest => exact h
  | .gap _, .vals _ :: rest => exact h

theorem itemsAlt_no_gap_gap {T : Type} (ys zs : List (Item T)) (a b : Nat)
    (h : itemsAlt (ys ++ .gap a :: .gap b :: zs) = true) : False := by
  induction ys with
  | nil => simp [itemsAlt] at h
  | cons y ys ih => exact ih (itemsAlt_tail y _ h)

theorem itemsAlt_no_vals_vals {T : Type} (ys zs : List (Item T))
    (a b : List T) (h : itemsAlt (ys ++ .vals a :: .vals b :: zs) = true) :
    False := by
  induction ys with
  | nil => simp [itemsAlt] at h
  | cons y ys ih => exact ih (itemsAlt_tail y _ h)

theorem setGo_snd {T : Type} (x : T) (items : List (Item T)) :
    ∀ (acc : List (Item T)) (rem : Nat),
    itemsWF (acc.reverse ++ items) = true →
    (setGo x acc items rem).map (·.2) = some (!(locItems items rem).1) := by
  induction items with
  | nil =>
    intro acc rem hwf
    by_cases hrem : rem = 0
    · subst hrem
      match hacc : acc with
      | [] => rfl
      | .vals lv :: acc' => simp [setGo, locItems]
      | .gap g :: acc' =>
        exfalso
        simp only [itemsWF, List.append_nil, Bool.and_eq_true] at hwf
        rw [List.getLast?_reverse] at hwf
        simp [hacc] at hwf
    · simp [setGo, hrem, locItems]
  | cons it rest ih =>
    intro acc rem hwf
    have hwf' : itemsWF ((it :: acc).reverse ++ rest) = true := by
      simpa [List.append_assoc] using hwf
    have halt : itemsAlt (acc.reverse ++ it :: rest) = true := by
      simp only [itemsWF, Bool.and_eq_true] at hwf
      exact hwf.1
    match it with
    | .vals l =>
      by_cases hlt : rem < l.length
      · simp [setGo, hlt, locItems]
      · have := ih (.vals l :: acc) (rem - l.length) hwf'
        simp only [setGo, hlt, if_false, locItems]
        simpa [hlt] using this
    | .gap n =>
      by_cases hlt : rem < n
      · -- the gap is split; the neighbors to merge with are value runs
        have hleft : (if rem = 0 then
            match acc with
            | [] => some (([] : List T), ([] : List (Item T)))
            | .vals lv :: acc' => some (lv, acc')
            | .gap _ :: _ => none
          else some ([], acc)) ≠ none := by
          by_cases hrem : rem = 0
          · subst hrem
            match hacc : acc with
            | [] => simp
            | .vals lv :: acc' => simp
            | .gap g :: acc' =>
              exfalso
              simp only [List.reverse_cons, List.append_assoc] at halt
              exact itemsAlt_no_gap_gap _ _ _ _ (by simpa using halt)
          · simp [hrem]
        have hright : (if rem = n - 1 then
            match rest with
            | [] => some (([] : List T), ([] : List (Item T)))
            | .vals rv :: rest' => some (rv, rest')
            | .gap _ :: _ => none
          else some ([], rest)) ≠ none := by
          by_cases hrem : rem = n - 1
          · subst hrem
            match hrest : rest with
            | [] => simp
            | .vals rv :: rest' => simp
            | .gap g :: rest' =>
              exfalso
              exact itemsAlt_no_gap_gap _ _ _ _ halt
          · simp [hrem]
        match hl : (if rem = 0 then
            match acc with
            | [] => some (([] : List T), ([] : List (Item T)))
            | .vals lv :: acc' => some (lv, acc')
            | .gap _ :: _ => none
          else some ([], acc)),
          hr : (if rem = n - 1 then
            match rest with
            | [] => some (([] : List T), ([] : List (Item T)))
            | .vals rv :: rest' => some (rv, rest')
            | .gap _ :: _ => none
          else some ([], rest)) with
        | none, _ => exact absurd hl hleft
        | some lv, none => exact absurd hr hright
        | some lv, some rv =>
          simp only [setGo, hlt, if_true, hl, hr, locItems]
          simp [hlt]
      · have := ih (.gap n :: acc) (rem - n) hwf'
        simp only [setGo, hlt, if_false, locItems]
        simpa [hlt] using this

theorem delGo_snd {T : Type} (items : List (Item T)) :
    ∀ (acc : List (Item T)) (rem : Nat),
    itemsWF (acc.reverse ++ items) = true →
    (delGo acc items rem).map (·.2) = some ((locItems items rem).1) := by
  induction items with
  | nil => intro acc rem _; simp [delGo, locItems]
  | cons it rest ih =>
    intro acc rem hwf
    have hwf' : itemsWF ((it :: acc).reverse ++ rest) = true := by
      simpa [List.append_assoc] using hwf
    have halt : itemsAlt (acc.reverse ++ it :: rest) = true := by
      simp only [itemsWF, Bool.and_eq_true] at hwf
      exact hwf.1
    match it with
    | .gap n =>
      by_cases hlt : rem < n
      · simp [delGo, hlt, locItems]
      · have := ih (.gap n :: acc) (rem - n) hwf'
        simp only [delGo, hlt, if_false, locItems]
        simpa [hlt] using this
    | .vals l =>
      by_cases hlt : rem < l.length
      · have hleft : (if rem = 0 then
            match acc with
            | [] => some ((0 : Nat), ([] : List (Item T)))
            | .gap g :: acc' => some (g, acc')
            | .vals _ :: _ => none
          else some (0, acc)) ≠ none := by
          by_cases hrem : rem = 0
          · subst hrem
            match hacc : acc with
            | [] => simp
            | .gap g :: acc' => simp
            | .vals lv :: acc' =>
              exfalso
              simp only [List.reverse_cons, List.append_assoc] at halt
              exact itemsAlt_no_vals_vals _ _ _ _ (by simpa using halt)
          · simp [hrem]
        have hright : (if rem = l.length - 1 then
            match rest with
            | [] => some ((0 : Nat), ([] : List (Item T)))
            | .gap g :: rest' => some (g, rest')
            | .vals _ :: _ => none
          else some (0, rest)) ≠ none := by
          by_cases hrem : rem = l.length - 1
          · subst hrem
            match hrest : rest with
            | [] => simp
            | .gap g :: rest' => simp
            | .vals rv :: rest' =>
              exfalso
              exact itemsAlt_no_vals_vals _ _ _ _ halt
          · simp [hrem]
        match hl : (if rem = 0 then
            match acc with
            | [] => some ((0 : Nat), ([] : List (Item T)))
            | .gap g :: acc' => some (g, acc')
            | .vals _ :: _ => none
          else some (0, acc)),
          hr : (if rem = l.length - 1 then
            match rest with
            | [] => some ((0 : Nat), ([] : List (Item T)))
            | .gap g :: rest' => some (g, rest')
            | .vals _ :: _ => none
          else some (0, rest)) with
        | none, _ => exact absurd hl hleft
        | some lg, none => exact absurd hr hright
        | some lg, some rg =>
          simp only [delGo, hlt, if_true, hl, hr, locItems]
          simp [hlt]
      · have := ih (.vals l :: acc) (rem - l.length) hwf'
        simp only [delGo, hlt, if_false, locItems]
        simpa [hlt] using this

/-- C10: `List.set(pos, value)` returns `true` exactly when the position
was not present just before the call, and `List.delete(pos)` returns
`true` exactly when it was present — for any list node whose run array
satisfies the alternation invariant the source maintains (spec §8.9). -/
theorem C10_set_delete_return_values {T : Type} (t : LTree T)
    (path : List Nat) (v : Nat) (x : T) (n : LTree T)
    (hres : resolveT t path = some n)
    (hwf : itemsWF n.items = true) :
    listSetReturns t path v x = some (!(locItems n.items v).1) ∧
    listDelReturns t path v = some ((locItems n.items v).1) ∧
    listHas t path v = some ((locItems n.items v).1) := by
  refine ⟨?_, ?_, ?_⟩
  · simp only [listSetReturns, hres, Option.bind_eq_bind, Option.some_bind,
      setItems]
    exact setGo_snd x n.items [] v (by simpa using hwf)
  · simp only [listDelReturns, hres, Option.bind_eq_bind, Option.some_bind,
      delItems]
    exact delGo_snd n.items [] v (by simpa using hwf)
  · simp [listHas, hres]

/-- C10 witness: a concrete list (value at index 0, gap, values at 2,3 of
the root; a child with one value), exercising both a present and an
absent position. -/
theorem C10_witness :
    listSetReturns (LTree.mk 3 [.vals [5], .gap 1, .vals [6, 7]] .nil)
        [] 1 (9 : Nat) = some true ∧
    listDelReturns (LTree.mk 3 [.vals [5], .gap 1, .vals [6, 7]] .nil)
        [] 2 = some true := by
  have h1 := C10_set_delete_return_values
    (LTree.mk 3 [.vals [5], .gap 1, .vals [6, 7]] .nil) [] 1 (9 : Nat)
    (LTree.mk 3 [.vals [5], .gap 1, .vals [6, 7]] .nil) rfl rfl
  have h2 := C10_set_delete_return_values
    (LTree.mk 3 [.vals [5], .gap 1, .vals [6, 7]] .nil) [] 2 (9 : Nat)
    (LTree.mk 3 [.vals [5], .gap 1, .vals [6, 7]] .nil) rfl rfl
  exact ⟨h1.1, h2.2.1⟩

/-- C9: scenario S1.  A fresh `PositionSource` with ID `"A"` produces
`"A,0,0r"`, then reuses the waypoint to produce `"A,0,1r"` and
`"A,0,2r"`, and the three strings are in ascending lexicographic
order. -/
theorem C9_sequential_append_scenario :
    psCreateBetween (psInit "A") "" "~" = some ("A,0,0r", ⟨"A", [0]⟩) ∧
    psCreateBetween ⟨"A", [0]⟩ "A,0,0r" "~" = some ("A,0,1r", ⟨"A", [1]⟩) ∧
    psCreateBetween ⟨"A", [1]⟩ "A,0,1r" "~" = some ("A,0,2r", ⟨"A", [2]⟩) ∧
    jsStrLt "A,0,0r" "A,0,1r" = true ∧
    jsStrLt "A,0,1r" "A,0,2r" = true :=
  ⟨rfl, rfl, rfl, rfl, rfl⟩

end LP
